import Mathlib

/-!
Verification of the apricotpy runtime: a shallow embedding of the
future/task state machines, the callback scheduler and the
bundle/unbundle persistence engine, together with proofs of the
specified properties.

The embedding follows the Python source:
  * `apricotpy/futures.py`   (Future, gather)
  * `apricotpy/events.py`    (Handle, TimerHandle)
  * `apricotpy/event_loop.py` and `apricotpy/persistable/event_loop.py`
    (the two `_CallbackLoop` variants)
  * `apricotpy/tasks.py`     (TaskMixin step machine)
  * `apricotpy/persistable/core.py` (Bundle, Unbundler)
-/

namespace Apricot

/-! ## Futures (`apricotpy/futures.py`)

The `Future` class is a single-assignment result cell.  Results and
exceptions are modelled as integers (the engine never inspects them).
The three states mirror the `_PENDING` / `_CANCELLED` / `_FINISHED`
string constants of the source. -/

inductive FutState
  | pending
  | cancelledS
  | finished
  deriving DecidableEq, Repr

inductive FutErr
  | invalidState
  | cancelledError
  | userExc (e : Int)
  deriving DecidableEq, Repr

structure Future where
  state : FutState
  result : Option Int
  exc : Option Int
  deriving DecidableEq, Repr

/-- A freshly constructed future: `_state = _PENDING`, no result, no
exception (`Future.__init__`). -/
def Future.mkPending : Future := ⟨.pending, none, none⟩

/-- `Future.done`: `self._state != _PENDING`. -/
def Future.done (f : Future) : Bool := f.state != .pending

/-- `Future.cancelled`: `self._state is _CANCELLED`. -/
def Future.isCancelled (f : Future) : Bool := f.state == .cancelledS

/-- `Future.cancel`: returns `False` when already done, otherwise moves
the state to `_CANCELLED` (and schedules callbacks) and returns `True`.
The pair is (returned boolean, state of the future afterwards). -/
def Future.cancel (f : Future) : Bool × Future :=
  if f.done then (false, f)
  else (true, { f with state := .cancelledS })

/-- `Future.set_result`: raises `InvalidStateError` when already done,
otherwise stores the result and moves to `_FINISHED`. -/
def Future.setResult (f : Future) (r : Int) : Except FutErr Future :=
  if f.done then .error .invalidState
  else .ok { f with result := some r, state := .finished }

/-- `Future.set_exception`: raises `InvalidStateError` when already
done, otherwise stores the exception and moves to `_FINISHED`. -/
def Future.setExc (f : Future) (e : Int) : Except FutErr Future :=
  if f.done then .error .invalidState
  else .ok { f with exc := some e, state := .finished }

/-- `Future.result`: `CancelledError` if cancelled, `InvalidStateError`
if pending, re-raise a stored exception, else the value. -/
def Future.getResult (f : Future) : Except FutErr (Option Int) :=
  if f.isCancelled then .error .cancelledError
  else if f.state != .finished then .error .invalidState
  else match f.exc with
    | some e => .error (.userExc e)
    | none => .ok f.result

/-- `Future.exception`: `CancelledError` if cancelled,
`InvalidStateError` if pending, else the stored exception (or `None`). -/
def Future.getExc (f : Future) : Except FutErr (Option Int) :=
  if f.isCancelled then .error .cancelledError
  else if f.state != .finished then .error .invalidState
  else .ok f.exc

/-! ### The gathering future (`_gathering_future_template`, `gather`)

`_GatheringFutureTemplate.__init__` stores the children as a tuple,
sets `_n_done = 0` and registers `self._child_done` as a done-callback
on every child.  `cancel` is overridden: it never touches the
gathering future's own state, it only forwards `cancel()` to each
child and returns whether any child was newly cancelled. -/

structure GatheringFuture where
  fut : Future
  children : List Future
  nDone : Nat
  deriving DecidableEq, Repr

/-- `_GatheringFutureTemplate.__init__(children, loop)`.  The second
component lists the children a `_child_done` callback was registered
on (one registration per child, in order). -/
def GatheringFuture.init (children : List Future) : GatheringFuture × List Nat :=
  (⟨Future.mkPending, children, 0⟩, List.range children.length)

/-- `gather(awaitables, loop)` on a list constructs a
`_GatheringFuture` over it (a list is not an `Awaitable`, so the
early-return branch is not taken). -/
def gather (awaitables : List Future) : GatheringFuture × List Nat :=
  GatheringFuture.init awaitables

/-- `_GatheringFutureTemplate._all_done`: sets the tuple of child
results as the gathering future's own result (the source builds a
tuple of `child.result()`; we model the aggregate result as `0`, its
value is irrelevant to the claims). -/
def GatheringFuture.allDone (g : GatheringFuture) : GatheringFuture :=
  match g.fut.setResult 0 with
  | .ok f => { g with fut := f }
  | .error _ => g

/-- `_GatheringFutureTemplate._child_done(future)`: ignore if the
gathering future is already done; propagate a child exception or
cancellation as its own exception; otherwise count the child and fire
`_all_done` once every child has completed. -/
def GatheringFuture.childDone (g : GatheringFuture) (child : Future) : GatheringFuture :=
  if g.fut.done then g
  else
    match child.getExc with
    | .error .cancelledError =>
        match g.fut.setExc 0 with
        | .ok f => { g with fut := f }
        | .error _ => g
    | .ok (some e) =>
        match g.fut.setExc e with
        | .ok f => { g with fut := f }
        | .error _ => g
    | .error _ => g  -- any other error escapes the callback, leaving the state alone
    | .ok none =>
        let g := { g with nDone := g.nDone + 1 }
        if g.nDone = g.children.length then g.allDone else g

/-- `_GatheringFutureTemplate.cancel`: `False` if already done;
otherwise cancel every child and report whether any cancellation
succeeded.  The gathering future's own state is never modified here. -/
def GatheringFuture.cancel (g : GatheringFuture) : Bool × GatheringFuture :=
  if g.fut.done then (false, g)
  else
    let res := g.children.map Future.cancel
    (res.any (·.fst), { g with children := res.map (·.snd) })

/-- The only transitions that can ever affect a gathering future after
construction: a `_child_done` callback firing for one of its children
(the `i`-th registered callback, carrying that child's state), or a
`cancel()` call.  An index outside the children is a no-op (no such
callback was ever registered). -/
inductive GatherEvent
  | childDoneAt (i : Nat) (child : Future)
  | cancelCall
  deriving DecidableEq, Repr

def GatheringFuture.applyEvent (g : GatheringFuture) : GatherEvent → GatheringFuture
  | .childDoneAt i child => if i < g.children.length then g.childDone child else g
  | .cancelCall => (g.cancel).snd

def GatheringFuture.applyEvents (g : GatheringFuture) : List GatherEvent → GatheringFuture
  | [] => g
  | e :: es => (g.applyEvent e).applyEvents es

/-! ## Timer handles (`apricotpy/events.py`, class `TimerHandle`)

A `TimerHandle` carries a fire time `_when`, the callable, the
captured arguments and the cancelled flag.  Fire times are modelled as
integers (only their ordering matters here); the callable is
identified by a code.  `__lt__`/`__gt__` compare `_when` alone, while
`__eq__` compares all four fields. -/

structure TimerHandle where
  whenT : Int
  fn : Nat
  args : List Int
  cancelled : Bool
  deriving DecidableEq, Repr

/-- `TimerHandle.__lt__`: `self._when < other._when`. -/
def TimerHandle.lt (a b : TimerHandle) : Bool := a.whenT < b.whenT

/-- `TimerHandle.__gt__`: `self._when > other._when`. -/
def TimerHandle.gt (a b : TimerHandle) : Bool := a.whenT > b.whenT

/-- `TimerHandle.__eq__`: equal `_when`, `_fn`, `_args` and
`_cancelled` (in the model, structural equality). -/
def TimerHandle.eqT (a b : TimerHandle) : Bool := a == b

/-- `TimerHandle.__le__`: `self._when < other._when` or `__eq__`. -/
def TimerHandle.le (a b : TimerHandle) : Bool := a.lt b || a.eqT b

/-! ## The `heapq` routines

`_CallbackLoop` keeps its timer queue (and, in the persistable
variant, also its ready queue) as a binary heap manipulated with
`heapq.heappush` / `heapq.heappop`.  These are translated verbatim
from CPython's `heapq`, parametrised by the `__lt__` comparison. -/

/-- The loop of `heapq._siftdown`: walk from `pos` towards `startpos`,
moving parents down while `newitem < parent`, then place `newitem`.
The fuel argument only bounds the iteration count; `pos` strictly
decreases at every step, so fuel `pos` (or more) is always enough. -/
def siftdownLoop (lt : α → α → Bool) (newitem : α) :
    Nat → List α → Nat → Nat → List α
  | 0, heap, _, pos => heap.set pos newitem
  | fuel + 1, heap, startpos, pos =>
    if startpos < pos then
      let parentpos := (pos - 1) / 2
      match heap.get? parentpos with
      | none => heap.set pos newitem
      | some parent =>
        if lt newitem parent then
          siftdownLoop lt newitem fuel (heap.set pos parent) startpos parentpos
        else heap.set pos newitem
    else heap.set pos newitem

/-- `heapq._siftdown(heap, startpos, pos)`. -/
def siftdown (lt : α → α → Bool) (heap : List α) (startpos pos : Nat) : List α :=
  match heap.get? pos with
  | some newitem => siftdownLoop lt newitem pos heap startpos pos
  | none => heap

/-- `heapq.heappush(heap, item)`: append, then sift down from the last
position. -/
def heappush (lt : α → α → Bool) (heap : List α) (item : α) : List α :=
  siftdown lt (heap ++ [item]) 0 heap.length

/-- The loop of `heapq._siftup`: bubble the smaller child up from
`pos` until hitting a leaf, then place `newitem` and restore with
`_siftdown`.  `pos` strictly increases towards `heap.length`, so fuel
`heap.length` is always enough. -/
def siftupLoop (lt : α → α → Bool) (newitem : α) :
    Nat → List α → Nat → Nat → List α
  | 0, heap, startpos, pos => siftdown lt (heap.set pos newitem) startpos pos
  | fuel + 1, heap, startpos, pos =>
    let endpos := heap.length
    if 2 * pos + 1 < endpos then
      let childpos :=
        if 2 * pos + 2 < endpos then
          match heap.get? (2 * pos + 1), heap.get? (2 * pos + 2) with
          | some c, some r => if !(lt c r) then 2 * pos + 2 else 2 * pos + 1
          | _, _ => 2 * pos + 1
        else 2 * pos + 1
      match heap.get? childpos with
      | none => siftdown lt (heap.set pos newitem) startpos pos
      | some child =>
        siftupLoop lt newitem fuel (heap.set pos child) startpos childpos
    else
      siftdown lt (heap.set pos newitem) startpos pos

/-- `heapq._siftup(heap, pos)`. -/
def siftup (lt : α → α → Bool) (heap : List α) (pos : Nat) : List α :=
  match heap.get? pos with
  | some newitem => siftupLoop lt newitem heap.length heap pos pos
  | none => heap

/-- `heapq.heappop(heap)`: pop the last element; if anything remains,
the root is returned and the last element is sifted into its place. -/
def heappop (lt : α → α → Bool) (heap : List α) : Option (α × List α) :=
  match heap.getLast? with
  | none => none
  | some lastelt =>
    match heap.dropLast with
    | [] => some (lastelt, [])
    | r0 :: rtail => some (r0, siftup lt (lastelt :: rtail) 0)

/-! ## The callback scheduler

`apricotpy/event_loop.py` keeps the ready queue as a `deque` (append
on `call_soon`, `popleft` in `_tick`) and the timers as a `heapq`
min-heap ordered by `TimerHandle.__lt__` (i.e. by `_when`).

`apricotpy/persistable/event_loop.py` instead keeps the ready queue as
a `heapq` list: `_insert_ready` sets `handle._when` to the current
time and `heappush`es the handle; `_tick` drains it with
`self._ready.pop(0)`.  Crucially the persistable `Handle.__lt__`
compares `_when_ready` (not `_when`), which `__init__` sets to `None`
and which stays `None` until the handle has run, so under Python 2
semantics every comparison between queued handles is `None < None`,
i.e. `False`.

Handles are shared between the two models.  A handle's callable is
identified by `fn`; running a callable may cancel other handles, which
is modelled by the environment `cb : Nat → List Nat` giving the handle
ids a callable cancels when it runs.  (Handles newly scheduled by a
running callback are fresh objects and play no role in the claims
below.)  `Handle.cancel` also clears `_fn`/`_args`; since a cancelled
handle is never run, only the flag matters here. -/

structure LHandle where
  hid : Nat
  fn : Nat
  cancelled : Bool
  whenT : Int              -- TimerHandle._when (fire time)
  whenReady : Option Int   -- persistable Handle._when_ready (None until run)
  deriving DecidableEq, Repr

/-- `TimerHandle.__lt__` as used by the scheduled-timers heap:
compares `_when`. -/
def LHandle.timerLt (a b : LHandle) : Bool := a.whenT < b.whenT

/-- Persistable `Handle.__lt__` as used by the ready heap: compares
`_when_ready` under Python 2 semantics (`None < None` is `False`,
`None` is less than any number). -/
def LHandle.readyLt (a b : LHandle) : Bool :=
  match a.whenReady, b.whenReady with
  | none, none => false
  | none, some _ => true
  | some _, none => false
  | some x, some y => x < y

/-- The state of a `_CallbackLoop` (either variant): ready queue and
scheduled-timers heap. -/
structure LoopState where
  ready : List LHandle
  scheduled : List LHandle
  deriving DecidableEq, Repr

/-- `Handle.cancel()` applied to the handle with identity `i`: the
one-way flag is set wherever that handle object is held. -/
def cancelIds (ids : List Nat) (hs : List LHandle) : List LHandle :=
  hs.map fun h => if h.hid ∈ ids then { h with cancelled := true } else h

def LoopState.cancelHandle (st : LoopState) (i : Nat) : LoopState :=
  ⟨cancelIds [i] st.ready, cancelIds [i] st.scheduled⟩

/-- The ready-draining loop shared by both `_tick` implementations:
`todo = len(self._ready)` iterations, each popping the front handle,
skipping it if its (freshly read) cancelled flag is set, and otherwise
running it.  Running a handle appends its id to the run log and
applies the callable's cancellations to the rest of the state. -/
def runReady (cb : Nat → List Nat) :
    Nat → LoopState → List Nat → LoopState × List Nat
  | 0, st, log => (st, log)
  | n + 1, st, log =>
    match st.ready with
    | [] => (st, log)
    | h :: rest =>
      if h.cancelled then runReady cb n { st with ready := rest } log
      else
        let ids := cb h.fn
        runReady cb n
          ⟨cancelIds ids rest, cancelIds ids st.scheduled⟩
          (log ++ [h.hid])

/-- The timer-promotion loop of the base `_tick`: pop every timer due
before `end_time` from the heap (in heap order), clear its scheduled
flag, and append it to the ready deque. -/
def promoteBase (endT : Int) : Nat → LoopState → LoopState
  | 0, st => st
  | fuel + 1, st =>
    match st.scheduled with
    | [] => st
    | h0 :: _ =>
      if h0.whenT < endT then
        match heappop LHandle.timerLt st.scheduled with
        | none => st
        | some (h, rest) =>
          promoteBase endT fuel { ready := st.ready ++ [h], scheduled := rest }
      else st

/-- `_CallbackLoop._tick` of `apricotpy/event_loop.py`: promote due
timers, then drain the ready queue.  `endT` is
`self._event_loop.time() + self._event_loop.clock_resolution`.
Returns the new state and the ids of the handles that were run, in
order. -/
def tickBase (cb : Nat → List Nat) (endT : Int) (st : LoopState) :
    LoopState × List Nat :=
  let st1 := promoteBase endT st.scheduled.length st
  runReady cb st1.ready.length st1 []

/-- `_CallbackLoop.call_soon` of the base loop: construct a fresh
(uncancelled) handle and append it to the ready deque. -/
def callSoonBase (st : LoopState) (i fn : Nat) : LoopState :=
  { st with ready := st.ready ++ [⟨i, fn, false, 0, none⟩] }

/-- `_CallbackLoop._insert_ready` of the persistable loop: stamp
`handle._when` with the current time and `heappush` the handle onto
the ready heap (ordered by `Handle.__lt__`, i.e. by `_when_ready`). -/
def insertReadyPers (now : Int) (st : LoopState) (h : LHandle) : LoopState :=
  { st with ready := heappush LHandle.readyLt st.ready { h with whenT := now } }

/-- `_CallbackLoop.call_soon` of the persistable loop: a fresh handle
(`_when_ready = None`, not cancelled) goes through `_insert_ready`. -/
def callSoonPers (now : Int) (st : LoopState) (i fn : Nat) : LoopState :=
  insertReadyPers now st ⟨i, fn, false, 0, none⟩

/-- The timer-promotion loop of the persistable `_tick`: due timers
are popped from the heap and fed to `_insert_ready`. -/
def promotePers (now endT : Int) : Nat → LoopState → LoopState
  | 0, st => st
  | fuel + 1, st =>
    match st.scheduled with
    | [] => st
    | h0 :: _ =>
      if h0.whenT < endT then
        match heappop LHandle.timerLt st.scheduled with
        | none => st
        | some (h, rest) =>
          promotePers now endT fuel (insertReadyPers now { st with scheduled := rest } h)
      else st

/-- `_CallbackLoop._tick` of `apricotpy/persistable/event_loop.py`:
promote due timers via `_insert_ready`, then run `len(self._ready)`
handles popped with `self._ready.pop(0)`, skipping cancelled ones. -/
def tickPers (cb : Nat → List Nat) (now endT : Int) (st : LoopState) :
    LoopState × List Nat :=
  let st1 := promotePers now endT st.scheduled.length st
  runReady cb st1.ready.length st1 []

/-- `n` consecutive base-loop ticks, accumulating the run log. -/
def ticksBase (cb : Nat → List Nat) (endT : Int) :
    Nat → LoopState → LoopState × List Nat
  | 0, st => (st, [])
  | n + 1, st =>
    let (st1, log1) := tickBase cb endT st
    let (st2, log2) := ticksBase cb endT n st1
    (st2, log1 ++ log2)

/-! ## The task step machine (`apricotpy/tasks.py`, `TaskMixin`)

A task is an awaitable whose user code is a family of step methods.
Step `0` is `execute`; a step is identified by its number.  Invoking a
Python method with the wrong number of positional arguments raises
`TypeError` before the body runs, so a step carries its arity.  A step
body returns a directive: a plain value, `Continue(next)`,
`Await(other, next)` (`other` is the single awaited future of the
scenario, whose completion is delivered by the loop as an
`otherDone` event), or raises. -/

inductive Directive
  | value (v : Int)
  | continue_ (next : Nat)
  | await_ (next : Nat)
  | raiseE (e : Int)
  deriving DecidableEq, Repr

structure StepSpec where
  arity : Nat
  body : List Int → Directive

abbrev TaskProgram := Nat → StepSpec

/-- The distinguished exception a Python `TypeError` is modelled as. -/
def typeErrorCode : Int := -1

/-- The task-relevant state of `TaskMixin`: its future plus
`_next_step`, `_awaiting_result` (`none` models the `_NO_RESULT`
sentinel), `_awaiting` (whether `_await_done` is registered on the
awaited future), and `_callback_handle` (whether a `_step` callback is
currently scheduled).  `log` records every actual invocation of a step
body, with the positional arguments it received. -/
structure TaskState where
  fut : Future
  nextStep : Option Nat
  awaitingResult : Option Int
  awaiting : Bool
  stepScheduled : Bool
  log : List (Nat × List Int)
  deriving DecidableEq, Repr

/-- The state of a freshly constructed task (`TaskMixin.__init__`,
which ends by scheduling the first `_step`). -/
def TaskState.initial : TaskState :=
  ⟨Future.mkPending, none, none, false, true, []⟩

/-- Set a future field, treating an `InvalidStateError` as leaving the
state unchanged (such an error would escape into the loop's exception
handler; it does not occur in the runs considered here). -/
def Future.forceSetResult (f : Future) (r : Int) : Future :=
  match f.setResult r with
  | .ok f2 => f2
  | .error _ => f

def Future.forceSetExc (f : Future) (e : Int) : Future :=
  match f.setExc e with
  | .ok f2 => f2
  | .error _ => f

/-- `TaskMixin._step`: clear `_callback_handle`; pick the function
(`_next_step`, or `execute` the first time) and the argument list (the
stored awaiting result is appended when `_next_step` is set and the
result sentinel is set — note the sentinel is never reset); call it;
on success clear `_next_step` and interpret the directive; on an
exception (including a `TypeError` from an arity mismatch) become the
task's terminal exception. -/
def TaskState.step (prog : TaskProgram) (st0 : TaskState) : TaskState :=
  let st := { st0 with stepScheduled := false }
  let fnArgs : Nat × List Int :=
    match st.nextStep with
    | some s => (s, match st.awaitingResult with
                    | some r => [r]
                    | none => [])
    | none => (0, [])
  let fn := fnArgs.fst
  let args := fnArgs.snd
  let spec := prog fn
  if args.length = spec.arity then
    let st := { st with log := st.log ++ [(fn, args)] }
    match spec.body args with
    | .raiseE e => { st with fut := st.fut.forceSetExc e }
    | .value v => { st with nextStep := none, fut := st.fut.forceSetResult v }
    | .continue_ next =>
        { st with nextStep := some next, stepScheduled := true }
    | .await_ next =>
        { st with nextStep := some next, awaiting := true }
  else
    -- TypeError raised by the call itself: the body never runs and
    -- `_next_step` is left as it was.
    { st with fut := st.fut.forceSetExc typeErrorCode }

/-- How the awaited future `other` completed. -/
inductive AwaitOutcome
  | success (v : Int)
  | failure (e : Int)
  | cancelledA
  deriving DecidableEq, Repr

/-- `TaskMixin._await_done(awaitable)`: ignore if the task is done;
drop the awaitable reference; cancel the task if the awaitable was
cancelled; propagate its exception; deliver the result to the task
itself when no next step is registered; otherwise store the result and
reschedule `_step`. -/
def TaskState.awaitDone (st : TaskState) (oc : AwaitOutcome) : TaskState :=
  if st.fut.done then st
  else
    let st := { st with awaiting := false }
    match oc with
    | .cancelledA => { st with fut := (st.fut.cancel).snd }
    | .failure e => { st with fut := st.fut.forceSetExc e }
    | .success v =>
        match st.nextStep with
        | none => { st with fut := st.fut.forceSetResult v }
        | some _ => { st with awaitingResult := some v, stepScheduled := true }

/-- External events driving one task: a loop tick running the
scheduled `_step` callback (a no-op when none is scheduled), and the
loop delivering `other`'s completion to the registered `_await_done`
callback (a no-op when none is registered). -/
inductive TaskEvent
  | tick
  | otherDone (oc : AwaitOutcome)
  deriving DecidableEq, Repr

def TaskState.applyEvent (prog : TaskProgram) (st : TaskState) :
    TaskEvent → TaskState
  | .tick => if st.stepScheduled then st.step prog else st
  | .otherDone oc => if st.awaiting then st.awaitDone oc else st

def TaskState.run (prog : TaskProgram) (st : TaskState) :
    List TaskEvent → TaskState
  | [] => st
  | e :: es => (st.applyEvent prog e).run prog es

/-! ## The persistence engine (`apricotpy/persistable/core.py`)

Identities (`persistable_id`, a UUID) are modelled as naturals.  The
values a `save_instance_state` implementation may hand to
`Bundle.__setitem__` are primitives, persistables (written down by
identity), lists, string-keyed mappings, functions and bound methods
(`func`, carried by the qualified name `utils.function_name`
computes; `_check_valid_bundle_value` accepts them and
`Bundle._encode` wraps them in a fresh `Function` persistable),
tuples (`tupleV`, a sequence that is not a `list`, which the value
check rejects with `TypeError`), and `unsupported` for the remaining
values the check rejects with `ValueError`.  Encoded values replace
each persistable by a `_Reference` to its identity. -/

abbrev PId := Nat

inductive Prim
  | intP (n : Int)
  | strP (s : String)
  | uuidP (u : Nat)
  | excP (e : Int)
  | noneP
  deriving DecidableEq, Repr

/-- A raw value as handed to `Bundle.__setitem__`. -/
inductive RValue
  | prim (p : Prim)
  | pers (q : PId)
  | listV (vs : List RValue)
  | dictV (kvs : List (String × RValue))
  | func (name : String)
  | tupleV (vs : List RValue)
  | unsupported

/-- An encoded value as stored inside a `Bundle`. -/
inductive BValue
  | prim (p : Prim)
  | ref (q : PId)
  | listV (ws : List BValue)
  | dictV (kws : List (String × BValue))

/-- A decoded value as produced by `Unbundler.decode`: persistable
references have become object instances (numbered by allocation). -/
inductive DValue
  | prim (p : Prim)
  | inst (i : Nat)
  | listV (ds : List DValue)
  | dictV (kds : List (String × DValue))

/-- Association-list lookup (Python `dict` access by key). -/
def alookup (k : Nat) : List (Nat × β) → Option β
  | [] => none
  | (k', v) :: rest => if k' = k then some v else alookup k rest

/-- Association-list update of an existing key. -/
def aupdate (k : Nat) (v : β) : List (Nat × β) → List (Nat × β)
  | [] => []
  | (k', v') :: rest =>
    if k' = k then (k', v) :: rest else (k', v') :: aupdate k v rest

/-- Python `dict` assignment `d[k] = v`: overwrite an existing key or
append a new one in insertion order. -/
def dinsert (k : Nat) (v : β) (l : List (Nat × β)) : List (Nat × β) :=
  if (alookup k l).isSome then aupdate k v l else l ++ [(k, v)]

/-- One persistable object of the graph, as seen through the
`LoopPersistable` contract: its class, the loop it lives in (if any),
and the key/value pairs its `save_instance_state` writes (and its
`load_instance_state` reads back). -/
structure PObj where
  cls : String
  loopRef : Option PId
  fields : List (String × RValue)

/-- A persistable object graph: finitely many objects keyed by
identity.  The live loop, when present, is *not* one of the graph
objects — it stays resident in the process. -/
abbrev Graph := List (PId × PObj)

/-- One sub-bundle of the side-table: the stored class name, the
reference to the owning loop, and the encoded items. -/
structure BData where
  cls : String
  loopRef : Option PId
  items : List (String × BValue)

/-- The shared side-table `root._bundles`: identity to sub-bundle.
The bootstrapped entry for the root's loop maps to `None`. -/
abbrev SideTable := List (PId × Option BData)

/-! ### Encoding (`Bundle.__init__`, `Bundle._encode`,
`Bundle._ensure_bundle`)

All four functions take a fuel argument that strictly decreases on
every call; `bundleFuel` below is always sufficient.  `encodeV` is
`Bundle._encode` (given that `_check_valid_bundle_value` passed, which
the `unsupported` case models failing); `ensureB` is
`Bundle._ensure_bundle` (return the reference if the identity is
already in the side-table — even as the bootstrapped `None` — else
recursively construct the sub-bundle); `bundleP` is the non-root
`Bundle.__init__`: record class name and loop reference, register the
still-empty bundle in the shared side-table *before* calling
`save_instance_state`, then fill in the encoded items. -/

/-- `_check_valid_bundle_value`, in source order: a `LoopPersistable`
passes; a sequence that is not a string passes only when it is a
`list` (a tuple raises `TypeError("Unsupported sequence type ...,
use a list")`); a function or bound method passes; `int`, `float`,
`basestring`, `uuid.UUID`, `dict`, `BaseException` and `None` pass;
anything else raises `ValueError`. -/
def checkValidValue : RValue → Bool
  | .pers _ => true
  | .listV _ => true
  | .tupleV _ => false
  | .func _ => true
  | .prim _ => true
  | .dictV _ => true
  | .unsupported => false

/-- The `persistable_id` of a freshly constructed wrapper object: a
brand-new UUID, in particular one distinct from every identity
already in the side-table. -/
def freshId (st : SideTable) : PId :=
  (st.map Prod.fst).foldr Nat.max 0 + 1

/-- The key/value pairs `Function.save_instance_state` writes, in
order (`persistables.py`): the inherited `PERSISTABLE_ID` (the
wrapper's fresh uuid), `FN` (the function's qualified name, from
`utils.function_name`), then `ARGS` — `self._args`, which is a
*tuple* (`()` for a wrapper made by `Bundle._encode`; for a bound
method `(self._fn.__self__,) + self._args`, also a tuple) — and
`KWARGS`. -/
def functionSaveState (u : Nat) (name : String) : List (String × RValue) :=
  [("PERSISTABLE_ID", .prim (.uuidP u)),
   ("FN", .prim (.strP name)),
   ("ARGS", .tupleV []),
   ("KWARGS", .dictV [])]

mutual

def encodeV (G : Graph) : Nat → SideTable → RValue → Option (BValue × SideTable)
  | 0, _, _ => none
  | _ + 1, st, .prim p => some (.prim p, st)
  | fuel + 1, st, .pers q =>
    match ensureB G fuel st q with
    | some st' => some (.ref q, st')
    | none => none
  | fuel + 1, st, .listV vs =>
    match encodeList G fuel st vs with
    | some (ws, st') => some (.listV ws, st')
    | none => none
  | fuel + 1, st, .dictV kvs =>
    match encodeKVs G fuel st kvs with
    | some (kws, st') => some (.dictV kws, st')
    | none => none
  | fuel + 1, st, .func name =>
    -- `inspect.isfunction(value) or inspect.ismethod(value)`:
    -- `fn_obj = Function(value)` is a fresh wrapper with a brand-new
    -- uuid, so `_ensure_bundle(fn_obj)` always misses the side-table
    -- and constructs `Bundle(fn_obj)`: register the still-empty
    -- bundle, run the wrapper's `save_instance_state`, fill in the
    -- items, return a `_Reference` — the `bundleP` shape.  The
    -- wrapper's state stores `ARGS` as a tuple, which the value check
    -- rejects, so the inner encoding in fact always fails
    -- (`functionState_never_encodes`) and the `TypeError` aborts the
    -- whole pass.
    let w := freshId st
    let st1 := dinsert w
      (some ⟨"apricotpy.persistable.persistables.Function", none, []⟩) st
    match encodeKVs G fuel st1 (functionSaveState w name) with
    | some (items, st2) =>
      some (.ref w, aupdate w
        (some ⟨"apricotpy.persistable.persistables.Function", none, items⟩) st2)
    | none => none
  | _ + 1, _, .tupleV _ =>
    -- a sequence that is not a `list`:
    -- `TypeError("Unsupported sequence type ({}), use a list")`.
    none
  | _ + 1, _, .unsupported => none

def encodeList (G : Graph) : Nat → SideTable → List RValue → Option (List BValue × SideTable)
  | 0, _, _ => none
  | _ + 1, st, [] => some ([], st)
  | fuel + 1, st, v :: vs =>
    match encodeV G fuel st v with
    | none => none
    | some (w, st1) =>
      match encodeList G fuel st1 vs with
      | none => none
      | some (ws, st2) => some (w :: ws, st2)

def encodeKVs (G : Graph) : Nat → SideTable → List (String × RValue) →
    Option (List (String × BValue) × SideTable)
  | 0, _, _ => none
  | _ + 1, st, [] => some ([], st)
  | fuel + 1, st, (k, v) :: kvs =>
    match encodeV G fuel st v with
    | none => none
    | some (w, st1) =>
      match encodeKVs G fuel st1 kvs with
      | none => none
      | some (kws, st2) => some ((k, w) :: kws, st2)

def ensureB (G : Graph) : Nat → SideTable → PId → Option SideTable
  | 0, _, _ => none
  | fuel + 1, st, q =>
    match alookup q st with
    | some _ => some st
    | none => bundleP G fuel st q

def bundleP (G : Graph) : Nat → SideTable → PId → Option SideTable
  | 0, _, _ => none
  | fuel + 1, st, p =>
    match alookup p G with
    | none => none
    | some obj =>
      let st1 := dinsert p (some ⟨obj.cls, obj.loopRef, []⟩) st
      match encodeKVs G fuel st1 obj.fields with
      | none => none
      | some (items, st2) =>
        some (aupdate p (some ⟨obj.cls, obj.loopRef, items⟩) st2)

end

/-- The root `Bundle(persistable)` call: bootstrap the side-table with
the root's loop mapped to `None` (when it has one), then bundle the
root itself.  Returns the completed side-table. -/
def mkBundle (G : Graph) (root : PId) (fuel : Nat) : Option SideTable :=
  match alookup root G with
  | none => none
  | some obj =>
    let st0 : SideTable :=
      match obj.loopRef with
      | some l => [(l, none)]
      | none => []
    bundleP G fuel st0 root

/-! ### Decoding (`Bundle.unbundle`, `Unbundler`)

Reconstructed object instances are numbered by allocation order;
instance `0` is reserved for the live loop object passed to
`unbundle(loop)`.  `us.persistables` is the shared identity-to-object
map; `us.loaded` records, per allocated instance, its class and the
decoded state its `load_instance_state` received; `us.events` is an
observation log of the decoding pass. -/

inductive UEvent
  | alloc (p : PId) (i : Nat)
  | loadStart (p : PId)
  | resolve (p : PId) (i : Nat)
  | loadEnd (p : PId)
  deriving DecidableEq, Repr

structure LObj where
  cls : String
  fields : List (String × DValue)

structure UState where
  persistables : List (PId × Nat)
  nextInst : Nat
  loaded : List (Nat × LObj)
  events : List UEvent

mutual

/-- `Unbundler.get_persistable(ref)`: an identity already present in
the shared map resolves to the instance registered there (this is what
a cyclic reference encountered mid-load hits); otherwise the
side-table entry is fetched — `_get_bundle` raises `ValueError` when
the reference is absent, and a bootstrapped `None` entry cannot be
unbundled — and lazily unbundled.  Every successful resolution is
recorded as a `resolve` event. -/
def getPers (T : SideTable) : Nat → UState → PId → Option (Nat × UState)
  | 0, _, _ => none
  | fuel + 1, us, q =>
    match alookup q us.persistables with
    | some i => some (i, { us with events := us.events ++ [.resolve q i] })
    | none =>
      match alookup q T with
      | none => none           -- ValueError: dangling reference
      | some none => none      -- the bootstrapped loop entry is not a Bundle
      | some (some bd) =>
        match unbundleP T fuel us q bd with
        | some (i, us') =>
          some (i, { us' with events := us'.events ++ [.resolve q i] })
        | none => none

def decodeV (T : SideTable) : Nat → UState → BValue → Option (DValue × UState)
  | 0, _, _ => none
  | _ + 1, us, .prim p => some (.prim p, us)
  | fuel + 1, us, .ref q =>
    match getPers T fuel us q with
    | some (i, us') => some (.inst i, us')
    | none => none
  | fuel + 1, us, .listV ws =>
    match decodeList T fuel us ws with
    | some (ds, us') => some (.listV ds, us')
    | none => none
  | fuel + 1, us, .dictV kws =>
    match decodeKVs T fuel us kws with
    | some (kds, us') => some (.dictV kds, us')
    | none => none

def decodeList (T : SideTable) : Nat → UState → List BValue → Option (List DValue × UState)
  | 0, _, _ => none
  | _ + 1, us, [] => some ([], us)
  | fuel + 1, us, w :: ws =>
    match decodeV T fuel us w with
    | none => none
    | some (d, us1) =>
      match decodeList T fuel us1 ws with
      | none => none
      | some (ds, us2) => some (d :: ds, us2)

def decodeKVs (T : SideTable) : Nat → UState → List (String × BValue) →
    Option (List (String × DValue) × UState)
  | 0, _, _ => none
  | _ + 1, us, [] => some ([], us)
  | fuel + 1, us, (k, w) :: kws =>
    match decodeV T fuel us w with
    | none => none
    | some (d, us1) =>
      match decodeKVs T fuel us1 kws with
      | none => none
      | some (kds, us2) => some ((k, d) :: kds, us2)

/-- `Unbundler.do()` for a not-yet-unbundled identity: resolve the
class and allocate an instance without running its constructor
(`persistable_class.__new__`), register it in the shared map *before*
`load_instance_state` runs, then load: the `LoopPersistable` contract
first resolves the bundle's loop reference (`saved_state.loop()`) and
then reads every stored item through the decoding view. -/
def unbundleP (T : SideTable) : Nat → UState → PId → BData → Option (Nat × UState)
  | 0, _, _, _ => none
  | fuel + 1, us, p, bd =>
    let i := us.nextInst
    let us1 : UState :=
      { us with nextInst := i + 1,
                persistables := dinsert p i us.persistables,
                events := us.events ++ [.alloc p i, .loadStart p] }
    match (match bd.loopRef with
           | none => some us1
           | some l =>
             match getPers T fuel us1 l with
             | some (_, us') => some us'
             | none => none) with
    | none => none
    | some us2 =>
      match decodeKVs T fuel us2 bd.items with
      | none => none
      | some (dfields, us3) =>
        some (i, { us3 with loaded := us3.loaded ++ [(i, ⟨bd.cls, dfields⟩)],
                            events := us3.events ++ [.loadEnd p] })

end

/-- `Bundle.unbundle(loop)`: a fresh root `Unbundler` whose shared map
is bootstrapped with the live loop (instance `0`) under the root
bundle's loop reference, then `do()` on the root bundle. -/
def unbundleRoot (T : SideTable) (root : PId) (fuel : Nat) : Option (Nat × UState) :=
  match alookup root T with
  | some (some bd) =>
    let us0 : UState :=
      match bd.loopRef with
      | some l => ⟨[(l, 0)], 1, [], []⟩
      | none => ⟨[], 1, [], []⟩
    unbundleP T fuel us0 root bd
  | _ => none

/-! ### Well-formed graphs, pure encoding, and expected decodings

A graph is well formed (for bundling from a given root) when the root
is present, identities are unique, the live loop (the root's loop, if
any) is not itself a graph object, every object's loop is either
absent or the root's loop, and every saved value is supported and
refers only to graph objects or to that loop. -/

mutual

def valOk (G : Graph) (rl : Option PId) : RValue → Bool
  | .prim _ => true
  | .pers q => (alookup q G).isSome || rl == some q
  | .listV vs => valOkList G rl vs
  | .dictV kvs => valOkKVs G rl kvs
  | .func _ => false
  | .tupleV _ => false
  | .unsupported => false

def valOkList (G : Graph) (rl : Option PId) : List RValue → Bool
  | [] => true
  | v :: vs => valOk G rl v && valOkList G rl vs

def valOkKVs (G : Graph) (rl : Option PId) : List (String × RValue) → Bool
  | [] => true
  | (_, v) :: kvs => valOk G rl v && valOkKVs G rl kvs

end

/-- The root's loop reference. -/
def rootLoopOf (G : Graph) (root : PId) : Option PId :=
  match alookup root G with
  | some obj => obj.loopRef
  | none => none

def objOk (G : Graph) (rl : Option PId) (obj : PObj) : Bool :=
  (obj.loopRef == none || obj.loopRef == rl) && valOkKVs G rl obj.fields

def WF (G : Graph) (root : PId) : Bool :=
  (alookup root G).isSome &&
  decide (G.map Prod.fst).Nodup &&
  (match rootLoopOf G root with
   | some l => (alookup l G).isNone && !(decide (l = root))
   | none => true) &&
  G.all fun po => objOk G (rootLoopOf G root) po.snd

mutual

/-- Encoding as a value-to-value function: `Bundle._encode` never lets
the side-table state influence the encoded value itself (a persistable
always becomes a `_Reference` to its identity). -/
def encPureV : RValue → Option BValue
  | .prim p => some (.prim p)
  | .pers q => some (.ref q)
  | .listV vs =>
    match encPureList vs with
    | some ws => some (.listV ws)
    | none => none
  | .dictV kvs =>
    match encPureKVs kvs with
    | some kws => some (.dictV kws)
    | none => none
  | .func _ => none
  | .tupleV _ => none
  | .unsupported => none

def encPureList : List RValue → Option (List BValue)
  | [] => some []
  | v :: vs =>
    match encPureV v, encPureList vs with
    | some w, some ws => some (w :: ws)
    | _, _ => none

def encPureKVs : List (String × RValue) → Option (List (String × BValue))
  | [] => some []
  | (k, v) :: kvs =>
    match encPureV v, encPureKVs kvs with
    | some w, some kws => some ((k, w) :: kws)
    | _, _ => none

end

/-- The completed sub-bundle an object must end up with. -/
def finalData (obj : PObj) : Option BData :=
  match encPureKVs obj.fields with
  | some items => some ⟨obj.cls, obj.loopRef, items⟩
  | none => none

mutual

/-- The decoded value expected for a raw value under an
identity-to-instance map: primitives survive, a persistable becomes
the instance registered for its identity, containers decode
element-wise.  This is the isomorphism the round-trip must realise. -/
def mapDV (M : List (PId × Nat)) : RValue → Option DValue
  | .prim p => some (.prim p)
  | .pers q =>
    match alookup q M with
    | some i => some (.inst i)
    | none => none
  | .listV vs =>
    match mapDVList M vs with
    | some ds => some (.listV ds)
    | none => none
  | .dictV kvs =>
    match mapDVKVs M kvs with
    | some kds => some (.dictV kds)
    | none => none
  | .func _ => none
  | .tupleV _ => none
  | .unsupported => none

def mapDVList (M : List (PId × Nat)) : List RValue → Option (List DValue)
  | [] => some []
  | v :: vs =>
    match mapDV M v, mapDVList M vs with
    | some d, some ds => some (d :: ds)
    | _, _ => none

def mapDVKVs (M : List (PId × Nat)) : List (String × RValue) →
    Option (List (String × DValue))
  | [] => some []
  | (k, v) :: kvs =>
    match mapDV M v, mapDVKVs M kvs with
    | some d, some kds => some ((k, d) :: kds)
    | _, _ => none

end

mutual

/-- The persistable references occurring in an encoded value. -/
def refsB : BValue → List PId
  | .prim _ => []
  | .ref q => [q]
  | .listV ws => refsBList ws
  | .dictV kws => refsBKVs kws

def refsBList : List BValue → List PId
  | [] => []
  | w :: ws => refsB w ++ refsBList ws

def refsBKVs : List (String × BValue) → List PId
  | [] => []
  | (_, w) :: kws => refsB w ++ refsBKVs kws

end

mutual

/-- Sizes of raw values, measuring the recursion depth of one
encoding pass (used only to compute a sufficient fuel). -/
def szV : RValue → Nat
  | .prim _ => 1
  | .pers _ => 2
  | .listV vs => szL vs + 1
  | .dictV kvs => szKV kvs + 1
  | .func _ => 2
  | .tupleV vs => szL vs + 1
  | .unsupported => 1

def szL : List RValue → Nat
  | [] => 1
  | v :: vs => szV v + szL vs

def szKV : List (String × RValue) → Nat
  | [] => 1
  | (_, v) :: kvs => szV v + szKV kvs

end

mutual

/-- Sizes of encoded values, for the decoding fuel. -/
def szB : BValue → Nat
  | .prim _ => 1
  | .ref _ => 2
  | .listV ws => szBL ws + 1
  | .dictV kws => szBKV kws + 1

def szBL : List BValue → Nat
  | [] => 1
  | w :: ws => szB w + szBL ws

def szBKV : List (String × BValue) → Nat
  | [] => 1
  | (_, w) :: kws => szB w + szBKV kws

end

/-- Graph ids that have no side-table entry yet. -/
def unstarted (G : Graph) (st : SideTable) : Nat :=
  (G.map Prod.fst).countP fun q => (alookup q st).isNone

/-- An upper bound on the per-object encoding cost. -/
def maxFields (G : Graph) : Nat :=
  (G.map fun po => szKV po.snd.fields).foldr Nat.max 0

/-- Fuel that always suffices for `mkBundle`. -/
def bundleFuel (G : Graph) : Nat :=
  (maxFields G + 1) * (G.length + 1)

/-- Side-table ids that are not yet in the persistables map. -/
def remaining (T : SideTable) (us : UState) : Nat :=
  (T.map Prod.fst).countP fun q => (alookup q us.persistables).isNone

/-- An upper bound on the per-object decoding cost. -/
def maxItems (T : SideTable) : Nat :=
  (T.map fun qd => match qd.snd with
    | some bd => szBKV bd.items
    | none => 0).foldr Nat.max 0

/-- Fuel that always suffices for `unbundleRoot`. -/
def unbundleFuel (T : SideTable) : Nat :=
  (maxItems T + 2) * (T.length + 1)

/-- Side-table growth: every existing entry survives with its value. -/
def stLe (st st' : SideTable) : Prop :=
  ∀ q d, alookup q st = some d → alookup q st' = some d

/-- A completed side-table entry: exactly the class, loop reference
and purely-encoded items of the graph object with that identity, with
every stored reference resolvable in the table. -/
def FinalAt (G : Graph) (st : SideTable) (q : PId) : Prop :=
  ∃ obj items, alookup q G = some obj ∧ encPureKVs obj.fields = some items ∧
    alookup q st = some (some ⟨obj.cls, obj.loopRef, items⟩) ∧
    ∀ r ∈ refsBKVs items, (alookup r st).isSome = true

/-- Every reference stored anywhere in the side-table has an entry. -/
def RefClosed (st : SideTable) : Prop :=
  ∀ q bd, alookup q st = some (some bd) →
    ∀ r ∈ refsBKVs bd.items, (alookup r st).isSome

mutual

/-- Decoding a stored value under an identity-to-instance map, as a
pure function: the value an `Unbundler.decode` call must produce once
every referenced identity is pinned to its instance. -/
def decBV (M : List (PId × Nat)) : BValue → Option DValue
  | .prim p => some (.prim p)
  | .ref q =>
    match alookup q M with
    | some i => some (.inst i)
    | none => none
  | .listV ws =>
    match decBL M ws with
    | some ds => some (.listV ds)
    | none => none
  | .dictV kws =>
    match decBKV M kws with
    | some kds => some (.dictV kds)
    | none => none

def decBL (M : List (PId × Nat)) : List BValue → Option (List DValue)
  | [] => some []
  | w :: ws =>
    match decBV M w, decBL M ws with
    | some d, some ds => some (d :: ds)
    | _, _ => none

def decBKV (M : List (PId × Nat)) : List (String × BValue) →
    Option (List (String × DValue))
  | [] => some []
  | (k, w) :: kws =>
    match decBV M w, decBKV M kws with
    | some d, some kds => some ((k, d) :: kds)
    | _, _ => none

end

/-- Unbundler-state growth: the shared map and the loaded instances
only gain entries, the allocation counter only advances, the event log
only extends. -/
def usLe (us us' : UState) : Prop :=
  (∀ q i, alookup q us.persistables = some i → alookup q us'.persistables = some i) ∧
  (∀ j o, alookup j us.loaded = some o → alookup j us'.loaded = some o) ∧
  us.nextInst ≤ us'.nextInst ∧
  ∃ Δ, us'.events = us.events ++ Δ

/-- Every `loadStart` in the log is preceded by the allocation (and
registration) of that identity. -/
def allocBeforeLoad (evs : List UEvent) : Prop :=
  ∀ l1 p l2, evs = l1 ++ UEvent.loadStart p :: l2 → ∃ i, UEvent.alloc p i ∈ l1

/-- The bookkeeping invariant of one unbundling pass. -/
def UInv (T : SideTable) (us : UState) : Prop :=
  (us.persistables.map Prod.fst).Nodup ∧
  (us.persistables.map Prod.snd).Nodup ∧
  (∀ pi ∈ us.persistables, pi.snd < us.nextInst) ∧
  (us.loaded.map Prod.fst).Nodup ∧
  (∀ jo ∈ us.loaded, jo.fst < us.nextInst) ∧
  allocBeforeLoad us.events ∧
  (∀ p i, UEvent.alloc p i ∈ us.events → alookup p us.persistables = some i) ∧
  (∀ p i, UEvent.resolve p i ∈ us.events → alookup p us.persistables = some i) ∧
  (∀ j o, alookup j us.loaded = some o →
    ∃ p bd dfields, alookup p us.persistables = some j ∧
      alookup p T = some (some bd) ∧ o = ⟨bd.cls, dfields⟩ ∧
      decBKV us.persistables bd.items = some dfields)

/-- Every copy of handle `i` held by the loop is cancelled (the flag
of a handle object is shared; it occurs at most once anyway). -/
def LoopState.allCancelled (st : LoopState) (i : Nat) : Prop :=
  (∀ h ∈ st.ready, h.hid = i → h.cancelled = true) ∧
  (∀ h ∈ st.scheduled, h.hid = i → h.cancelled = true)

/-- Every handle queued in the persistable loop still has
`_when_ready = None` (it is set only when the handle runs). -/
def LoopState.readyNone (st : LoopState) : Prop :=
  (∀ h ∈ st.ready, h.whenReady = none) ∧
  (∀ h ∈ st.scheduled, h.whenReady = none)

/-! ## Theorems -/

/-! ### Futures: the single-transition contract (C5) -/

/-- C5: a Future starts Pending; each of `set_result`, `set_exception`
and `cancel` can successfully leave Pending; after any one of these
transitions has happened the future is done, every further
`set_result`/`set_exception` raises `InvalidStateError`, and every
further `cancel` returns `False` and leaves the future unchanged. -/
theorem c5_future_single_transition (f : Future) (h : f.state = .pending) :
    ((f.cancel).fst = true ∧
     (∀ r, ∃ g, f.setResult r = .ok g) ∧
     (∀ e, ∃ g, f.setExc e = .ok g)) ∧
    (∀ g : Future,
      (g = (f.cancel).snd ∨ (∃ r, f.setResult r = .ok g) ∨
        (∃ e, f.setExc e = .ok g)) →
      g.state ≠ .pending ∧
      (∀ r, g.setResult r = .error .invalidState) ∧
      (∀ e, g.setExc e = .error .invalidState) ∧
      g.cancel = (false, g)) := by
  have hdone : f.done = false := by
    simp [Future.done, h]
  have hcan : f.cancel = (true, { f with state := .cancelledS }) := by
    simp [Future.cancel, hdone]
  have hres : ∀ r, f.setResult r =
      .ok { f with result := some r, state := .finished } := by
    intro r
    simp [Future.setResult, hdone]
  have hexc : ∀ e, f.setExc e =
      .ok { f with exc := some e, state := .finished } := by
    intro e
    simp [Future.setExc, hdone]
  constructor
  · exact ⟨by rw [hcan], fun r => ⟨_, hres r⟩, fun e => ⟨_, hexc e⟩⟩
  · have hterm : ∀ g : Future, g.state ≠ .pending →
        (∀ r, g.setResult r = .error .invalidState) ∧
        (∀ e, g.setExc e = .error .invalidState) ∧
        g.cancel = (false, g) := by
      intro g hg
      have hgd : g.done = true := by
        simp [Future.done]
        exact hg
      refine ⟨fun r => ?_, fun e => ?_, ?_⟩ <;>
        simp [Future.setResult, Future.setExc, Future.cancel, hgd]
    rintro g (hg | ⟨r, hg⟩ | ⟨e, hg⟩)
    · rw [hcan] at hg
      subst hg
      exact ⟨by simp, hterm _ (by simp)⟩
    · rw [hres r] at hg
      injection hg with hg
      subst hg
      exact ⟨by simp, hterm _ (by simp)⟩
    · rw [hexc e] at hg
      injection hg with hg
      subst hg
      exact ⟨by simp, hterm _ (by simp)⟩

/-- Witness for C5 at a concrete pending future. -/
theorem c5_witness :
    (Future.mkPending.state = .pending) ∧
    ((Future.mkPending.cancel).fst = true ∧
      ∀ r, Future.mkPending.setResult r = .error .invalidState → False) :=
  ⟨rfl, (c5_future_single_transition Future.mkPending rfl).1.1,
    fun r hr => by
      rcases (c5_future_single_transition Future.mkPending rfl).1.2.1 r with ⟨g, hg⟩
      rw [hr] at hg
      cases hg⟩

/-! ### The empty gathering future (C10) -/

theorem gatherEmpty_invariant (evs : List GatherEvent) (g : GatheringFuture)
    (hc : g.children = []) (hp : g.fut.state = .pending) :
    (g.applyEvents evs).children = [] ∧
    (g.applyEvents evs).fut.state = .pending := by
  induction evs generalizing g with
  | nil => exact ⟨hc, hp⟩
  | cons e es ih =>
    have hstep : (g.applyEvent e).children = [] ∧
        (g.applyEvent e).fut.state = .pending := by
      cases e with
      | childDoneAt i child =>
        simp [GatheringFuture.applyEvent, hc, hp]
      | cancelCall =>
        have hdone : g.fut.done = false := by simp [Future.done, hp]
        simp [GatheringFuture.applyEvent, GatheringFuture.cancel, hdone, hc, hp]
    exact ih _ hstep.1 hstep.2

/-- C10: `gather` of the empty list registers no child done-callbacks,
its future stays Pending under every possible sequence of events that
could affect it, and `cancel()` iterates zero children, returns
`False`, and leaves the state Pending. -/
theorem c10_gather_empty :
    (gather []).snd = [] ∧
    (∀ evs, (((gather []).fst).applyEvents evs).fut.state = .pending) ∧
    ((gather []).fst).cancel = (false, (gather []).fst) ∧
    ((((gather []).fst).cancel).snd).fut.state = .pending := by
  refine ⟨rfl, fun evs => (gatherEmpty_invariant evs _ rfl rfl).2, ?_, rfl⟩
  rfl

/-! ### The TimerHandle comparison relation (C9) -/

/-- C9 counterexample: two distinct timer handles with the same fire
time but different callables are unequal, yet neither `__lt__` nor
`__gt__` holds — the tie is *not* broken by the remaining fields, so
the claimed trichotomy on non-equal handles fails. -/
theorem c9_counterexample :
    (⟨0, 0, [], false⟩ : TimerHandle) ≠ (⟨0, 1, [], false⟩ : TimerHandle) ∧
    TimerHandle.lt ⟨0, 0, [], false⟩ ⟨0, 1, [], false⟩ = false ∧
    TimerHandle.gt ⟨0, 0, [], false⟩ ⟨0, 1, [], false⟩ = false ∧
    TimerHandle.eqT ⟨0, 0, [], false⟩ ⟨0, 1, [], false⟩ = false := by
  refine ⟨by decide, by decide, by decide, by decide⟩

/-- C9 (amended): the comparison relation on `TimerHandle` orders by
fire time alone — `__lt__`/`__gt__` never look at the remaining
fields.  It is irreflexive and transitive, and for two handles with
*different* fire times exactly one of less-than and greater-than
holds; for distinct handles with equal fire time neither holds (only
`__eq__` consults callable, arguments and cancelled flag). -/
theorem c9_timer_order_amended :
    (∀ a b : TimerHandle, a.lt b = true ↔ a.whenT < b.whenT) ∧
    (∀ a b : TimerHandle, a.gt b = true ↔ b.lt a = true) ∧
    (∀ a : TimerHandle, a.lt a = false) ∧
    (∀ a b c : TimerHandle, a.lt b = true → b.lt c = true → a.lt c = true) ∧
    (∀ a b : TimerHandle, a.whenT ≠ b.whenT →
      (a.lt b = true ∧ a.gt b = false) ∨ (a.gt b = true ∧ a.lt b = false)) ∧
    (∀ a b : TimerHandle, a.whenT = b.whenT → a.lt b = false ∧ a.gt b = false) := by
  refine ⟨?_, ?_, ?_, ?_, ?_, ?_⟩
  · intro a b
    simp [TimerHandle.lt]
  · intro a b
    simp [TimerHandle.gt, TimerHandle.lt]
  · intro a
    simp [TimerHandle.lt]
  · intro a b c hab hbc
    simp only [TimerHandle.lt, decide_eq_true_eq] at *
    omega
  · intro a b hne
    simp only [TimerHandle.lt, TimerHandle.gt, decide_eq_true_eq, decide_eq_false_iff_not]
    omega
  · intro a b he
    simp [TimerHandle.lt, TimerHandle.gt, he]

/-- Witness for C9 (amended), on handles with distinct fire times. -/
theorem c9_witness :
    TimerHandle.lt ⟨0, 0, [], false⟩ ⟨1, 0, [], false⟩ = true ∧
    TimerHandle.gt ⟨0, 0, [], false⟩ ⟨1, 0, [], false⟩ = false := by
  have h := c9_timer_order_amended.2.2.2.2.1
    ⟨0, 0, [], false⟩ ⟨1, 0, [], false⟩ (by decide)
  rcases h with h | h
  · exact h
  · exact absurd h.1 (by decide)

/-! ### Scheduler lemmas -/

theorem cancelIds_append (ids : List Nat) (xs ys : List LHandle) :
    cancelIds ids (xs ++ ys) = cancelIds ids xs ++ cancelIds ids ys :=
  List.map_append _ _ _

theorem cancelIds_length (ids : List Nat) (hs : List LHandle) :
    (cancelIds ids hs).length = hs.length :=
  List.length_map _ _

theorem cancelIds_cons_not_mem {ids : List Nat} {x : LHandle}
    (hx : x.hid ∉ ids) (ys : List LHandle) :
    cancelIds ids (x :: ys) = x :: cancelIds ids ys := by
  simp [cancelIds, hx]

theorem mem_cancelIds_src {ids : List Nat} {hs : List LHandle} {h' : LHandle}
    (hm : h' ∈ cancelIds ids hs) :
    ∃ h0 ∈ hs, h0.hid = h'.hid ∧
      (h'.cancelled = false → h0.cancelled = false) ∧
      (h0.cancelled = true → h'.cancelled = true) := by
  rcases List.mem_map.mp hm with ⟨h0, hh0, heq⟩
  by_cases hin : h0.hid ∈ ids
  · rw [if_pos hin] at heq
    subst heq
    refine ⟨h0, hh0, rfl, fun hc => ?_, fun _ => rfl⟩
    exact absurd hc (by simp)
  · rw [if_neg hin] at heq
    subst heq
    exact ⟨h0, hh0, rfl, fun hc => hc, fun hc => hc⟩

theorem cancelIds_keeps_cancelled {ids : List Nat} {hs : List LHandle} {i : Nat}
    (hac : ∀ h ∈ hs, h.hid = i → h.cancelled = true) :
    ∀ h ∈ cancelIds ids hs, h.hid = i → h.cancelled = true := by
  intro h' hm hi
  rcases mem_cancelIds_src hm with ⟨h0, hh0, hid, _, hkeep⟩
  exact hkeep (hac h0 hh0 (hid.trans hi))

theorem mem_siftdownLoop {lt : α → α → Bool} {v : α} :
    ∀ fuel heap s p (y : α), y ∈ siftdownLoop lt v fuel heap s p →
      y = v ∨ y ∈ heap := by
  intro fuel
  induction fuel with
  | zero =>
    intro heap s p y hy
    rcases List.mem_or_eq_of_mem_set hy with hy | hy
    · exact Or.inr hy
    · exact Or.inl hy
  | succ fuel ih =>
    intro heap s p y hy
    simp only [siftdownLoop] at hy
    split at hy
    · split at hy
      · rcases List.mem_or_eq_of_mem_set hy with hy | hy
        · exact Or.inr hy
        · exact Or.inl hy
      · rename_i parent hget
        split at hy
        · rcases ih _ _ _ _ hy with hy | hy
          · exact Or.inl hy
          · rcases List.mem_or_eq_of_mem_set hy with hy | hy
            · exact Or.inr hy
            · exact Or.inr (hy ▸ List.get?_mem hget)
        · rcases List.mem_or_eq_of_mem_set hy with hy | hy
          · exact Or.inr hy
          · exact Or.inl hy
    · rcases List.mem_or_eq_of_mem_set hy with hy | hy
      · exact Or.inr hy
      · exact Or.inl hy

theorem mem_siftdown {lt : α → α → Bool} {heap : List α} {s p : Nat} {y : α}
    (hy : y ∈ siftdown lt heap s p) : y ∈ heap := by
  unfold siftdown at hy
  rcases hget : heap.get? p with _ | v
  · rw [hget] at hy
    exact hy
  · rw [hget] at hy
    rcases mem_siftdownLoop _ _ _ _ _ hy with hy | hy
    · exact hy ▸ List.get?_mem hget
    · exact hy

theorem mem_siftupLoop {lt : α → α → Bool} {v : α} :
    ∀ fuel heap s p (y : α), y ∈ siftupLoop lt v fuel heap s p →
      y = v ∨ y ∈ heap := by
  intro fuel
  induction fuel with
  | zero =>
    intro heap s p y hy
    rcases List.mem_or_eq_of_mem_set (mem_siftdown hy) with hy | hy
    · exact Or.inr hy
    · exact Or.inl hy
  | succ fuel ih =>
    intro heap s p y hy
    simp only [siftupLoop] at hy
    split at hy
    · split at hy
      · rcases List.mem_or_eq_of_mem_set (mem_siftdown hy) with hy | hy
        · exact Or.inr hy
        · exact Or.inl hy
      · rename_i child hget
        rcases ih _ _ _ _ hy with hy | hy
        · exact Or.inl hy
        · rcases List.mem_or_eq_of_mem_set hy with hy | hy
          · exact Or.inr hy
          · exact Or.inr (hy ▸ List.get?_mem hget)
    · rcases List.mem_or_eq_of_mem_set (mem_siftdown hy) with hy | hy
      · exact Or.inr hy
      · exact Or.inl hy

theorem mem_siftup {lt : α → α → Bool} {heap : List α} {p : Nat} {y : α}
    (hy : y ∈ siftup lt heap p) : y ∈ heap := by
  unfold siftup at hy
  rcases hget : heap.get? p with _ | v
  · rw [hget] at hy
    exact hy
  · rw [hget] at hy
    rcases mem_siftupLoop _ _ _ _ _ hy with hy | hy
    · exact hy ▸ List.get?_mem hget
    · exact hy

theorem heappop_mem {lt : α → α → Bool} {heap rest : List α} {x : α}
    (hp : heappop lt heap = some (x, rest)) :
    x ∈ heap ∧ ∀ y ∈ rest, y ∈ heap := by
  unfold heappop at hp
  rcases hlast : heap.getLast? with _ | lastelt
  · rw [hlast] at hp
    cases hp
  · rw [hlast] at hp
    have hlmem : lastelt ∈ heap := List.mem_of_mem_getLast? hlast
    rcases hdrop : heap.dropLast with _ | ⟨r0, rtail⟩
    · rw [hdrop] at hp
      injection hp with hp
      injection hp with hp1 hp2
      subst hp1
      subst hp2
      exact ⟨hlmem, by simp⟩
    · rw [hdrop] at hp
      injection hp with hp
      injection hp with hp1 hp2
      subst hp1
      subst hp2
      have hsub : ∀ z ∈ heap.dropLast, z ∈ heap :=
        fun z hz => List.dropLast_subset _ hz
      refine ⟨hsub r0 (hdrop ▸ List.mem_cons_self _ _), ?_⟩
      intro y hy
      rcases List.mem_cons.mp (mem_siftup hy) with hy | hy
      · exact hy ▸ hlmem
      · exact hsub y (hdrop ▸ List.mem_cons_of_mem _ hy)

theorem heappop_of_ne_nil {lt : α → α → Bool} {heap : List α}
    (h : heap ≠ []) : ∃ x rest, heappop lt heap = some (x, rest) := by
  unfold heappop
  rcases hlast : heap.getLast? with _ | lastelt
  · exact absurd (List.getLast?_eq_none_iff.mp hlast) h
  · rcases hdrop : heap.dropLast with _ | ⟨r0, rtail⟩
    · exact ⟨lastelt, [], rfl⟩
    · exact ⟨r0, _, rfl⟩

/-- Draining the ready queue only ever appends run ids taken from
uncancelled entries of the current ready queue, and it preserves the
all-copies-cancelled property of any handle. -/
theorem runReady_spec (cb : Nat → List Nat) :
    ∀ n (st : LoopState) (log : List Nat),
      ∃ Δ, (runReady cb n st log).2 = log ++ Δ ∧
        (∀ j ∈ Δ, ∃ h ∈ st.ready, h.hid = j ∧ h.cancelled = false) ∧
        (∀ i, st.allCancelled i → ((runReady cb n st log).1).allCancelled i) := by
  intro n
  induction n with
  | zero =>
    intro st log
    exact ⟨[], by simp [runReady], by simp, fun i h => h⟩
  | succ n ih =>
    rintro ⟨ready, scheduled⟩ log
    rcases ready with _ | ⟨h, rest⟩
    · exact ⟨[], by simp [runReady], by simp, fun i hi => by simpa [runReady] using hi⟩
    · by_cases hc : h.cancelled = true
      · rcases ih ⟨rest, scheduled⟩ log with ⟨Δ, hlog, hsrc, hac⟩
        refine ⟨Δ, ?_, ?_, ?_⟩
        · simp only [runReady, hc, if_pos]
          exact hlog
        · intro j hj
          rcases hsrc j hj with ⟨h', hh', hj', hc'⟩
          exact ⟨h', List.mem_cons_of_mem _ hh', hj', hc'⟩
        · intro i hi
          simp only [runReady, hc, if_pos]
          refine hac i ⟨?_, hi.2⟩
          intro h' hh' hi'
          exact hi.1 h' (List.mem_cons_of_mem _ hh') hi'
      · rw [Bool.not_eq_true] at hc
        rcases ih ⟨cancelIds (cb h.fn) rest, cancelIds (cb h.fn) scheduled⟩
            (log ++ [h.hid]) with ⟨Δ, hlog, hsrc, hac⟩
        refine ⟨h.hid :: Δ, ?_, ?_, ?_⟩
        · simp only [runReady, hc, Bool.false_eq_true, if_false]
          rw [hlog]
          simp
        · intro j hj
          rcases List.mem_cons.mp hj with hj | hj
          · exact ⟨h, List.mem_cons_self _ _, hj.symm, hc⟩
          · rcases hsrc j hj with ⟨h', hh', hj', hc'⟩
            rcases mem_cancelIds_src hh' with ⟨h0, hh0, hid0, hkeep, _⟩
            exact ⟨h0, List.mem_cons_of_mem _ hh0, hid0.trans hj', hkeep hc'⟩
        · intro i hi
          simp only [runReady, hc, Bool.false_eq_true, if_false]
          refine hac i ⟨?_, ?_⟩
          · exact cancelIds_keeps_cancelled
              (fun h' hh' => hi.1 h' (List.mem_cons_of_mem _ hh'))
          · exact cancelIds_keeps_cancelled hi.2

/-- The base-loop timer promotion only appends to the ready queue,
moving handles out of the scheduled heap. -/
theorem promoteBase_spec (endT : Int) :
    ∀ fuel (st : LoopState),
      ∃ E, (promoteBase endT fuel st).ready = st.ready ++ E ∧
        (∀ h ∈ E, h ∈ st.scheduled) ∧
        (∀ h ∈ (promoteBase endT fuel st).scheduled, h ∈ st.scheduled) := by
  intro fuel
  induction fuel with
  | zero =>
    intro st
    exact ⟨[], by simp [promoteBase], by simp, fun h hh => hh⟩
  | succ fuel ih =>
    rintro ⟨ready, scheduled⟩
    rcases scheduled with _ | ⟨h0, tl⟩
    · refine ⟨[], by simp [promoteBase], by simp, fun h hh => ?_⟩
      simp only [promoteBase] at hh
      exact hh
    · by_cases hdue : h0.whenT < endT
      · rcases @heappop_of_ne_nil _ LHandle.timerLt
            (h0 :: tl) (by simp) with ⟨x, rest, hpop⟩
        rcases heappop_mem hpop with ⟨hx, hrest⟩
        rcases ih ⟨ready ++ [x], rest⟩ with ⟨E, hE, hEsrc, hSsrc⟩
        refine ⟨x :: E, ?_, ?_, ?_⟩
        · simp only [promoteBase, if_pos hdue, hpop]
          rw [hE]
          simp
        · intro h hh
          rcases List.mem_cons.mp hh with hh | hh
          · exact hh ▸ hx
          · exact hrest _ (hEsrc h hh)
        · intro h hh
          simp only [promoteBase, if_pos hdue, hpop] at hh
          exact hrest _ (hSsrc h hh)
      · refine ⟨[], by simp [promoteBase, if_neg hdue], by simp, fun h hh => ?_⟩
        simpa [promoteBase, if_neg hdue] using hh

/-- One base-loop tick neither runs a fully-cancelled handle nor
revives it. -/
theorem tickBase_allCancelled (cb : Nat → List Nat) (endT : Int)
    (s : LoopState) (i : Nat) (hs : s.allCancelled i) :
    i ∉ (tickBase cb endT s).2 ∧ (tickBase cb endT s).1.allCancelled i := by
  obtain ⟨E, hE, hEsrc, hSsrc⟩ := promoteBase_spec endT s.scheduled.length s
  have hs1ac : (promoteBase endT s.scheduled.length s).allCancelled i := by
    constructor
    · intro h hh hi
      rw [hE] at hh
      rcases List.mem_append.mp hh with hh | hh
      · exact hs.1 h hh hi
      · exact hs.2 h (hEsrc h hh) hi
    · intro h hh hi
      exact hs.2 h (hSsrc h hh) hi
  obtain ⟨Δ, hΔ, hsrc, hacp⟩ :=
    runReady_spec cb (promoteBase endT s.scheduled.length s).ready.length
      (promoteBase endT s.scheduled.length s) []
  constructor
  · show i ∉ (runReady cb _ _ []).2
    rw [hΔ, List.nil_append]
    intro hmem
    rcases hsrc i hmem with ⟨h, hh, hid, hcf⟩
    rw [hs1ac.1 h hh hid] at hcf
    cases hcf
  · exact hacp i hs1ac

/-- C7: a handle whose cancelled flag is set before it has run is never
invoked by any number of subsequent ticks (the flag is re-read right
before invocation, also for timers already promoted into the ready
set); cancelling is one-way — `cancel()` marks every copy and no
operation unmarks it; and a callback running earlier in the very same
tick pass can still prevent a later, already-dequeued handle from
running (the flag is checked freshly: in the concrete tick below the
first handle's callable cancels the second, and only id 1 runs). -/
theorem c7_cancelled_handle_never_runs (cb : Nat → List Nat) (endT : Int)
    (st : LoopState) (i : Nat) (hac : st.allCancelled i) :
    (∀ n, i ∉ (ticksBase cb endT n st).2) ∧
    (∀ s : LoopState, (s.cancelHandle i).allCancelled i) ∧
    (∀ (s : LoopState) (j : Nat), s.allCancelled i →
      (s.cancelHandle j).allCancelled i) ∧
    (tickBase (fun f => if f = 100 then [2] else []) 0
        ⟨[⟨1, 100, false, 0, none⟩, ⟨2, 101, false, 0, none⟩], []⟩).2 = [1] := by
  refine ⟨?_, ?_, ?_, by rfl⟩
  · have hmain : ∀ n (s : LoopState), s.allCancelled i →
        i ∉ (ticksBase cb endT n s).2 := by
      intro n
      induction n with
      | zero =>
        intro s hs
        simp [ticksBase]
      | succ n ih =>
        intro s hs
        obtain ⟨hrun, hkeep⟩ := tickBase_allCancelled cb endT s i hs
        rcases htb : tickBase cb endT s with ⟨s1, log1⟩
        simp only [ticksBase, htb]
        rcases hts : ticksBase cb endT n s1 with ⟨s2, log2⟩
        simp only [List.mem_append]
        rintro (hmem | hmem)
        · exact hrun (htb ▸ hmem)
        · have := ih s1 (by rw [htb] at hkeep; exact hkeep)
          rw [hts] at this
          exact this hmem
    exact fun n => hmain n st hac
  · intro s
    constructor
    · intro h hh hi
      rcases mem_cancelIds_src hh with ⟨h0, _, hid0, _, _⟩
      rcases List.mem_map.mp hh with ⟨h1, hh1, heq⟩
      by_cases hin : h1.hid ∈ [i]
      · rw [if_pos hin] at heq
        subst heq
        rfl
      · rw [if_neg hin] at heq
        subst heq
        exact absurd (by simp [hi]) hin
    · intro h hh hi
      rcases List.mem_map.mp hh with ⟨h1, hh1, heq⟩
      by_cases hin : h1.hid ∈ [i]
      · rw [if_pos hin] at heq
        subst heq
        rfl
      · rw [if_neg hin] at heq
        subst heq
        exact absurd (by simp [hi]) hin
  · intro s j hs
    exact ⟨cancelIds_keeps_cancelled hs.1, cancelIds_keeps_cancelled hs.2⟩

theorem set_append_length (l : List α) (x y : α) :
    (l ++ [x]).set l.length y = l ++ [y] := by
  induction l with
  | nil => rfl
  | cons a t ih => simp [List.set, ih]

/-- Pushing onto the persistable ready heap appends: every queued
handle still has `_when_ready = None`, so `Handle.__lt__` compares
`None < None`, which is `False`, and `_siftdown` leaves the new item
in the last slot. -/
theorem heappush_none_append (heap : List LHandle) (item : LHandle)
    (hall : ∀ h ∈ heap, h.whenReady = none) (hitem : item.whenReady = none) :
    heappush LHandle.readyLt heap item = heap ++ [item] := by
  unfold heappush siftdown
  have hget : (heap ++ [item]).get? heap.length = some item := by
    rw [List.get?_append_right (le_refl _)]
    simp
  rw [hget]
  rcases hlen : heap.length with _ | n
  · have hnil : heap = [] := List.length_eq_zero.mp hlen
    subst hnil
    rfl
  · have hplt : (n + 1 - 1) / 2 < heap.length := by
      rw [hlen]
      omega
    have hpar : (heap ++ [item]).get? ((n + 1 - 1) / 2) =
        heap.get? ((n + 1 - 1) / 2) := List.get?_append hplt
    rcases hget2 : heap.get? ((n + 1 - 1) / 2) with _ | parent
    · rw [hget2] at hpar
      simp only [siftdownLoop, hlen]
      rw [if_pos (Nat.succ_pos n), hpar]
      rw [← hlen, set_append_length]
    · have hpnone : parent.whenReady = none := hall parent (List.get?_mem hget2)
      have hltf : LHandle.readyLt item parent = false := by
        simp [LHandle.readyLt, hitem, hpnone]
      simp only [siftdownLoop, hlen]
      rw [if_pos (Nat.succ_pos n), hpar, hget2]
      simp only [hltf, Bool.false_eq_true, if_false]
      rw [← hlen, set_append_length]

/-- `_insert_ready` of the persistable loop, under the queued-handle
invariant, appends the time-stamped handle. -/
theorem insertReadyPers_append (now : Int) (st : LoopState) (h : LHandle)
    (hall : ∀ x ∈ st.ready, x.whenReady = none) (hh : h.whenReady = none) :
    insertReadyPers now st h =
      { st with ready := st.ready ++ [{ h with whenT := now }] } := by
  unfold insertReadyPers
  rw [heappush_none_append st.ready { h with whenT := now } hall hh]

/-- The persistable-loop timer promotion also only appends to the
ready queue (keeping the queued-handle invariant). -/
theorem promotePers_spec (now endT : Int) :
    ∀ fuel (st : LoopState),
      (∀ x ∈ st.ready, x.whenReady = none) →
      (∀ x ∈ st.scheduled, x.whenReady = none) →
      ∃ E, (promotePers now endT fuel st).ready = st.ready ++ E := by
  intro fuel
  induction fuel with
  | zero =>
    intro st _ _
    exact ⟨[], by simp [promotePers]⟩
  | succ fuel ih =>
    rintro ⟨ready, scheduled⟩ hr hsch
    rcases scheduled with _ | ⟨h0, tl⟩
    · exact ⟨[], by simp [promotePers]⟩
    · by_cases hdue : h0.whenT < endT
      · rcases @heappop_of_ne_nil _ LHandle.timerLt
            (h0 :: tl) (by simp) with ⟨x, rest, hpop⟩
        rcases heappop_mem hpop with ⟨hx, hrest⟩
        have hxnone : x.whenReady = none := hsch x hx
        have hins : insertReadyPers now ⟨ready, rest⟩ x =
            { ready := ready ++ [{ x with whenT := now }], scheduled := rest } := by
          exact insertReadyPers_append now ⟨ready, rest⟩ x hr hxnone
        have hr2 : ∀ y ∈ ready ++ [{ x with whenT := now }], y.whenReady = none := by
          intro y hy
          rcases List.mem_append.mp hy with hy | hy
          · exact hr y hy
          · rcases List.mem_cons.mp hy with hy | hy
            · rw [hy]
              exact hxnone
            · cases hy
        have hs2 : ∀ y ∈ rest, y.whenReady = none := fun y hy => hsch y (hrest y hy)
        rcases ih ⟨ready ++ [{ x with whenT := now }], rest⟩ hr2 hs2 with ⟨E, hE⟩
        refine ⟨{ x with whenT := now } :: E, ?_⟩
        simp only [promotePers, if_pos hdue, hpop, hins]
        rw [hE]
        simp
      · exact ⟨[], by simp [promotePers, if_neg hdue]⟩

/-- Draining a ready queue that contains uncancelled handles `ha`
followed immediately by `hb` — neither of which any callable cancels —
runs `ha`'s callable and then `hb`'s, in that order. -/
theorem runReady_pair (cb : Nat → List Nat) (ha hb : LHandle)
    (hfa : ∀ f, ha.hid ∉ cb f) (hfb : ∀ f, hb.hid ∉ cb f)
    (hca : ha.cancelled = false) (hcb : hb.cancelled = false) :
    ∀ n L0 (sched : List LHandle) (log : List Nat) (L2 : List LHandle),
      L0.length = n →
      ∃ l1 l2, (runReady cb (L0 ++ ha :: hb :: L2).length
          ⟨L0 ++ ha :: hb :: L2, sched⟩ log).2 = log ++ l1 ++ ha.hid :: hb.hid :: l2 := by
  intro n
  induction n with
  | zero =>
    intro L0 sched log L2 hlen
    have hnil : L0 = [] := List.length_eq_zero.mp hlen
    subst hnil
    simp only [List.nil_append, List.length_cons]
    have hb' : cancelIds (cb ha.fn) (hb :: L2) = hb :: cancelIds (cb ha.fn) L2 :=
      cancelIds_cons_not_mem (hfb ha.fn) L2
    simp only [runReady, hca, Bool.false_eq_true, if_false, hb']
    simp only [runReady, hcb, Bool.false_eq_true, if_false]
    obtain ⟨Δ, hΔ, _, _⟩ := runReady_spec cb L2.length
      ⟨cancelIds (cb hb.fn) (cancelIds (cb ha.fn) L2),
       cancelIds (cb hb.fn) (cancelIds (cb ha.fn) sched)⟩
      (log ++ [ha.hid] ++ [hb.hid])
    refine ⟨[], Δ, ?_⟩
    rw [hΔ]
    simp
  | succ n ih =>
    intro L0 sched log L2 hlen
    rcases L0 with _ | ⟨h, L0t⟩
    · cases hlen
    · have hlt : L0t.length = n := by simpa using hlen
      by_cases hc : h.cancelled = true
      · have := ih L0t sched log L2 hlt
        rcases this with ⟨l1, l2, hres⟩
        refine ⟨l1, l2, ?_⟩
        simp only [List.cons_append, List.length_cons, runReady, hc, if_pos]
        exact hres
      · rw [Bool.not_eq_true] at hc
        have hsplit : cancelIds (cb h.fn) (L0t ++ ha :: hb :: L2) =
            cancelIds (cb h.fn) L0t ++ ha :: hb :: cancelIds (cb h.fn) L2 := by
          rw [cancelIds_append]
          rw [cancelIds_cons_not_mem (hfa h.fn), cancelIds_cons_not_mem (hfb h.fn)]
        have hlenc : (cancelIds (cb h.fn) L0t).length = L0t.length := cancelIds_length _ _
        rcases ih (cancelIds (cb h.fn) L0t) (cancelIds (cb h.fn) sched)
          (log ++ [h.hid]) (cancelIds (cb h.fn) L2) (hlenc.trans hlt) with ⟨l1, l2, hres⟩
        refine ⟨h.hid :: l1, l2, ?_⟩
        simp only [List.cons_append, List.length_cons, List.append_eq, runReady, hc,
          Bool.false_eq_true, if_false]
        have hfuel : (L0t ++ ha :: hb :: L2).length =
            (cancelIds (cb h.fn) L0t ++ ha :: hb :: cancelIds (cb h.fn) L2).length := by
          simp [cancelIds_length]
        rw [hfuel, hsplit, hres]
        simp

/-- C6: `call_soon(a)` then `call_soon(b)` with no intervening tick,
followed by a single `tick()`, runs `a`'s callable and then
immediately `b`'s — on the base (deque) loop unconditionally, and on
the persistable (heap) loop under its queued-handle invariant
(`_when_ready` still `None`), where `heappush` degenerates to an
append and `_tick` pops from the front.  The hypotheses say that no
callable run by this tick cancels the two fresh handles. -/
theorem c6_call_soon_fifo (cb : Nat → List Nat) (st : LoopState)
    (ia ib fa fb : Nat) (endT now : Int)
    (hfa : ∀ f, ia ∉ cb f) (hfb : ∀ f, ib ∉ cb f) :
    (∃ l1 l2, (tickBase cb endT (callSoonBase (callSoonBase st ia fa) ib fb)).2
        = l1 ++ ia :: ib :: l2) ∧
    (st.readyNone →
      ∃ l1 l2, (tickPers cb now endT
          (callSoonPers now (callSoonPers now st ia fa) ib fb)).2
        = l1 ++ ia :: ib :: l2) := by
  constructor
  · set st2 := callSoonBase (callSoonBase st ia fa) ib fb with hst2
    have hready2 : st2.ready =
        st.ready ++ [⟨ia, fa, false, 0, none⟩] ++ [⟨ib, fb, false, 0, none⟩] := rfl
    obtain ⟨E, hE, _, _⟩ := promoteBase_spec endT st2.scheduled.length st2
    rcases hst1 : promoteBase endT st2.scheduled.length st2 with ⟨r1, s1⟩
    have hr1 : r1 = st.ready ++
        ⟨ia, fa, false, 0, none⟩ :: ⟨ib, fb, false, 0, none⟩ :: E := by
      have := hE
      rw [hst1] at this
      simp only at this
      rw [this, hready2]
      simp
    obtain ⟨l1, l2, hres⟩ := runReady_pair cb ⟨ia, fa, false, 0, none⟩
      ⟨ib, fb, false, 0, none⟩ hfa hfb rfl rfl st.ready.length st.ready s1 [] E rfl
    refine ⟨l1, l2, ?_⟩
    show (runReady cb ((promoteBase endT st2.scheduled.length st2).ready).length
        (promoteBase endT st2.scheduled.length st2) []).2 = l1 ++ ia :: ib :: l2
    rw [hst1]
    simp only
    rw [hr1]
    rw [hres]
    simp
  · intro hrn
    have hr0 : ∀ x ∈ st.ready, x.whenReady = none := hrn.1
    have hs0 : ∀ x ∈ st.scheduled, x.whenReady = none := hrn.2
    have hins1 : callSoonPers now st ia fa =
        { st with ready := st.ready ++ [⟨ia, fa, false, now, none⟩] } := by
      unfold callSoonPers
      exact insertReadyPers_append now st _ hr0 rfl
    have hr1 : ∀ x ∈ st.ready ++ [(⟨ia, fa, false, now, none⟩ : LHandle)],
        x.whenReady = none := by
      intro x hx
      rcases List.mem_append.mp hx with hx | hx
      · exact hr0 x hx
      · rcases List.mem_cons.mp hx with hx | hx
        · rw [hx]
        · cases hx
    have hins2 : callSoonPers now (callSoonPers now st ia fa) ib fb =
        { st with ready := st.ready ++ [⟨ia, fa, false, now, none⟩]
            ++ [⟨ib, fb, false, now, none⟩] } := by
      rw [hins1]
      unfold callSoonPers
      exact insertReadyPers_append now _ _ hr1 rfl
    set st2 := callSoonPers now (callSoonPers now st ia fa) ib fb with hst2
    have hr2 : ∀ x ∈ st2.ready, x.whenReady = none := by
      rw [hins2]
      intro x hx
      simp only at hx
      rcases List.mem_append.mp hx with hx | hx
      · exact hr1 x hx
      · rcases List.mem_cons.mp hx with hx | hx
        · rw [hx]
        · cases hx
    have hs2 : ∀ x ∈ st2.scheduled, x.whenReady = none := by
      rw [hins2]
      exact hs0
    obtain ⟨E, hE⟩ := promotePers_spec now endT st2.scheduled.length st2 hr2 hs2
    rcases hst1 : promotePers now endT st2.scheduled.length st2 with ⟨r1, s1⟩
    have hr1' : r1 = st.ready ++
        ⟨ia, fa, false, now, none⟩ :: ⟨ib, fb, false, now, none⟩ :: E := by
      have := hE
      rw [hst1] at this
      simp only at this
      rw [this, hins2]
      simp
    obtain ⟨l1, l2, hres⟩ := runReady_pair cb ⟨ia, fa, false, now, none⟩
      ⟨ib, fb, false, now, none⟩ hfa hfb rfl rfl st.ready.length st.ready s1 [] E rfl
    refine ⟨l1, l2, ?_⟩
    show (runReady cb ((promotePers now endT st2.scheduled.length st2).ready).length
        (promotePers now endT st2.scheduled.length st2) []).2 = l1 ++ ia :: ib :: l2
    rw [hst1]
    simp only
    rw [hr1']
    rw [hres]
    simp

/-- Witness for C6 on an empty loop with inert callables. -/
theorem c6_witness :
    (∃ l1 l2, (tickBase (fun _ => []) 0
        (callSoonBase (callSoonBase ⟨[], []⟩ 1 10) 2 11)).2 = l1 ++ 1 :: 2 :: l2) ∧
    (∃ l1 l2, (tickPers (fun _ => []) 0 0
        (callSoonPers 0 (callSoonPers 0 ⟨[], []⟩ 1 10) 2 11)).2 = l1 ++ 1 :: 2 :: l2) := by
  have h := c6_call_soon_fifo (fun _ => []) ⟨[], []⟩ 1 2 10 11 0 0
    (fun f => by simp) (fun f => by simp)
  exact ⟨h.1, h.2 (And.intro (fun x hx => by cases hx) (fun x hx => by cases hx))⟩

/-! ### Task directives (C4)

`TaskMixin._step` never resets `_awaiting_result` to the `_NO_RESULT`
sentinel after handing the awaited result to a step.  Consequently a
step that returns `Continue(next)` *after* an `Await` has completed
does not resume `next` with zero arguments as specified: the stale
awaited result is appended to the argument list.  With the documented
zero-argument `Continue` callback the call raises `TypeError`, which
becomes the task's terminal exception; a one-argument callback
silently receives the stale value. -/

theorem c4_continue_gets_stale_awaited_result :
    let progA : TaskProgram := fun n =>
      if n = 0 then ⟨0, fun _ => .await_ 1⟩
      else if n = 1 then ⟨1, fun _ => .continue_ 2⟩
      else ⟨0, fun _ => .value 99⟩
    let progB : TaskProgram := fun n =>
      if n = 0 then ⟨0, fun _ => .await_ 1⟩
      else if n = 1 then ⟨1, fun _ => .continue_ 2⟩
      else ⟨1, fun args => .value (args.headD 0)⟩
    let evs : List TaskEvent := [.tick, .otherDone (.success 5), .tick, .tick]
    -- the step that `Continue(step2)` named is never invoked with zero
    -- arguments: the arity-0 callback dies with a TypeError that
    -- becomes the task's exception …
    (TaskState.initial.run progA evs).log = [(0, []), (1, [5])] ∧
    (TaskState.initial.run progA evs).fut = ⟨.finished, none, some typeErrorCode⟩ ∧
    -- … because `_awaiting_result` still holds the awaited result when
    -- the Continue-scheduled step runs …
    (TaskState.initial.run progA [.tick, .otherDone (.success 5), .tick]).awaitingResult
      = some 5 ∧
    -- … and an arity-1 callback is invoked with that stale result as
    -- its argument (rather than with zero arguments), which then
    -- becomes the task's result.
    (TaskState.initial.run progB evs).log = [(0, []), (1, [5]), (2, [5])] ∧
    (TaskState.initial.run progB evs).fut = ⟨.finished, some 5, none⟩ := by
  exact ⟨rfl, rfl, rfl, rfl, rfl⟩

/-! ### Association-list lemmas for the persistence engine -/

theorem alookup_append_some {l1 l2 : List (Nat × β)} {k : Nat} {v : β}
    (h : alookup k l1 = some v) : alookup k (l1 ++ l2) = some v := by
  induction l1 with
  | nil => cases h
  | cons kv rest ih =>
    rcases kv with ⟨k', v'⟩
    simp only [List.cons_append, alookup] at h ⊢
    by_cases hk : k' = k
    · rwa [if_pos hk] at h ⊢
    · rw [if_neg hk] at h ⊢
      exact ih h

theorem alookup_append_none {l1 l2 : List (Nat × β)} {k : Nat}
    (h : alookup k l1 = none) : alookup k (l1 ++ l2) = alookup k l2 := by
  induction l1 with
  | nil => rfl
  | cons kv rest ih =>
    rcases kv with ⟨k', v'⟩
    by_cases hk : k' = k
    · simp only [alookup, hk, if_pos rfl] at h
      cases h
    · simp only [alookup, if_neg hk] at h ⊢
      exact ih h

theorem alookup_eq_none_iff {k : Nat} {l : List (Nat × β)} :
    alookup k l = none ↔ k ∉ l.map Prod.fst := by
  induction l with
  | nil => simp [alookup]
  | cons kv rest ih =>
    rcases kv with ⟨k', v'⟩
    by_cases hk : k' = k
    · simp [alookup, hk]
    · simp [alookup, hk, ih, Ne.symm hk]

theorem alookup_isSome_iff {k : Nat} {l : List (Nat × β)} :
    (alookup k l).isSome = true ↔ k ∈ l.map Prod.fst := by
  rcases h : alookup k l with _ | v
  · simp [alookup_eq_none_iff.mp h]
  · have : k ∈ l.map Prod.fst := by
      by_contra hk
      rw [alookup_eq_none_iff.mpr hk] at h
      cases h
    simp [this]

theorem alookup_mem {k : Nat} {v : β} {l : List (Nat × β)}
    (h : alookup k l = some v) : (k, v) ∈ l := by
  induction l with
  | nil => cases h
  | cons kv rest ih =>
    rcases kv with ⟨k', v'⟩
    by_cases hk : k' = k
    · simp only [alookup, hk, if_pos rfl] at h
      subst hk
      injection h with h
      subst h
      exact List.mem_cons_self _ _
    · simp only [alookup, if_neg hk] at h
      exact List.mem_cons_of_mem _ (ih h)

theorem aupdate_keys (k : Nat) (v : β) (l : List (Nat × β)) :
    (aupdate k v l).map Prod.fst = l.map Prod.fst := by
  induction l with
  | nil => rfl
  | cons kv rest ih =>
    rcases kv with ⟨k', v'⟩
    by_cases hk : k' = k
    · simp [aupdate, hk]
    · simp [aupdate, hk, ih]

theorem alookup_aupdate_self {k : Nat} {v w : β} {l : List (Nat × β)}
    (h : alookup k l = some w) : alookup k (aupdate k v l) = some v := by
  induction l with
  | nil => cases h
  | cons kv rest ih =>
    rcases kv with ⟨k', v'⟩
    by_cases hk : k' = k
    · simp [alookup, aupdate, hk]
    · simp only [alookup, if_neg hk] at h
      simp [aupdate, hk, alookup, ih h]

theorem alookup_aupdate_ne {j k : Nat} {v : β} {l : List (Nat × β)}
    (h : j ≠ k) : alookup j (aupdate k v l) = alookup j l := by
  induction l with
  | nil => rfl
  | cons kv rest ih =>
    rcases kv with ⟨k', v'⟩
    by_cases hk : k' = k
    · subst hk
      have hkj : ¬(k' = j) := fun hh => h hh.symm
      simp [aupdate, alookup, hkj]
    · simp [aupdate, hk, alookup, ih]

theorem dinsert_of_none {k : Nat} {v : β} {l : List (Nat × β)}
    (h : alookup k l = none) : dinsert k v l = l ++ [(k, v)] := by
  simp [dinsert, h]

theorem alookup_dinsert_self {k : Nat} {v : β} {l : List (Nat × β)}
    (h : alookup k l = none) : alookup k (dinsert k v l) = some v := by
  rw [dinsert_of_none h, alookup_append_none h]
  simp [alookup]

theorem alookup_dinsert_ne {j k : Nat} {v : β} {l : List (Nat × β)}
    (hne : j ≠ k) (h : alookup k l = none) :
    alookup j (dinsert k v l) = alookup j l := by
  rw [dinsert_of_none h]
  rcases hj : alookup j l with _ | w
  · rw [alookup_append_none hj]
    simp [alookup, Ne.symm hne]
  · exact alookup_append_some hj

theorem dinsert_keys_of_none {k : Nat} {v : β} {l : List (Nat × β)}
    (h : alookup k l = none) :
    (dinsert k v l).map Prod.fst = l.map Prod.fst ++ [k] := by
  rw [dinsert_of_none h]
  simp

theorem dinsert_nodup_of_none {k : Nat} {v : β} {l : List (Nat × β)}
    (h : alookup k l = none) (hn : (l.map Prod.fst).Nodup) :
    ((dinsert k v l).map Prod.fst).Nodup := by
  rw [dinsert_keys_of_none h]
  simp only [List.nodup_append, List.nodup_cons, List.nodup_nil]
  exact ⟨hn, ⟨by simp, trivial⟩, by
    intro a ha hb
    simp only [List.mem_singleton] at hb
    subst hb
    exact alookup_eq_none_iff.mp h ha⟩

/-- A list with nodup entries: flipping exactly the element `p` from
counted to not-counted lowers `countP` by one. -/
theorem countP_drop_one {l : List Nat} (hn : l.Nodup) {p : Nat} (hp : p ∈ l)
    {f g : Nat → Bool} (hfp : f p = true) (hgp : g p = false)
    (hother : ∀ q ∈ l, q ≠ p → f q = g q) :
    l.countP f = l.countP g + 1 := by
  induction l with
  | nil => cases hp
  | cons a t ih =>
    rcases List.nodup_cons.mp hn with ⟨hat, hnt⟩
    by_cases hap : a = p
    · subst hap
      rw [List.countP_cons_of_pos _ _ (by simp [hfp]),
          List.countP_cons_of_neg _ _ (by simp [hgp])]
      have : t.countP f = t.countP g := by
        apply List.countP_congr
        intro q hq
        rw [hother q (List.mem_cons_of_mem _ hq) (fun hqp => hat (hqp ▸ hq))]
      rw [this]
    · have hp' : p ∈ t := by
        rcases List.mem_cons.mp hp with h | h
        · exact absurd h.symm hap
        · exact h
      have hfg : f a = g a :=
        hother a (List.mem_cons_self _ _) hap
      have hih : t.countP f = t.countP g + 1 :=
        ih hnt hp' fun q hq hqp => hother q (List.mem_cons_of_mem _ hq) hqp
      rcases hfa : f a with _ | _
      · have hga : g a = false := by rw [← hfg]; exact hfa
        rw [List.countP_cons_of_neg _ _ (by simp [hfa]),
            List.countP_cons_of_neg _ _ (by simp [hga]), hih]
      · have hga : g a = true := by rw [← hfg]; exact hfa
        rw [List.countP_cons_of_pos _ _ (by simp [hfa]),
            List.countP_cons_of_pos _ _ (by simp [hga]), hih]

/-! ### The bundling contract -/

theorem stLe_refl (st : SideTable) : stLe st st := fun _ _ h => h

theorem stLe_trans {s1 s2 s3 : SideTable} (h12 : stLe s1 s2) (h23 : stLe s2 s3) :
    stLe s1 s3 := fun q d h => h23 q d (h12 q d h)

theorem stLe_isSome {s1 s2 : SideTable} (h : stLe s1 s2) {q : PId}
    (hq : (alookup q s1).isSome = true) : (alookup q s2).isSome = true := by
  rcases hd : alookup q s1 with _ | d
  · rw [hd] at hq
    cases hq
  · rw [h q d hd]
    rfl

theorem FinalAt_mono {G : Graph} {s1 s2 : SideTable} (h : stLe s1 s2) {q : PId}
    (hf : FinalAt G s1 q) : FinalAt G s2 q := by
  rcases hf with ⟨obj, items, hg, he, hl, hr⟩
  exact ⟨obj, items, hg, he, h q _ hl, fun r hrr => stLe_isSome h (hr r hrr)⟩

theorem aupdate_isSome {k : Nat} {v : β} {l : List (Nat × β)} {r : Nat}
    (h : (alookup r l).isSome = true) :
    (alookup r (aupdate k v l)).isSome = true := by
  by_cases hrk : r = k
  · subst hrk
    rcases hd : alookup r l with _ | w
    · rw [hd] at h
      cases h
    · rw [alookup_aupdate_self hd]
      rfl
  · rw [alookup_aupdate_ne hrk]
    exact h

/-- Saving a `Function` wrapper's state never succeeds: the third
write, `ARGS`, is a tuple and `_check_valid_bundle_value` raises
`TypeError` on it, whatever the fuel and the current side-table. -/
theorem functionState_never_encodes (G : Graph) (u : Nat) (name : String) :
    ∀ fuel st, encodeKVs G fuel st (functionSaveState u name) = none := by
  intro fuel st
  match fuel with
  | 0 => rfl
  | 1 => rfl
  | 2 => rfl
  | 3 => rfl
  | (n + 4) => rfl

/-- Consequently `Bundle._encode` on a function or bound-method value
always aborts: the fresh wrapper's bundle is never completed. -/
theorem encodeV_func_none (G : Graph) : ∀ fuel st name,
    encodeV G fuel st (RValue.func name) = none := by
  intro fuel st name
  cases fuel with
  | zero => rfl
  | succ f =>
    simp only [encodeV, functionState_never_encodes]

/-- The joint contract of one bundling pass, by induction on fuel:
encoded values are the pure encodings, the side-table only grows,
every reference put into an encoded value has a table entry, every
*new* table entry is a completed sub-bundle, `None` entries are never
created, and key uniqueness is preserved. -/
theorem encode_contract (G : Graph) : ∀ fuel,
    (∀ st v w st', encodeV G fuel st v = some (w, st') →
      encPureV v = some w ∧ stLe st st' ∧
      (∀ r ∈ refsB w, (alookup r st').isSome = true) ∧
      (∀ q, (alookup q st').isSome = true →
        (alookup q st).isSome = true ∨ FinalAt G st' q) ∧
      (∀ q, alookup q st' = some none → alookup q st = some none) ∧
      ((st.map Prod.fst).Nodup → (st'.map Prod.fst).Nodup)) ∧
    (∀ st vs ws st', encodeList G fuel st vs = some (ws, st') →
      encPureList vs = some ws ∧ stLe st st' ∧
      (∀ r ∈ refsBList ws, (alookup r st').isSome = true) ∧
      (∀ q, (alookup q st').isSome = true →
        (alookup q st).isSome = true ∨ FinalAt G st' q) ∧
      (∀ q, alookup q st' = some none → alookup q st = some none) ∧
      ((st.map Prod.fst).Nodup → (st'.map Prod.fst).Nodup)) ∧
    (∀ st kvs kws st', encodeKVs G fuel st kvs = some (kws, st') →
      encPureKVs kvs = some kws ∧ stLe st st' ∧
      (∀ r ∈ refsBKVs kws, (alookup r st').isSome = true) ∧
      (∀ q, (alookup q st').isSome = true →
        (alookup q st).isSome = true ∨ FinalAt G st' q) ∧
      (∀ q, alookup q st' = some none → alookup q st = some none) ∧
      ((st.map Prod.fst).Nodup → (st'.map Prod.fst).Nodup)) ∧
    (∀ st q0 st', ensureB G fuel st q0 = some st' →
      stLe st st' ∧ (alookup q0 st').isSome = true ∧
      (∀ q, (alookup q st').isSome = true →
        (alookup q st).isSome = true ∨ FinalAt G st' q) ∧
      (∀ q, alookup q st' = some none → alookup q st = some none) ∧
      ((st.map Prod.fst).Nodup → (st'.map Prod.fst).Nodup)) ∧
    (∀ st p st', alookup p st = none → bundleP G fuel st p = some st' →
      stLe st st' ∧ FinalAt G st' p ∧
      (∀ q, (alookup q st').isSome = true →
        (alookup q st).isSome = true ∨ FinalAt G st' q) ∧
      (∀ q, alookup q st' = some none → alookup q st = some none) ∧
      ((st.map Prod.fst).Nodup → (st'.map Prod.fst).Nodup)) := by
  intro fuel
  induction fuel with
  | zero =>
    refine ⟨?_, ?_, ?_, ?_, ?_⟩
    · intro st v w st' h
      cases h
    · intro st vs ws st' h
      cases h
    · intro st kvs kws st' h
      cases h
    · intro st q0 st' h
      cases h
    · intro st p st' hpre h
      cases h
  | succ fuel ih =>
    obtain ⟨ihV, ihL, ihK, ihE, ihB⟩ := ih
    have hV : ∀ st v w st', encodeV G (fuel + 1) st v = some (w, st') →
        encPureV v = some w ∧ stLe st st' ∧
        (∀ r ∈ refsB w, (alookup r st').isSome = true) ∧
        (∀ q, (alookup q st').isSome = true →
          (alookup q st).isSome = true ∨ FinalAt G st' q) ∧
        (∀ q, alookup q st' = some none → alookup q st = some none) ∧
        ((st.map Prod.fst).Nodup → (st'.map Prod.fst).Nodup) := by
      intro st v w st' h
      cases v with
      | prim p =>
        simp only [encodeV] at h
        injection h with h
        injection h with h1 h2
        subst h1
        subst h2
        exact ⟨rfl, stLe_refl st, by simp [refsB],
          fun q hq => Or.inl hq, fun q hq => hq, fun hn => hn⟩
      | pers q0 =>
        simp only [encodeV] at h
        rcases he : ensureB G fuel st q0 with _ | st1
        · rw [he] at h
          cases h
        · rw [he] at h
          injection h with h
          injection h with h1 h2
          subst h1
          subst h2
          obtain ⟨hle, hin, hnew, hnone, hnd⟩ := ihE st q0 _ he
          refine ⟨rfl, hle, ?_, hnew, hnone, hnd⟩
          intro r hr
          simp only [refsB, List.mem_singleton] at hr
          subst hr
          exact hin
      | listV vs =>
        simp only [encodeV] at h
        rcases he : encodeList G fuel st vs with _ | ⟨ws, st1⟩
        · rw [he] at h
          cases h
        · rw [he] at h
          injection h with h
          injection h with h1 h2
          subst h1
          subst h2
          obtain ⟨hp, hle, hrefs, hnew, hnone, hnd⟩ := ihL st vs _ _ he
          refine ⟨?_, hle, ?_, hnew, hnone, hnd⟩
          · simp only [encPureV, hp]
          · intro r hr
            simp only [refsB] at hr
            exact hrefs r hr
      | dictV kvs =>
        simp only [encodeV] at h
        rcases he : encodeKVs G fuel st kvs with _ | ⟨kws, st1⟩
        · rw [he] at h
          cases h
        · rw [he] at h
          injection h with h
          injection h with h1 h2
          subst h1
          subst h2
          obtain ⟨hp, hle, hrefs, hnew, hnone, hnd⟩ := ihK st kvs _ _ he
          refine ⟨?_, hle, ?_, hnew, hnone, hnd⟩
          · simp only [encPureV, hp]
          · intro r hr
            simp only [refsB] at hr
            exact hrefs r hr
      | func name =>
        simp only [encodeV] at h
        rw [functionState_never_encodes] at h
        cases h
      | tupleV vs => cases h
      | unsupported => cases h
    have hL : ∀ st vs ws st', encodeList G (fuel + 1) st vs = some (ws, st') →
        encPureList vs = some ws ∧ stLe st st' ∧
        (∀ r ∈ refsBList ws, (alookup r st').isSome = true) ∧
        (∀ q, (alookup q st').isSome = true →
          (alookup q st).isSome = true ∨ FinalAt G st' q) ∧
        (∀ q, alookup q st' = some none → alookup q st = some none) ∧
        ((st.map Prod.fst).Nodup → (st'.map Prod.fst).Nodup) := by
      intro st vs ws st' h
      cases vs with
      | nil =>
        simp only [encodeList] at h
        injection h with h
        injection h with h1 h2
        subst h1
        subst h2
        exact ⟨rfl, stLe_refl st, by simp [refsBList],
          fun q hq => Or.inl hq, fun q hq => hq, fun hn => hn⟩
      | cons v rest =>
        simp only [encodeList] at h
        rcases he1 : encodeV G fuel st v with _ | ⟨w, st1⟩
        · rw [he1] at h
          cases h
        · rw [he1] at h
          dsimp only at h
          rcases he2 : encodeList G fuel st1 rest with _ | ⟨ws2, st2⟩
          · rw [he2] at h
            cases h
          · rw [he2] at h
            injection h with h
            injection h with h1 h2
            subst h1
            subst h2
            obtain ⟨hp1, hle1, hrefs1, hnew1, hnone1, hnd1⟩ := ihV st v w st1 he1
            obtain ⟨hp2, hle2, hrefs2, hnew2, hnone2, hnd2⟩ := ihL st1 rest ws2 st2 he2
            refine ⟨?_, stLe_trans hle1 hle2, ?_, ?_, ?_, ?_⟩
            · simp only [encPureList, hp1, hp2]
            · intro r hr
              simp only [refsBList, List.mem_append] at hr
              rcases hr with hr | hr
              · exact stLe_isSome hle2 (hrefs1 r hr)
              · exact hrefs2 r hr
            · intro q hq
              rcases hnew2 q hq with hq1 | hf
              · rcases hnew1 q hq1 with hq0 | hf
                · exact Or.inl hq0
                · exact Or.inr (FinalAt_mono hle2 hf)
              · exact Or.inr hf
            · intro q hq
              exact hnone1 q (hnone2 q hq)
            · intro hn
              exact hnd2 (hnd1 hn)
    have hK : ∀ st kvs kws st', encodeKVs G (fuel + 1) st kvs = some (kws, st') →
        encPureKVs kvs = some kws ∧ stLe st st' ∧
        (∀ r ∈ refsBKVs kws, (alookup r st').isSome = true) ∧
        (∀ q, (alookup q st').isSome = true →
          (alookup q st).isSome = true ∨ FinalAt G st' q) ∧
        (∀ q, alookup q st' = some none → alookup q st = some none) ∧
        ((st.map Prod.fst).Nodup → (st'.map Prod.fst).Nodup) := by
      intro st kvs kws st' h
      cases kvs with
      | nil =>
        simp only [encodeKVs] at h
        injection h with h
        injection h with h1 h2
        subst h1
        subst h2
        exact ⟨rfl, stLe_refl st, by simp [refsBKVs],
          fun q hq => Or.inl hq, fun q hq => hq, fun hn => hn⟩
      | cons kv rest =>
        rcases kv with ⟨k, v⟩
        simp only [encodeKVs] at h
        rcases he1 : encodeV G fuel st v with _ | ⟨w, st1⟩
        · rw [he1] at h
          cases h
        · rw [he1] at h
          dsimp only at h
          rcases he2 : encodeKVs G fuel st1 rest with _ | ⟨kws2, st2⟩
          · rw [he2] at h
            cases h
          · rw [he2] at h
            injection h with h
            injection h with h1 h2
            subst h1
            subst h2
            obtain ⟨hp1, hle1, hrefs1, hnew1, hnone1, hnd1⟩ := ihV st v w st1 he1
            obtain ⟨hp2, hle2, hrefs2, hnew2, hnone2, hnd2⟩ := ihK st1 rest kws2 st2 he2
            refine ⟨?_, stLe_trans hle1 hle2, ?_, ?_, ?_, ?_⟩
            · simp only [encPureKVs, hp1, hp2]
            · intro r hr
              simp only [refsBKVs, List.mem_append] at hr
              rcases hr with hr | hr
              · exact stLe_isSome hle2 (hrefs1 r hr)
              · exact hrefs2 r hr
            · intro q hq
              rcases hnew2 q hq with hq1 | hf
              · rcases hnew1 q hq1 with hq0 | hf
                · exact Or.inl hq0
                · exact Or.inr (FinalAt_mono hle2 hf)
              · exact Or.inr hf
            · intro q hq
              exact hnone1 q (hnone2 q hq)
            · intro hn
              exact hnd2 (hnd1 hn)
    have hE : ∀ st q0 st', ensureB G (fuel + 1) st q0 = some st' →
        stLe st st' ∧ (alookup q0 st').isSome = true ∧
        (∀ q, (alookup q st').isSome = true →
          (alookup q st).isSome = true ∨ FinalAt G st' q) ∧
        (∀ q, alookup q st' = some none → alookup q st = some none) ∧
        ((st.map Prod.fst).Nodup → (st'.map Prod.fst).Nodup) := by
      intro st q0 st' h
      simp only [ensureB] at h
      rcases hq : alookup q0 st with _ | d
      · rw [hq] at h
        obtain ⟨hle, hf, hnew, hnone, hnd⟩ := ihB st q0 st' hq h
        refine ⟨hle, ?_, hnew, hnone, hnd⟩
        rcases hf with ⟨obj, items, _, _, hl, _⟩
        rw [hl]
        rfl
      · rw [hq] at h
        injection h with h
        subst h
        exact ⟨stLe_refl st, by rw [hq]; rfl,
          fun q hq2 => Or.inl hq2, fun q hq2 => hq2, fun hn => hn⟩
    have hB : ∀ st p st', alookup p st = none → bundleP G (fuel + 1) st p = some st' →
        stLe st st' ∧ FinalAt G st' p ∧
        (∀ q, (alookup q st').isSome = true →
          (alookup q st).isSome = true ∨ FinalAt G st' q) ∧
        (∀ q, alookup q st' = some none → alookup q st = some none) ∧
        ((st.map Prod.fst).Nodup → (st'.map Prod.fst).Nodup) := by
      intro st p st' hpre h
      simp only [bundleP] at h
      rcases hg : alookup p G with _ | obj
      · rw [hg] at h
        cases h
      · rw [hg] at h
        dsimp only at h
        rw [dinsert_of_none hpre] at h
        rcases he : encodeKVs G fuel (st ++ [(p, some ⟨obj.cls, obj.loopRef, []⟩)])
            obj.fields with _ | ⟨items, st2⟩
        · rw [he] at h
          cases h
        · rw [he] at h
          injection h with h
          subst h
          obtain ⟨hp2, hle2, hrefs2, hnew2, hnone2, hnd2⟩ :=
            ihK _ obj.fields items st2 he
          have hst1p : alookup p (st ++ [(p, some ⟨obj.cls, obj.loopRef, []⟩)]) =
              some (some ⟨obj.cls, obj.loopRef, []⟩) := by
            rw [alookup_append_none hpre]
            simp [alookup]
          have hst1ne : ∀ q, q ≠ p →
              alookup q (st ++ [(p, some ⟨obj.cls, obj.loopRef, []⟩)]) =
                alookup q st := by
            intro q hq
            rcases hd : alookup q st with _ | d
            · rw [alookup_append_none hd]
              simp [alookup, Ne.symm hq]
            · exact alookup_append_some hd
          have hp2' : alookup p st2 = some (some ⟨obj.cls, obj.loopRef, []⟩) :=
            hle2 p _ hst1p
          have hfinal : FinalAt G
              (aupdate p (some ⟨obj.cls, obj.loopRef, items⟩) st2) p := by
            refine ⟨obj, items, hg, hp2, alookup_aupdate_self hp2', ?_⟩
            intro r hr
            exact aupdate_isSome (hrefs2 r hr)
          refine ⟨?_, hfinal, ?_, ?_, ?_⟩
          · intro q d hd
            have hqp : q ≠ p := by
              intro hqp
              subst hqp
              rw [hpre] at hd
              cases hd
            rw [alookup_aupdate_ne hqp]
            exact hle2 q d ((hst1ne q hqp).symm ▸ hd)
          · intro q hq
            by_cases hqp : q = p
            · subst hqp
              exact Or.inr hfinal
            · rw [alookup_aupdate_ne hqp] at hq
              rcases hnew2 q hq with hq1 | hf
              · rw [hst1ne q hqp] at hq1
                exact Or.inl hq1
              · rcases hf with ⟨obj2, items2, hg2, he2, hl2, hr2⟩
                refine Or.inr ⟨obj2, items2, hg2, he2, ?_, ?_⟩
                · rw [alookup_aupdate_ne hqp]
                  exact hl2
                · intro r hrr
                  exact aupdate_isSome (hr2 r hrr)
          · intro q hq
            by_cases hqp : q = p
            · subst hqp
              rw [alookup_aupdate_self hp2'] at hq
              cases hq
            · rw [alookup_aupdate_ne hqp] at hq
              have := hnone2 q hq
              rw [hst1ne q hqp] at this
              exact this
          · intro hn
            have h1 : ((st ++ [(p, some (⟨obj.cls, obj.loopRef, []⟩ : BData))]).map
                Prod.fst).Nodup := by
              rw [← dinsert_of_none hpre]
              exact dinsert_nodup_of_none hpre hn
            have h2 := hnd2 h1
            rw [aupdate_keys]
            exact h2
    exact ⟨hV, hL, hK, hE, hB⟩

theorem le_foldr_max {l : List Nat} {x : Nat} (hx : x ∈ l) :
    x ≤ l.foldr Nat.max 0 := by
  induction l with
  | nil => cases hx
  | cons a t ih =>
    rcases List.mem_cons.mp hx with hx | hx
    · subst hx
      exact Nat.le_max_left _ _
    · exact Nat.le_trans (ih hx) (Nat.le_max_right _ _)

theorem maxFields_bound {G : Graph} {p : PId} {obj : PObj}
    (h : alookup p G = some obj) : szKV obj.fields ≤ maxFields G := by
  have hm : (p, obj) ∈ G := alookup_mem h
  have : szKV obj.fields ∈ G.map fun po => szKV po.snd.fields :=
    List.mem_map.mpr ⟨(p, obj), hm, rfl⟩
  exact le_foldr_max this

theorem unstarted_le_of_stLe {G : Graph} {st st' : SideTable}
    (h : stLe st st') : unstarted G st' ≤ unstarted G st := by
  apply List.countP_mono_left
  intro q _ hq
  simp only [Option.isNone_iff_eq_none] at hq ⊢
  rcases hd : alookup q st with _ | d
  · rfl
  · rw [h q d hd] at hq
    cases hq

theorem unstarted_dinsert {G : Graph} {st : SideTable} {p : PId} (v : Option BData)
    (hn : (G.map Prod.fst).Nodup) (hpG : p ∈ G.map Prod.fst)
    (hpre : alookup p st = none) :
    unstarted G st = unstarted G (dinsert p v st) + 1 := by
  apply countP_drop_one hn hpG
  · simp [hpre]
  · simp [alookup_dinsert_self hpre]
  · intro q _ hq
    simp [alookup_dinsert_ne hq hpre]

theorem unstarted_pos {G : Graph} {st : SideTable} {p : PId}
    (hpG : p ∈ G.map Prod.fst) (hpre : alookup p st = none) :
    1 ≤ unstarted G st := by
  have : 0 < (G.map Prod.fst).countP fun q => (alookup q st).isNone :=
    List.countP_pos.mpr ⟨p, hpG, by simp [hpre]⟩
  exact this

theorem WF_unpack {G : Graph} {root : PId} (h : WF G root = true) :
    (alookup root G).isSome = true ∧ (G.map Prod.fst).Nodup ∧
    (∀ l, rootLoopOf G root = some l → alookup l G = none ∧ ¬(l = root)) ∧
    (∀ p obj, alookup p G = some obj →
      (obj.loopRef = none ∨ obj.loopRef = rootLoopOf G root) ∧
      valOkKVs G (rootLoopOf G root) obj.fields = true) := by
  simp only [WF, Bool.and_eq_true, decide_eq_true_eq, List.all_eq_true] at h
  obtain ⟨⟨⟨h1, h2⟩, h3⟩, h4⟩ := h
  refine ⟨h1, h2, ?_, ?_⟩
  · intro l hl
    rw [hl] at h3
    simp only [Bool.and_eq_true, Option.isNone_iff_eq_none, decide_eq_true_eq,
      Bool.not_eq_true'] at h3
    exact ⟨h3.1, by
      have := h3.2
      simp only [decide_eq_false_iff_not] at this
      exact this⟩
  · intro p obj hp
    have hm := alookup_mem hp
    have := h4 _ hm
    simp only [objOk, Bool.and_eq_true, Bool.or_eq_true, beq_iff_eq] at this
    refine ⟨?_, this.2⟩
    rcases this.1 with h | h
    · exact Or.inl (by simpa using h)
    · exact Or.inr h

theorem szV_pos (v : RValue) : 1 ≤ szV v := by
  cases v <;> simp [szV]

theorem szL_pos (vs : List RValue) : 1 ≤ szL vs := by
  cases vs with
  | nil => simp [szL]
  | cons v rest =>
    have := szV_pos v
    simp only [szL]
    omega

theorem szKV_pos (kvs : List (String × RValue)) : 1 ≤ szKV kvs := by
  cases kvs with
  | nil => simp [szKV]
  | cons kv rest =>
    rcases kv with ⟨k, v⟩
    have := szV_pos v
    simp only [szKV]
    omega

/-- One bundling pass terminates successfully on well-formed input:
by induction on fuel, every encoding call succeeds as long as the fuel
dominates the value size plus the cost of the not-yet-bundled objects. -/
theorem encode_success (G : Graph) (rl : Option PId)
    (hn : (G.map Prod.fst).Nodup)
    (hobj : ∀ p obj, alookup p G = some obj → valOkKVs G rl obj.fields = true) :
    ∀ fuel,
    (∀ st v, valOk G rl v = true →
      (∀ l, rl = some l → (alookup l st).isSome = true) →
      szV v + (maxFields G + 1) * unstarted G st ≤ fuel →
      (encodeV G fuel st v).isSome = true) ∧
    (∀ st vs, valOkList G rl vs = true →
      (∀ l, rl = some l → (alookup l st).isSome = true) →
      szL vs + (maxFields G + 1) * unstarted G st ≤ fuel →
      (encodeList G fuel st vs).isSome = true) ∧
    (∀ st kvs, valOkKVs G rl kvs = true →
      (∀ l, rl = some l → (alookup l st).isSome = true) →
      szKV kvs + (maxFields G + 1) * unstarted G st ≤ fuel →
      (encodeKVs G fuel st kvs).isSome = true) ∧
    (∀ st q, ((alookup q G).isSome = true ∨ rl = some q) →
      (∀ l, rl = some l → (alookup l st).isSome = true) →
      1 + (maxFields G + 1) * unstarted G st ≤ fuel →
      (ensureB G fuel st q).isSome = true) ∧
    (∀ st p, (alookup p G).isSome = true → alookup p st = none →
      (∀ l, rl = some l → (alookup l st).isSome = true) →
      (maxFields G + 1) * unstarted G st ≤ fuel →
      (bundleP G fuel st p).isSome = true) := by
  intro fuel
  induction fuel with
  | zero =>
    refine ⟨?_, ?_, ?_, ?_, ?_⟩
    · intro st v _ _ hsz
      have := szV_pos v
      omega
    · intro st vs _ _ hsz
      have := szL_pos vs
      omega
    · intro st kvs _ _ hsz
      have := szKV_pos kvs
      omega
    · intro st q _ _ hsz
      omega
    · intro st p hpG hpre hroot hsz
      have hu := unstarted_pos (alookup_isSome_iff.mp hpG) hpre
      have : 0 < (maxFields G + 1) * unstarted G st :=
        Nat.mul_pos (by omega) hu
      omega
  | succ fuel ih =>
    obtain ⟨ihV, ihL, ihK, ihE, ihB⟩ := ih
    obtain ⟨cV, cL, cK, cE, cB⟩ := encode_contract G fuel
    have hB1 : 1 ≤ maxFields G + 1 := by omega
    have hV : ∀ st v, valOk G rl v = true →
        (∀ l, rl = some l → (alookup l st).isSome = true) →
        szV v + (maxFields G + 1) * unstarted G st ≤ fuel + 1 →
        (encodeV G (fuel + 1) st v).isSome = true := by
      intro st v hv hroot hsz
      cases v with
      | prim p => simp [encodeV]
      | pers q =>
        simp only [szV] at hsz
        have hens : (ensureB G fuel st q).isSome = true := by
          apply ihE st q _ hroot (by omega)
          simp only [valOk, Bool.or_eq_true, beq_iff_eq] at hv
          rcases hv with hv | hv
          · exact Or.inl hv
          · exact Or.inr hv
        rcases he : ensureB G fuel st q with _ | st1
        · rw [he] at hens
          cases hens
        · simp [encodeV, he]
      | listV vs =>
        simp only [valOk] at hv
        simp only [szV] at hsz
        have := ihL st vs hv hroot (by omega)
        rcases he : encodeList G fuel st vs with _ | ⟨ws, st1⟩
        · rw [he] at this
          cases this
        · simp [encodeV, he]
      | dictV kvs =>
        simp only [valOk] at hv
        simp only [szV] at hsz
        have := ihK st kvs hv hroot (by omega)
        rcases he : encodeKVs G fuel st kvs with _ | ⟨kws, st1⟩
        · rw [he] at this
          cases this
        · simp [encodeV, he]
      | func name => cases hv
      | tupleV vs => cases hv
      | unsupported => cases hv
    have hL : ∀ st vs, valOkList G rl vs = true →
        (∀ l, rl = some l → (alookup l st).isSome = true) →
        szL vs + (maxFields G + 1) * unstarted G st ≤ fuel + 1 →
        (encodeList G (fuel + 1) st vs).isSome = true := by
      intro st vs hv hroot hsz
      cases vs with
      | nil => simp [encodeList]
      | cons v rest =>
        simp only [valOkList, Bool.and_eq_true] at hv
        simp only [szL] at hsz
        have hsz1 : 1 ≤ szL rest := szL_pos rest
        have hhead : (encodeV G fuel st v).isSome = true :=
          ihV st v hv.1 hroot (by omega)
        rcases he1 : encodeV G fuel st v with _ | ⟨w, st1⟩
        · rw [he1] at hhead
          cases hhead
        · obtain ⟨_, hle1, _, _, _, _⟩ := cV st v w st1 he1
          have hroot1 : ∀ l, rl = some l → (alookup l st1).isSome = true :=
            fun l hl => stLe_isSome hle1 (hroot l hl)
          have hu1 : unstarted G st1 ≤ unstarted G st := unstarted_le_of_stLe hle1
          have hszv : 1 ≤ szV v := szV_pos v
          have htail : (encodeList G fuel st1 rest).isSome = true := by
            apply ihL st1 rest hv.2 hroot1
            have : (maxFields G + 1) * unstarted G st1 ≤
                (maxFields G + 1) * unstarted G st :=
              Nat.mul_le_mul_left _ hu1
            omega
          rcases he2 : encodeList G fuel st1 rest with _ | ⟨ws, st2⟩
          · rw [he2] at htail
            cases htail
          · simp [encodeList, he1, he2]
    have hK : ∀ st kvs, valOkKVs G rl kvs = true →
        (∀ l, rl = some l → (alookup l st).isSome = true) →
        szKV kvs + (maxFields G + 1) * unstarted G st ≤ fuel + 1 →
        (encodeKVs G (fuel + 1) st kvs).isSome = true := by
      intro st kvs hv hroot hsz
      cases kvs with
      | nil => simp [encodeKVs]
      | cons kv rest =>
        rcases kv with ⟨k, v⟩
        simp only [valOkKVs, Bool.and_eq_true] at hv
        simp only [szKV] at hsz
        have hsz1 : 1 ≤ szKV rest := szKV_pos rest
        have hhead : (encodeV G fuel st v).isSome = true :=
          ihV st v hv.1 hroot (by omega)
        rcases he1 : encodeV G fuel st v with _ | ⟨w, st1⟩
        · rw [he1] at hhead
          cases hhead
        · obtain ⟨_, hle1, _, _, _, _⟩ := cV st v w st1 he1
          have hroot1 : ∀ l, rl = some l → (alookup l st1).isSome = true :=
            fun l hl => stLe_isSome hle1 (hroot l hl)
          have hu1 : unstarted G st1 ≤ unstarted G st := unstarted_le_of_stLe hle1
          have hszv : 1 ≤ szV v := szV_pos v
          have htail : (encodeKVs G fuel st1 rest).isSome = true := by
            apply ihK st1 rest hv.2 hroot1
            have : (maxFields G + 1) * unstarted G st1 ≤
                (maxFields G + 1) * unstarted G st :=
              Nat.mul_le_mul_left _ hu1
            omega
          rcases he2 : encodeKVs G fuel st1 rest with _ | ⟨kws, st2⟩
          · rw [he2] at htail
            cases htail
          · simp [encodeKVs, he1, he2]
    have hE : ∀ st q, ((alookup q G).isSome = true ∨ rl = some q) →
        (∀ l, rl = some l → (alookup l st).isSome = true) →
        1 + (maxFields G + 1) * unstarted G st ≤ fuel + 1 →
        (ensureB G (fuel + 1) st q).isSome = true := by
      intro st q hq hroot hsz
      rcases hfound : alookup q st with _ | d
      · rcases hq with hq | hq
        · have := ihB st q hq hfound hroot (by omega)
          rcases hb : bundleP G fuel st q with _ | st1
          · rw [hb] at this
            cases this
          · simp [ensureB, hfound, hb]
        · have := hroot q hq
          rw [hfound] at this
          cases this
      · simp [ensureB, hfound]
    have hB : ∀ st p, (alookup p G).isSome = true → alookup p st = none →
        (∀ l, rl = some l → (alookup l st).isSome = true) →
        (maxFields G + 1) * unstarted G st ≤ fuel + 1 →
        (bundleP G (fuel + 1) st p).isSome = true := by
      intro st p hpG hpre hroot hsz
      rcases hg : alookup p G with _ | obj
      · rw [hg] at hpG
        cases hpG
      · have hfields := hobj p obj hg
        have hmem : p ∈ G.map Prod.fst := alookup_isSome_iff.mp (by rw [hg]; rfl)
        have hu1 : unstarted G st =
            unstarted G (dinsert p (some ⟨obj.cls, obj.loopRef, []⟩) st) + 1 :=
          unstarted_dinsert _ hn hmem hpre
        have hroot1 : ∀ l, rl = some l →
            (alookup l (dinsert p (some ⟨obj.cls, obj.loopRef, []⟩) st)).isSome
              = true := by
          intro l hl
          have hls := hroot l hl
          have hlp : l ≠ p := by
            intro hlp
            subst hlp
            rw [hpre] at hls
            cases hls
          rw [alookup_dinsert_ne hlp hpre]
          exact hls
        have hupos : 1 ≤ unstarted G st := unstarted_pos hmem hpre
        have hkv : (encodeKVs G fuel
            (dinsert p (some ⟨obj.cls, obj.loopRef, []⟩) st) obj.fields).isSome
              = true := by
          apply ihK _ obj.fields hfields hroot1
          have hb : szKV obj.fields ≤ maxFields G := maxFields_bound hg
          -- fuel + 1 ≥ B * u = B * (u1 + 1) = B * u1 + B
          -- fuel ≥ B * u1 + maxFields ≥ szKV fields + B * u1
          have := hu1
          have hexp : (maxFields G + 1) * unstarted G st =
              (maxFields G + 1) * unstarted G
                (dinsert p (some ⟨obj.cls, obj.loopRef, []⟩) st)
              + (maxFields G + 1) := by
            rw [hu1]
            ring
          omega
        rcases he : encodeKVs G fuel
            (dinsert p (some ⟨obj.cls, obj.loopRef, []⟩) st) obj.fields
            with _ | ⟨items, st2⟩
        · rw [he] at hkv
          cases hkv
        · simp [bundleP, hg, he]
    exact ⟨hV, hL, hK, hE, hB⟩

/-! ### Pure decoding lemmas -/

theorem szB_pos (w : BValue) : 1 ≤ szB w := by
  cases w <;> simp [szB]

theorem szBL_pos (ws : List BValue) : 1 ≤ szBL ws := by
  cases ws with
  | nil => simp [szBL]
  | cons w rest =>
    have := szB_pos w
    simp only [szBL]
    omega

theorem szBKV_pos (kws : List (String × BValue)) : 1 ≤ szBKV kws := by
  cases kws with
  | nil => simp [szBKV]
  | cons kw rest =>
    rcases kw with ⟨k, w⟩
    have := szB_pos w
    simp only [szBKV]
    omega

/-- Pure decoding only reads the map at the stored references, so a
grown map (no entry overwritten) decodes to the same value. -/
theorem decB_mono : ∀ n : Nat,
    (∀ w, szB w ≤ n → ∀ (M M' : List (PId × Nat)) d,
      (∀ q i, alookup q M = some i → alookup q M' = some i) →
      decBV M w = some d → decBV M' w = some d) ∧
    (∀ ws, szBL ws ≤ n → ∀ (M M' : List (PId × Nat)) ds,
      (∀ q i, alookup q M = some i → alookup q M' = some i) →
      decBL M ws = some ds → decBL M' ws = some ds) ∧
    (∀ kws, szBKV kws ≤ n → ∀ (M M' : List (PId × Nat)) kds,
      (∀ q i, alookup q M = some i → alookup q M' = some i) →
      decBKV M kws = some kds → decBKV M' kws = some kds) := by
  intro n
  induction n with
  | zero =>
    refine ⟨fun w hw => ?_, fun ws hw => ?_, fun kws hw => ?_⟩
    · have := szB_pos w
      omega
    · have := szBL_pos ws
      omega
    · have := szBKV_pos kws
      omega
  | succ n ih =>
    obtain ⟨ihV, ihL, ihK⟩ := ih
    refine ⟨?_, ?_, ?_⟩
    · intro w hw M M' d hM h
      cases w with
      | prim p => exact h
      | ref q =>
        simp only [decBV] at h ⊢
        rcases hq : alookup q M with _ | i
        · rw [hq] at h
          cases h
        · rw [hq] at h
          rw [hM q i hq]
          exact h
      | listV ws =>
        simp only [decBV] at h ⊢
        rcases hws : decBL M ws with _ | ds
        · rw [hws] at h
          cases h
        · rw [hws] at h
          have hsz : szBL ws ≤ n := by
            simp only [szB] at hw
            omega
          rw [ihL ws hsz M M' ds hM hws]
          exact h
      | dictV kws =>
        simp only [decBV] at h ⊢
        rcases hws : decBKV M kws with _ | kds
        · rw [hws] at h
          cases h
        · rw [hws] at h
          have hsz : szBKV kws ≤ n := by
            simp only [szB] at hw
            omega
          rw [ihK kws hsz M M' kds hM hws]
          exact h
    · intro ws hw M M' ds hM h
      cases ws with
      | nil => exact h
      | cons w rest =>
        simp only [decBL] at h ⊢
        have h1 : szB w ≤ n := by
          have := szBL_pos rest
          simp only [szBL] at hw
          omega
        have h2 : szBL rest ≤ n := by
          have := szB_pos w
          simp only [szBL] at hw
          omega
        rcases hd : decBV M w with _ | d1
        · rw [hd] at h
          cases h
        · rcases hds : decBL M rest with _ | ds1
          · rw [hd, hds] at h
            cases h
          · rw [hd, hds] at h
            rw [ihV w h1 M M' d1 hM hd, ihL rest h2 M M' ds1 hM hds]
            exact h
    · intro kws hw M M' kds hM h
      cases kws with
      | nil => exact h
      | cons kw rest =>
        rcases kw with ⟨k, w⟩
        simp only [decBKV] at h ⊢
        have h1 : szB w ≤ n := by
          have := szBKV_pos rest
          simp only [szBKV] at hw
          omega
        have h2 : szBKV rest ≤ n := by
          have := szB_pos w
          simp only [szBKV] at hw
          omega
        rcases hd : decBV M w with _ | d1
        · rw [hd] at h
          cases h
        · rcases hds : decBKV M rest with _ | kds1
          · rw [hd, hds] at h
            cases h
          · rw [hd, hds] at h
            rw [ihV w h1 M M' d1 hM hd, ihK rest h2 M M' kds1 hM hds]
            exact h

theorem decBKV_mono {kws : List (String × BValue)} {M M' : List (PId × Nat)}
    {kds : List (String × DValue)}
    (hM : ∀ q i, alookup q M = some i → alookup q M' = some i)
    (h : decBKV M kws = some kds) : decBKV M' kws = some kds :=
  (decB_mono (szBKV kws)).2.2 kws (le_refl _) M M' kds hM h

/-- Decoding a purely-encoded value under a map is exactly the direct
identity-to-instance mapping of the raw value. -/
theorem enc_dec_compose : ∀ n : Nat,
    (∀ v, szV v ≤ n → ∀ w (M : List (PId × Nat)),
      encPureV v = some w → decBV M w = mapDV M v) ∧
    (∀ vs, szL vs ≤ n → ∀ ws (M : List (PId × Nat)),
      encPureList vs = some ws → decBL M ws = mapDVList M vs) ∧
    (∀ kvs, szKV kvs ≤ n → ∀ kws (M : List (PId × Nat)),
      encPureKVs kvs = some kws → decBKV M kws = mapDVKVs M kvs) := by
  intro n
  induction n with
  | zero =>
    refine ⟨fun v hv => ?_, fun vs hv => ?_, fun kvs hv => ?_⟩
    · have := szV_pos v
      omega
    · have := szL_pos vs
      omega
    · have := szKV_pos kvs
      omega
  | succ n ih =>
    obtain ⟨ihV, ihL, ihK⟩ := ih
    refine ⟨?_, ?_, ?_⟩
    · intro v hv w M h
      cases v with
      | prim p =>
        injection h with h
        subst h
        rfl
      | pers q =>
        injection h with h
        subst h
        simp [decBV, mapDV]
      | listV vs =>
        simp only [encPureV] at h
        rcases he : encPureList vs with _ | ws1
        · rw [he] at h
          cases h
        · rw [he] at h
          injection h with h
          subst h
          have hsz : szL vs ≤ n := by
            simp only [szV] at hv
            omega
          simp only [decBV, mapDV, ihL vs hsz ws1 M he]
      | dictV kvs =>
        simp only [encPureV] at h
        rcases he : encPureKVs kvs with _ | kws1
        · rw [he] at h
          cases h
        · rw [he] at h
          injection h with h
          subst h
          have hsz : szKV kvs ≤ n := by
            simp only [szV] at hv
            omega
          simp only [decBV, mapDV, ihK kvs hsz kws1 M he]
      | func name => cases h
      | tupleV vs => cases h
      | unsupported => cases h
    · intro vs hv ws M h
      cases vs with
      | nil =>
        injection h with h
        subst h
        rfl
      | cons v rest =>
        simp only [encPureList] at h
        rcases he1 : encPureV v with _ | w1
        · rw [he1] at h
          cases h
        · rcases he2 : encPureList rest with _ | ws1
          · rw [he1, he2] at h
            cases h
          · rw [he1, he2] at h
            injection h with h
            subst h
            have h1 : szV v ≤ n := by
              have := szL_pos rest
              simp only [szL] at hv
              omega
            have h2 : szL rest ≤ n := by
              have := szV_pos v
              simp only [szL] at hv
              omega
            simp only [decBL, mapDVList, ihV v h1 w1 M he1, ihL rest h2 ws1 M he2]
    · intro kvs hv kws M h
      cases kvs with
      | nil =>
        injection h with h
        subst h
        rfl
      | cons kv rest =>
        rcases kv with ⟨k, v⟩
        simp only [encPureKVs] at h
        rcases he1 : encPureV v with _ | w1
        · rw [he1] at h
          cases h
        · rcases he2 : encPureKVs rest with _ | kws1
          · rw [he1, he2] at h
            cases h
          · rw [he1, he2] at h
            injection h with h
            subst h
            have h1 : szV v ≤ n := by
              have := szKV_pos rest
              simp only [szKV] at hv
              omega
            have h2 : szKV rest ≤ n := by
              have := szV_pos v
              simp only [szKV] at hv
              omega
            simp only [decBKV, mapDVKVs, ihV v h1 w1 M he1, ihK rest h2 kws1 M he2]

/-! ### Event-log lemmas -/

theorem append_eq_append_cons {A : Type} {evs D l1 l2 : List A} {e : A}
    (h : evs ++ D = l1 ++ e :: l2) :
    (∃ l2x, evs = l1 ++ e :: l2x) ∨
    (∃ l1x, l1 = evs ++ l1x ∧ D = l1x ++ e :: l2) := by
  induction l1 generalizing evs with
  | nil =>
    cases evs with
    | nil =>
      right
      exact ⟨[], rfl, h⟩
    | cons x evs1 =>
      left
      simp only [List.nil_append] at h ⊢
      injection h with hx hrest
      exact ⟨evs1, by rw [hx]⟩
  | cons y l1s ih =>
    cases evs with
    | nil =>
      right
      refine ⟨y :: l1s, rfl, ?_⟩
      simpa using h
    | cons x evs1 =>
      simp only [List.cons_append] at h
      injection h with hx hrest
      subst hx
      rcases ih hrest with ⟨l2x, h1⟩ | ⟨l1x, h1, h2⟩
      · exact Or.inl ⟨l2x, by rw [h1]; rfl⟩
      · exact Or.inr ⟨l1x, by rw [h1]; rfl, h2⟩

theorem abl_append_no_loadStart {evs D : List UEvent}
    (h : allocBeforeLoad evs) (hD : ∀ e ∈ D, ∀ p, e ≠ UEvent.loadStart p) :
    allocBeforeLoad (evs ++ D) := by
  intro l1 p l2 heq
  rcases append_eq_append_cons heq with ⟨l2x, h1⟩ | ⟨l1x, h1, h2⟩
  · exact h l1 p l2x h1
  · exact absurd rfl (hD (UEvent.loadStart p)
      (by rw [h2]; exact List.mem_append_right _ (List.mem_cons_self _ _)) p)

theorem abl_append_pair {evs : List UEvent} {p : PId} {i : Nat}
    (h : allocBeforeLoad evs) :
    allocBeforeLoad (evs ++ [UEvent.alloc p i, UEvent.loadStart p]) := by
  intro l1 q l2 heq
  rcases append_eq_append_cons heq with ⟨l2x, h1⟩ | ⟨l1x, h1, h2⟩
  · exact h l1 q l2x h1
  · rcases l1x with _ | ⟨x, xs⟩
    · simp only [List.nil_append] at h2
      cases h2
    · injection h2 with hx hrest
      subst hx
      rcases xs with _ | ⟨y, ys⟩
      · injection hrest with hy _
        injection hy with hq
        subst hq
        rw [h1]
        exact ⟨i, List.mem_append_right _ (List.mem_cons_self _ _)⟩
      · injection hrest with hy hrest2
        cases ys with
        | nil => cases hrest2
        | cons z zs => cases hrest2

theorem usLe_refl (us : UState) : usLe us us :=
  ⟨fun _ _ h => h, fun _ _ h => h, le_refl _, [], by simp⟩

theorem usLe_trans {u1 u2 u3 : UState} (h12 : usLe u1 u2) (h23 : usLe u2 u3) :
    usLe u1 u3 := by
  obtain ⟨p12, l12, n12, Δ1, e12⟩ := h12
  obtain ⟨p23, l23, n23, Δ2, e23⟩ := h23
  exact ⟨fun q i h => p23 q i (p12 q i h), fun j o h => l23 j o (l12 j o h),
    le_trans n12 n23, Δ1 ++ Δ2, by rw [e23, e12, List.append_assoc]⟩

theorem mem_append_singleton {x y : UEvent} {l : List UEvent}
    (h : x ∈ l ++ [y]) : x ∈ l ∨ x = y := by
  rcases List.mem_append.mp h with h | h
  · exact Or.inl h
  · exact Or.inr (List.mem_singleton.mp h)

theorem mem_append_pair {x y z : UEvent} {l : List UEvent}
    (h : x ∈ l ++ [y, z]) : x ∈ l ∨ x = y ∨ x = z := by
  rcases List.mem_append.mp h with h | h
  · exact Or.inl h
  · rcases List.mem_cons.mp h with h | h
    · exact Or.inr (Or.inl h)
    · exact Or.inr (Or.inr (List.mem_singleton.mp h))

theorem dinsert_mle {p : Nat} {v : β} {M : List (Nat × β)}
    (hpre : alookup p M = none) :
    ∀ q i, alookup q M = some i → alookup q (dinsert p v M) = some i := by
  intro q i hq
  by_cases hqp : q = p
  · subst hqp
    rw [hq] at hpre
    cases hpre
  · rw [alookup_dinsert_ne hqp hpre]
    exact hq

theorem alookup_singleton {k j : Nat} {v : β} :
    alookup j ([(k, v)] : List (Nat × β)) = if k = j then some v else none := rfl

/-- Recording a `resolve` event for a registered identity keeps the
unbundler invariant. -/
theorem UInv_resolve {T : SideTable} {us : UState} {q : PId} {i : Nat}
    (hinv : UInv T us) (hq : alookup q us.persistables = some i) :
    UInv T { us with events := us.events ++ [UEvent.resolve q i] } := by
  obtain ⟨h1, h2, h3, h4, h5, h6, h7, h8, h9⟩ := hinv
  refine ⟨h1, h2, h3, h4, h5, ?_, ?_, ?_, h9⟩
  · refine abl_append_no_loadStart h6 ?_
    intro e he p
    rw [List.mem_singleton.mp he]
    intro hc
    cases hc
  · intro p j hm
    rcases mem_append_singleton hm with hm | hm
    · exact h7 p j hm
    · cases hm
  · intro p j hm
    rcases mem_append_singleton hm with hm | hm
    · exact h8 p j hm
    · injection hm with hp hj
      subst hp
      subst hj
      exact hq

/-- The allocation-and-registration step of `Unbundler.do` keeps the
invariant and grows the state. -/
theorem UInv_alloc {T : SideTable} {us : UState} {p : PId}
    (hinv : UInv T us) (hpre : alookup p us.persistables = none) :
    UInv T { us with nextInst := us.nextInst + 1,
                     persistables := dinsert p us.nextInst us.persistables,
                     events := us.events ++
                       [UEvent.alloc p us.nextInst, UEvent.loadStart p] } ∧
    usLe us { us with nextInst := us.nextInst + 1,
                      persistables := dinsert p us.nextInst us.persistables,
                      events := us.events ++
                        [UEvent.alloc p us.nextInst, UEvent.loadStart p] } ∧
    alookup p (dinsert p us.nextInst us.persistables) = some us.nextInst := by
  obtain ⟨h1, h2, h3, h4, h5, h6, h7, h8, h9⟩ := hinv
  have hd : dinsert p us.nextInst us.persistables =
      us.persistables ++ [(p, us.nextInst)] := dinsert_of_none hpre
  refine ⟨⟨?_, ?_, ?_, h4, ?_, ?_, ?_, ?_, ?_⟩, ?_, alookup_dinsert_self hpre⟩
  · exact dinsert_nodup_of_none hpre h1
  · rw [hd, List.map_append]
    refine List.nodup_append.mpr ⟨h2, List.nodup_singleton _, ?_⟩
    intro v hv
    rcases List.mem_map.mp hv with ⟨pi, hpi, hv⟩
    have := h3 pi hpi
    simp only [List.map_cons, List.map_nil, List.mem_singleton]
    omega
  · intro pi hpi
    rw [hd] at hpi
    dsimp only
    rcases List.mem_append.mp hpi with hpi | hpi
    · have := h3 pi hpi
      omega
    · rw [List.mem_singleton.mp hpi]
      omega
  · intro jo hjo
    have := h5 jo hjo
    dsimp only
    omega
  · exact abl_append_pair h6
  · intro p' i' hm
    rcases mem_append_pair hm with hm | hm | hm
    · have := h7 p' i' hm
      by_cases hpp : p' = p
      · subst hpp
        rw [this] at hpre
        cases hpre
      · rw [alookup_dinsert_ne hpp hpre]
        exact this
    · injection hm with hp hi
      subst hp
      subst hi
      exact alookup_dinsert_self hpre
    · cases hm
  · intro p' i' hm
    rcases mem_append_pair hm with hm | hm | hm
    · have := h8 p' i' hm
      by_cases hpp : p' = p
      · subst hpp
        rw [this] at hpre
        cases hpre
      · rw [alookup_dinsert_ne hpp hpre]
        exact this
    · cases hm
    · cases hm
  · intro j o hj
    rcases h9 j o hj with ⟨p', bd', dfields, hp', hT', ho, hdec⟩
    refine ⟨p', bd', dfields, ?_, hT', ho, decBKV_mono (dinsert_mle hpre) hdec⟩
    exact dinsert_mle hpre p' j hp'
  · exact ⟨dinsert_mle hpre, fun _ _ h => h, by dsimp only; omega, _, rfl⟩

theorem newLoaded_trans {u1 u2 u3 : UState}
    (h12 : ∀ j, (alookup j u2.loaded).isSome = true →
      (alookup j u1.loaded).isSome = true ∨ u1.nextInst ≤ j)
    (h23 : ∀ j, (alookup j u3.loaded).isSome = true →
      (alookup j u2.loaded).isSome = true ∨ u2.nextInst ≤ j)
    (hn : u1.nextInst ≤ u2.nextInst) :
    ∀ j, (alookup j u3.loaded).isSome = true →
      (alookup j u1.loaded).isSome = true ∨ u1.nextInst ≤ j := by
  intro j hj
  rcases h23 j hj with h | h
  · exact h12 j h
  · exact Or.inr (le_trans hn h)

theorem regLoaded_trans {u1 u2 u3 : UState}
    (h12 : ∀ q j, alookup q u2.persistables = some j →
      alookup q u1.persistables = some j ∨ (alookup j u2.loaded).isSome = true)
    (h23 : ∀ q j, alookup q u3.persistables = some j →
      alookup q u2.persistables = some j ∨ (alookup j u3.loaded).isSome = true)
    (hl : ∀ j o, alookup j u2.loaded = some o → alookup j u3.loaded = some o) :
    ∀ q j, alookup q u3.persistables = some j →
      alookup q u1.persistables = some j ∨ (alookup j u3.loaded).isSome = true := by
  intro q j hq
  rcases h23 q j hq with h | h
  · rcases h12 q j h with h2 | h2
    · exact Or.inl h2
    · rcases ho : alookup j u2.loaded with _ | o
      · rw [ho] at h2
        cases h2
      · rw [hl j o ho]
        exact Or.inr rfl
  · exact Or.inr h

/-- The operational contract of one unbundling pass: every successful
call grows the state monotonically, preserves the bookkeeping
invariant, delivers the value the final shared map assigns to its
input, and allocates new instances only at fresh indices. -/
theorem decode_contract (T : SideTable) : ∀ fuel,
    (∀ us q i us', UInv T us → getPers T fuel us q = some (i, us') →
      usLe us us' ∧ UInv T us' ∧ alookup q us'.persistables = some i ∧
      (∀ j, (alookup j us'.loaded).isSome = true →
        (alookup j us.loaded).isSome = true ∨ us.nextInst ≤ j) ∧
      (∀ q2 j2, alookup q2 us'.persistables = some j2 →
        alookup q2 us.persistables = some j2 ∨
          (alookup j2 us'.loaded).isSome = true)) ∧
    (∀ us w d us', UInv T us → decodeV T fuel us w = some (d, us') →
      usLe us us' ∧ UInv T us' ∧ decBV us'.persistables w = some d ∧
      (∀ j, (alookup j us'.loaded).isSome = true →
        (alookup j us.loaded).isSome = true ∨ us.nextInst ≤ j) ∧
      (∀ q2 j2, alookup q2 us'.persistables = some j2 →
        alookup q2 us.persistables = some j2 ∨
          (alookup j2 us'.loaded).isSome = true)) ∧
    (∀ us ws ds us', UInv T us → decodeList T fuel us ws = some (ds, us') →
      usLe us us' ∧ UInv T us' ∧ decBL us'.persistables ws = some ds ∧
      (∀ j, (alookup j us'.loaded).isSome = true →
        (alookup j us.loaded).isSome = true ∨ us.nextInst ≤ j) ∧
      (∀ q2 j2, alookup q2 us'.persistables = some j2 →
        alookup q2 us.persistables = some j2 ∨
          (alookup j2 us'.loaded).isSome = true)) ∧
    (∀ us kws kds us', UInv T us → decodeKVs T fuel us kws = some (kds, us') →
      usLe us us' ∧ UInv T us' ∧ decBKV us'.persistables kws = some kds ∧
      (∀ j, (alookup j us'.loaded).isSome = true →
        (alookup j us.loaded).isSome = true ∨ us.nextInst ≤ j) ∧
      (∀ q2 j2, alookup q2 us'.persistables = some j2 →
        alookup q2 us.persistables = some j2 ∨
          (alookup j2 us'.loaded).isSome = true)) ∧
    (∀ us p bd i us', UInv T us → alookup p us.persistables = none →
      alookup p T = some (some bd) → unbundleP T fuel us p bd = some (i, us') →
      usLe us us' ∧ UInv T us' ∧ i = us.nextInst ∧
      alookup p us'.persistables = some i ∧
      (∀ j, (alookup j us'.loaded).isSome = true →
        (alookup j us.loaded).isSome = true ∨ us.nextInst ≤ j) ∧
      (∀ q2 j2, alookup q2 us'.persistables = some j2 →
        alookup q2 us.persistables = some j2 ∨
          (alookup j2 us'.loaded).isSome = true)) := by
  intro fuel
  induction fuel with
  | zero =>
    refine ⟨?_, ?_, ?_, ?_, ?_⟩
    · intro us q i us' _ h
      cases h
    · intro us w d us' _ h
      cases h
    · intro us ws ds us' _ h
      cases h
    · intro us kws kds us' _ h
      cases h
    · intro us p bd i us' _ _ _ h
      cases h
  | succ fuel ih =>
    obtain ⟨ihG, ihV, ihL, ihK, ihU⟩ := ih
    have hG : ∀ us q i us', UInv T us → getPers T (fuel + 1) us q = some (i, us') →
        usLe us us' ∧ UInv T us' ∧ alookup q us'.persistables = some i ∧
        (∀ j, (alookup j us'.loaded).isSome = true →
          (alookup j us.loaded).isSome = true ∨ us.nextInst ≤ j) ∧
        (∀ q2 j2, alookup q2 us'.persistables = some j2 →
          alookup q2 us.persistables = some j2 ∨
            (alookup j2 us'.loaded).isSome = true) := by
      intro us q i us' hinv h
      simp only [getPers] at h
      rcases hq : alookup q us.persistables with _ | i0
      · rw [hq] at h
        dsimp only at h
        rcases hT : alookup q T with _ | obd
        · rw [hT] at h
          cases h
        · rcases obd with _ | bd
          · rw [hT] at h
            cases h
          · rw [hT] at h
            dsimp only at h
            rcases hu : unbundleP T fuel us q bd with _ | pr
            · rw [hu] at h
              cases h
            · rcases pr with ⟨i1, us1⟩
              rw [hu] at h
              dsimp only at h
              injection h with h
              rw [Prod.mk.injEq] at h
              obtain ⟨hi, hus⟩ := h
              subst hi
              subst hus
              obtain ⟨hle, hinv1, _, hreg, hnew, hRL⟩ := ihU us q bd i1 us1 hinv hq hT hu
              exact ⟨usLe_trans hle ⟨fun _ _ h => h, fun _ _ h => h, le_refl _, _, rfl⟩,
                UInv_resolve hinv1 hreg, hreg, hnew, hRL⟩
      · rw [hq] at h
        dsimp only at h
        injection h with h
        rw [Prod.mk.injEq] at h
        obtain ⟨hi, hus⟩ := h
        subst hi
        subst hus
        exact ⟨⟨fun _ _ h => h, fun _ _ h => h, le_refl _, _, rfl⟩,
          UInv_resolve hinv hq, hq, fun j hj => Or.inl hj,
          fun q2 j2 hj => Or.inl hj⟩
    have hV : ∀ us w d us', UInv T us → decodeV T (fuel + 1) us w = some (d, us') →
        usLe us us' ∧ UInv T us' ∧ decBV us'.persistables w = some d ∧
        (∀ j, (alookup j us'.loaded).isSome = true →
          (alookup j us.loaded).isSome = true ∨ us.nextInst ≤ j) ∧
        (∀ q2 j2, alookup q2 us'.persistables = some j2 →
          alookup q2 us.persistables = some j2 ∨
            (alookup j2 us'.loaded).isSome = true) := by
      intro us w d us' hinv h
      cases w with
      | prim pr =>
        simp only [decodeV] at h
        injection h with h
        rw [Prod.mk.injEq] at h
        obtain ⟨hd, hus⟩ := h
        subst hd
        subst hus
        exact ⟨usLe_refl us, hinv, rfl, fun j hj => Or.inl hj, fun q2 j2 hj => Or.inl hj⟩
      | ref q =>
        simp only [decodeV] at h
        rcases hg : getPers T fuel us q with _ | pr
        · rw [hg] at h
          cases h
        · rcases pr with ⟨i1, us1⟩
          rw [hg] at h
          dsimp only at h
          injection h with h
          rw [Prod.mk.injEq] at h
          obtain ⟨hd, hus⟩ := h
          subst hd
          subst hus
          obtain ⟨hle, hinv1, hreg, hnew, hRL⟩ := ihG us q i1 us1 hinv hg
          refine ⟨hle, hinv1, ?_, hnew, hRL⟩
          simp only [decBV, hreg]
      | listV ws =>
        simp only [decodeV] at h
        rcases hl : decodeList T fuel us ws with _ | pr
        · rw [hl] at h
          cases h
        · rcases pr with ⟨ds, us1⟩
          rw [hl] at h
          dsimp only at h
          injection h with h
          rw [Prod.mk.injEq] at h
          obtain ⟨hd, hus⟩ := h
          subst hd
          subst hus
          obtain ⟨hle, hinv1, hdec, hnew, hRL⟩ := ihL us ws ds us1 hinv hl
          refine ⟨hle, hinv1, ?_, hnew, hRL⟩
          simp only [decBV, hdec]
      | dictV kws =>
        simp only [decodeV] at h
        rcases hl : decodeKVs T fuel us kws with _ | pr
        · rw [hl] at h
          cases h
        · rcases pr with ⟨kds, us1⟩
          rw [hl] at h
          dsimp only at h
          injection h with h
          rw [Prod.mk.injEq] at h
          obtain ⟨hd, hus⟩ := h
          subst hd
          subst hus
          obtain ⟨hle, hinv1, hdec, hnew, hRL⟩ := ihK us kws kds us1 hinv hl
          refine ⟨hle, hinv1, ?_, hnew, hRL⟩
          simp only [decBV, hdec]
    have hL : ∀ us ws ds us', UInv T us → decodeList T (fuel + 1) us ws = some (ds, us') →
        usLe us us' ∧ UInv T us' ∧ decBL us'.persistables ws = some ds ∧
        (∀ j, (alookup j us'.loaded).isSome = true →
          (alookup j us.loaded).isSome = true ∨ us.nextInst ≤ j) ∧
        (∀ q2 j2, alookup q2 us'.persistables = some j2 →
          alookup q2 us.persistables = some j2 ∨
            (alookup j2 us'.loaded).isSome = true) := by
      intro us ws ds us' hinv h
      cases ws with
      | nil =>
        simp only [decodeList] at h
        injection h with h
        rw [Prod.mk.injEq] at h
        obtain ⟨hd, hus⟩ := h
        subst hd
        subst hus
        exact ⟨usLe_refl us, hinv, rfl, fun j hj => Or.inl hj, fun q2 j2 hj => Or.inl hj⟩
      | cons w ws =>
        simp only [decodeList] at h
        rcases h1 : decodeV T fuel us w with _ | pr
        · rw [h1] at h
          cases h
        · rcases pr with ⟨d1, us1⟩
          rw [h1] at h
          dsimp only at h
          rcases h2 : decodeList T fuel us1 ws with _ | pr2
          · rw [h2] at h
            cases h
          · rcases pr2 with ⟨ds1, us2⟩
            rw [h2] at h
            dsimp only at h
            injection h with h
            rw [Prod.mk.injEq] at h
            obtain ⟨hd, hus⟩ := h
            subst hd
            subst hus
            obtain ⟨hle1, hinv1, hdec1, hnew1, hrl1⟩ := ihV us w d1 us1 hinv h1
            obtain ⟨hle2, hinv2, hdec2, hnew2, hrl2⟩ := ihL us1 ws ds1 us2 hinv1 h2
            refine ⟨usLe_trans hle1 hle2, hinv2, ?_,
              newLoaded_trans hnew1 hnew2 hle1.2.2.1,
              regLoaded_trans hrl1 hrl2 hle2.2.1⟩
            have hdec1b : decBV us2.persistables w = some d1 :=
              (decB_mono (szB w)).1 w (le_refl _) _ _ d1 hle2.1 hdec1
            simp only [decBL, hdec1b, hdec2]
    have hK : ∀ us kws kds us', UInv T us → decodeKVs T (fuel + 1) us kws = some (kds, us') →
        usLe us us' ∧ UInv T us' ∧ decBKV us'.persistables kws = some kds ∧
        (∀ j, (alookup j us'.loaded).isSome = true →
          (alookup j us.loaded).isSome = true ∨ us.nextInst ≤ j) ∧
        (∀ q2 j2, alookup q2 us'.persistables = some j2 →
          alookup q2 us.persistables = some j2 ∨
            (alookup j2 us'.loaded).isSome = true) := by
      intro us kws kds us' hinv h
      cases kws with
      | nil =>
        simp only [decodeKVs] at h
        injection h with h
        rw [Prod.mk.injEq] at h
        obtain ⟨hd, hus⟩ := h
        subst hd
        subst hus
        exact ⟨usLe_refl us, hinv, rfl, fun j hj => Or.inl hj, fun q2 j2 hj => Or.inl hj⟩
      | cons kw kws =>
        rcases kw with ⟨k, w⟩
        simp only [decodeKVs] at h
        rcases h1 : decodeV T fuel us w with _ | pr
        · rw [h1] at h
          cases h
        · rcases pr with ⟨d1, us1⟩
          rw [h1] at h
          dsimp only at h
          rcases h2 : decodeKVs T fuel us1 kws with _ | pr2
          · rw [h2] at h
            cases h
          · rcases pr2 with ⟨kds1, us2⟩
            rw [h2] at h
            dsimp only at h
            injection h with h
            rw [Prod.mk.injEq] at h
            obtain ⟨hd, hus⟩ := h
            subst hd
            subst hus
            obtain ⟨hle1, hinv1, hdec1, hnew1, hrl1⟩ := ihV us w d1 us1 hinv h1
            obtain ⟨hle2, hinv2, hdec2, hnew2, hrl2⟩ := ihK us1 kws kds1 us2 hinv1 h2
            refine ⟨usLe_trans hle1 hle2, hinv2, ?_,
              newLoaded_trans hnew1 hnew2 hle1.2.2.1,
              regLoaded_trans hrl1 hrl2 hle2.2.1⟩
            have hdec1b : decBV us2.persistables w = some d1 :=
              (decB_mono (szB w)).1 w (le_refl _) _ _ d1 hle2.1 hdec1
            simp only [decBKV, hdec1b, hdec2]
    have hU : ∀ us p bd i us', UInv T us → alookup p us.persistables = none →
        alookup p T = some (some bd) → unbundleP T (fuel + 1) us p bd = some (i, us') →
        usLe us us' ∧ UInv T us' ∧ i = us.nextInst ∧
        alookup p us'.persistables = some i ∧
        (∀ j, (alookup j us'.loaded).isSome = true →
          (alookup j us.loaded).isSome = true ∨ us.nextInst ≤ j) ∧
        (∀ q2 j2, alookup q2 us'.persistables = some j2 →
          alookup q2 us.persistables = some j2 ∨
            (alookup j2 us'.loaded).isSome = true) := by
      intro us p bd i us' hinv hpre hpT h
      obtain ⟨hinv1, hle01, hreg1⟩ := UInv_alloc hinv hpre
      obtain ⟨g1, g2, g3, g4, g5, g6, g7, g8, g9⟩ := hinv
      simp only [unbundleP] at h
      set us1 : UState := ⟨dinsert p us.nextInst us.persistables, us.nextInst + 1,
        us.loaded, us.events ++ [UEvent.alloc p us.nextInst, UEvent.loadStart p]⟩
        with hus1
      have h1n : us1.nextInst = us.nextInst + 1 := rfl
      have h1l : us1.loaded = us.loaded := rfl
      have hfin : ∀ us3 dfields, usLe us1 us3 → UInv T us3 →
          (∀ j, (alookup j us3.loaded).isSome = true →
            (alookup j us1.loaded).isSome = true ∨ us1.nextInst ≤ j) →
          (∀ q2 j2, alookup q2 us3.persistables = some j2 →
            alookup q2 us1.persistables = some j2 ∨
              (alookup j2 us3.loaded).isSome = true) →
          decBKV us3.persistables bd.items = some dfields →
          usLe us ⟨us3.persistables, us3.nextInst,
            us3.loaded ++ [(us.nextInst, ⟨bd.cls, dfields⟩)],
            us3.events ++ [UEvent.loadEnd p]⟩ ∧
          UInv T ⟨us3.persistables, us3.nextInst,
            us3.loaded ++ [(us.nextInst, ⟨bd.cls, dfields⟩)],
            us3.events ++ [UEvent.loadEnd p]⟩ ∧
          alookup p us3.persistables = some us.nextInst ∧
          (∀ j, (alookup j (us3.loaded ++
              [(us.nextInst, (⟨bd.cls, dfields⟩ : LObj))])).isSome = true →
            (alookup j us.loaded).isSome = true ∨ us.nextInst ≤ j) ∧
          (∀ q2 j2, alookup q2 us3.persistables = some j2 →
            alookup q2 us.persistables = some j2 ∨
              (alookup j2 (us3.loaded ++
                [(us.nextInst, (⟨bd.cls, dfields⟩ : LObj))])).isSome = true) := by
        intro us3 dfields hle13 hinv3 hnew13 hrl13 hdecK
        obtain ⟨f1, f2, f3, f4, f5, f6, f7, f8, f9⟩ := hinv3
        have hn13 : us1.nextInst ≤ us3.nextInst := hle13.2.2.1
        have hregp3 : alookup p us3.persistables = some us.nextInst :=
          hle13.1 p us.nextInst hreg1
        have hfresh : alookup us.nextInst us3.loaded = none := by
          rcases hj : alookup us.nextInst us3.loaded with _ | o
          · rfl
          · have hs : (alookup us.nextInst us3.loaded).isSome = true := by
              rw [hj]
              rfl
            rcases hnew13 us.nextInst hs with hs1 | hs1
            · rw [h1l] at hs1
              rcases ho : alookup us.nextInst us.loaded with _ | o2
              · rw [ho] at hs1
                cases hs1
              · have := g5 _ (alookup_mem ho)
                omega
            · rw [h1n] at hs1
              omega
        have hnewL : ∀ j, (alookup j (us3.loaded ++
            [(us.nextInst, (⟨bd.cls, dfields⟩ : LObj))])).isSome = true →
            (alookup j us.loaded).isSome = true ∨ us.nextInst ≤ j := by
          intro j hj
          rcases hold : alookup j us3.loaded with _ | o0
          · rw [alookup_append_none hold, alookup_singleton] at hj
            by_cases hjk : us.nextInst = j
            · exact Or.inr (le_of_eq hjk)
            · rw [if_neg hjk] at hj
              cases hj
          · have hs : (alookup j us3.loaded).isSome = true := by
              rw [hold]
              rfl
            rcases hnew13 j hs with hs1 | hs1
            · rw [h1l] at hs1
              exact Or.inl hs1
            · rw [h1n] at hs1
              exact Or.inr (by omega)
        have hregLoad : ∀ q2 j2, alookup q2 us3.persistables = some j2 →
            alookup q2 us.persistables = some j2 ∨
              (alookup j2 (us3.loaded ++
                [(us.nextInst, (⟨bd.cls, dfields⟩ : LObj))])).isSome = true := by
          intro q2 j2 hq2
          rcases hrl13 q2 j2 hq2 with hcase | hcase
          · by_cases hqp : q2 = p
            · subst hqp
              have h1p : alookup q2 us1.persistables = some us.nextInst := hreg1
              rw [h1p] at hcase
              injection hcase with hje
              subst hje
              right
              rw [alookup_append_none hfresh, alookup_singleton, if_pos rfl]
              rfl
            · left
              have h1q : alookup q2 us1.persistables =
                  alookup q2 us.persistables := by
                show alookup q2 (dinsert p us.nextInst us.persistables) = _
                exact alookup_dinsert_ne hqp hpre
              rw [h1q] at hcase
              exact hcase
          · rcases ho : alookup j2 us3.loaded with _ | o
            · rw [ho] at hcase
              cases hcase
            · right
              rw [alookup_append_some ho]
              rfl
        refine ⟨?_, ⟨f1, f2, f3, ?_, ?_, ?_, ?_, ?_, ?_⟩, hregp3, hnewL, hregLoad⟩
        · refine usLe_trans (usLe_trans hle01 hle13)
            ⟨fun _ _ h => h, fun j o h => alookup_append_some h, le_refl _,
              [UEvent.loadEnd p], rfl⟩
        · show ((us3.loaded ++ [(us.nextInst, (⟨bd.cls, dfields⟩ : LObj))]).map
            Prod.fst).Nodup
          rw [List.map_append]
          refine List.nodup_append.mpr ⟨f4, List.nodup_singleton _, ?_⟩
          intro x hx
          simp only [List.map_cons, List.map_nil, List.mem_singleton]
          intro hxk
          subst hxk
          have hsx : (alookup us.nextInst us3.loaded).isSome = true :=
            alookup_isSome_iff.mpr hx
          rw [hfresh] at hsx
          cases hsx
        · intro jo hjo
          rcases List.mem_append.mp hjo with hm | hm
          · exact f5 jo hm
          · rw [List.mem_singleton.mp hm]
            dsimp only
            omega
        · exact abl_append_no_loadStart f6 (by
            intro e he q
            rw [List.mem_singleton.mp he]
            intro hc
            cases hc)
        · intro p' i' hm
          rcases mem_append_singleton hm with hm | hm
          · exact f7 p' i' hm
          · cases hm
        · intro p' i' hm
          rcases mem_append_singleton hm with hm | hm
          · exact f8 p' i' hm
          · cases hm
        · intro j o hj
          dsimp only at hj
          rcases hold : alookup j us3.loaded with _ | o0
          · rw [alookup_append_none hold, alookup_singleton] at hj
            by_cases hjk : us.nextInst = j
            · rw [if_pos hjk] at hj
              injection hj with hj
              refine ⟨p, bd, dfields, ?_, hpT, hj.symm, hdecK⟩
              rw [← hjk]
              exact hregp3
            · rw [if_neg hjk] at hj
              cases hj
          · rw [alookup_append_some hold] at hj
            injection hj with hj
            subst hj
            exact f9 j o0 hold
      rcases hlr : bd.loopRef with _ | l
      · rw [hlr] at h
        dsimp only at h
        rcases hk : decodeKVs T fuel us1 bd.items with _ | pr
        · rw [hk] at h
          cases h
        · rcases pr with ⟨dfields, us3⟩
          rw [hk] at h
          dsimp only at h
          injection h with h
          rw [Prod.mk.injEq] at h
          obtain ⟨hi, hus⟩ := h
          subst hi
          subst hus
          obtain ⟨hlek, hinv3, hdecK, hnewk, hrlk⟩ := ihK us1 bd.items dfields us3 hinv1 hk
          obtain ⟨c1, c2, c3, c4, c5⟩ := hfin us3 dfields hlek hinv3 hnewk hrlk hdecK
          exact ⟨c1, c2, rfl, c3, c4, c5⟩
      · rw [hlr] at h
        dsimp only at h
        rcases hg : getPers T fuel us1 l with _ | pr
        · rw [hg] at h
          cases h
        · rcases pr with ⟨i0, us2⟩
          rw [hg] at h
          dsimp only at h
          rcases hk : decodeKVs T fuel us2 bd.items with _ | pr2
          · rw [hk] at h
            cases h
          · rcases pr2 with ⟨dfields, us3⟩
            rw [hk] at h
            dsimp only at h
            injection h with h
            rw [Prod.mk.injEq] at h
            obtain ⟨hi, hus⟩ := h
            subst hi
            subst hus
            obtain ⟨hleg, hinv2, _, hnewg, hrlg⟩ := ihG us1 l i0 us2 hinv1 hg
            obtain ⟨hlek, hinv3, hdecK, hnewk, hrlk⟩ := ihK us2 bd.items dfields us3 hinv2 hk
            obtain ⟨c1, c2, c3, c4, c5⟩ := hfin us3 dfields (usLe_trans hleg hlek) hinv3
              (newLoaded_trans hnewg hnewk hleg.2.2.1)
              (regLoaded_trans hrlg hrlk hlek.2.1) hdecK
            exact ⟨c1, c2, rfl, c3, c4, c5⟩
    exact ⟨hG, hV, hL, hK, hU⟩

theorem remaining_le_of_mle {T : SideTable} {us us' : UState}
    (h : ∀ q i, alookup q us.persistables = some i →
      alookup q us'.persistables = some i) :
    remaining T us' ≤ remaining T us := by
  apply List.countP_mono_left
  intro q _ hq
  simp only [Option.isNone_iff_eq_none] at hq ⊢
  rcases hh : alookup q us.persistables with _ | i
  · rfl
  · rw [h q i hh] at hq
    cases hq

theorem remaining_alloc {T : SideTable} {us us' : UState} {p : PId} {v : Nat}
    (hnd : (T.map Prod.fst).Nodup) (hpT : p ∈ T.map Prod.fst)
    (hpre : alookup p us.persistables = none)
    (hp : us'.persistables = dinsert p v us.persistables) :
    remaining T us = remaining T us' + 1 := by
  apply countP_drop_one hnd hpT
  · simp [hpre]
  · simp [remaining, hp, alookup_dinsert_self hpre]
  · intro q _ hq
    simp only [hp, alookup_dinsert_ne hq hpre]

theorem remaining_pos {T : SideTable} {us : UState} {p : PId}
    (hpT : p ∈ T.map Prod.fst) (hpre : alookup p us.persistables = none) :
    1 ≤ remaining T us := by
  have : 0 < (T.map Prod.fst).countP fun q => (alookup q us.persistables).isNone :=
    List.countP_pos.mpr ⟨p, hpT, by simp [hpre]⟩
  simp only [remaining]
  omega

theorem maxItems_bound {T : SideTable} {q : PId} {bd : BData}
    (h : alookup q T = some (some bd)) : szBKV bd.items ≤ maxItems T := by
  have hm : (q, some bd) ∈ T := alookup_mem h
  have : szBKV bd.items ∈ T.map fun qd => match qd.snd with
      | some bd => szBKV bd.items
      | none => 0 :=
    List.mem_map.mpr ⟨(q, some bd), hm, rfl⟩
  exact le_foldr_max this

theorem loopReg_mono {T : SideTable} {us us' : UState}
    (h : ∀ q i, alookup q us.persistables = some i →
      alookup q us'.persistables = some i)
    (hlr : ∀ q, alookup q T = some none →
      (alookup q us.persistables).isSome = true) :
    ∀ q, alookup q T = some none → (alookup q us'.persistables).isSome = true := by
  intro q hq
  have hs := hlr q hq
  rcases ho : alookup q us.persistables with _ | i
  · rw [ho] at hs
    cases hs
  · rw [h q i ho]
    rfl

/-- Fuel sufficiency for one unbundling pass: under a side-table whose
referenced identities are all present, whose `None` entries are
pre-registered identities (the bootstrapped live loop), and whose loop
references point at `None` entries, every call succeeds once the fuel
covers the value size plus a per-object budget for each identity not
yet registered. -/
theorem decode_success (T : SideTable)
    (hTl : ∀ q bd, alookup q T = some (some bd) →
      ∀ l, bd.loopRef = some l → alookup l T = some none)
    (hTr : ∀ q bd, alookup q T = some (some bd) →
      ∀ r ∈ refsBKVs bd.items, (alookup r T).isSome = true)
    (hTnd : (T.map Prod.fst).Nodup) :
    ∀ fuel,
    (∀ us q, UInv T us →
      (∀ q', alookup q' T = some none → (alookup q' us.persistables).isSome = true) →
      ((alookup q us.persistables).isSome = true ∨ (alookup q T).isSome = true) →
      1 + (maxItems T + 2) * remaining T us ≤ fuel →
      (getPers T fuel us q).isSome = true) ∧
    (∀ us w, UInv T us →
      (∀ q', alookup q' T = some none → (alookup q' us.persistables).isSome = true) →
      (∀ r ∈ refsB w, (alookup r T).isSome = true) →
      szB w + (maxItems T + 2) * remaining T us ≤ fuel →
      (decodeV T fuel us w).isSome = true) ∧
    (∀ us ws, UInv T us →
      (∀ q', alookup q' T = some none → (alookup q' us.persistables).isSome = true) →
      (∀ r ∈ refsBList ws, (alookup r T).isSome = true) →
      szBL ws + (maxItems T + 2) * remaining T us ≤ fuel →
      (decodeList T fuel us ws).isSome = true) ∧
    (∀ us kws, UInv T us →
      (∀ q', alookup q' T = some none → (alookup q' us.persistables).isSome = true) →
      (∀ r ∈ refsBKVs kws, (alookup r T).isSome = true) →
      szBKV kws + (maxItems T + 2) * remaining T us ≤ fuel →
      (decodeKVs T fuel us kws).isSome = true) ∧
    (∀ us p bd, UInv T us →
      (∀ q', alookup q' T = some none → (alookup q' us.persistables).isSome = true) →
      alookup p us.persistables = none → alookup p T = some (some bd) →
      (maxItems T + 2) * remaining T us ≤ fuel →
      (unbundleP T fuel us p bd).isSome = true) := by
  intro fuel
  induction fuel with
  | zero =>
    refine ⟨?_, ?_, ?_, ?_, ?_⟩
    · intro us q _ _ _ hsz
      omega
    · intro us w _ _ _ hsz
      have := szB_pos w
      omega
    · intro us ws _ _ _ hsz
      have := szBL_pos ws
      omega
    · intro us kws _ _ _ hsz
      have := szBKV_pos kws
      omega
    · intro us p bd _ _ hpre hpT hsz
      have hpk : p ∈ T.map Prod.fst := alookup_isSome_iff.mp (by rw [hpT]; rfl)
      have hrp := remaining_pos hpk hpre
      have hpos : 0 < (maxItems T + 2) * remaining T us :=
        Nat.mul_pos (by omega) hrp
      exact absurd hsz (Nat.not_le.mpr hpos)
  | succ fuel ih =>
    obtain ⟨ihG, ihV, ihL, ihK, ihU⟩ := ih
    obtain ⟨cG, cV, cL, cK, cU⟩ := decode_contract T fuel
    have sG : ∀ us q, UInv T us →
        (∀ q', alookup q' T = some none → (alookup q' us.persistables).isSome = true) →
        ((alookup q us.persistables).isSome = true ∨ (alookup q T).isSome = true) →
        1 + (maxItems T + 2) * remaining T us ≤ fuel + 1 →
        (getPers T (fuel + 1) us q).isSome = true := by
      intro us q hinv hlr hq hsz
      simp only [getPers]
      rcases hp : alookup q us.persistables with _ | i
      · dsimp only
        rcases hT : alookup q T with _ | obd
        · rcases hq with hq | hq
          · rw [hp] at hq
            cases hq
          · rw [hT] at hq
            cases hq
        · rcases obd with _ | bd
          · have hs := hlr q hT
            rw [hp] at hs
            cases hs
          · dsimp only
            have hub : (unbundleP T fuel us q bd).isSome = true :=
              ihU us q bd hinv hlr hp hT (by omega)
            rcases hu : unbundleP T fuel us q bd with _ | pr
            · rw [hu] at hub
              cases hub
            · rcases pr with ⟨i1, us1⟩
              rfl
      · rfl
    have sV : ∀ us w, UInv T us →
        (∀ q', alookup q' T = some none → (alookup q' us.persistables).isSome = true) →
        (∀ r ∈ refsB w, (alookup r T).isSome = true) →
        szB w + (maxItems T + 2) * remaining T us ≤ fuel + 1 →
        (decodeV T (fuel + 1) us w).isSome = true := by
      intro us w hinv hlr hr hsz
      cases w with
      | prim pr => rfl
      | ref q =>
        simp only [decodeV]
        have hg : (getPers T fuel us q).isSome = true := by
          apply ihG us q hinv hlr
          · exact Or.inr (hr q (by simp [refsB]))
          · simp only [szB] at hsz
            omega
        rcases hgv : getPers T fuel us q with _ | pr
        · rw [hgv] at hg
          cases hg
        · rcases pr with ⟨i1, us1⟩
          rfl
      | listV ws =>
        simp only [decodeV]
        have hl : (decodeList T fuel us ws).isSome = true := by
          apply ihL us ws hinv hlr
          · intro r hrr
            exact hr r (by simpa [refsB] using hrr)
          · simp only [szB] at hsz
            omega
        rcases hlv : decodeList T fuel us ws with _ | pr
        · rw [hlv] at hl
          cases hl
        · rcases pr with ⟨ds, us1⟩
          rfl
      | dictV kws =>
        simp only [decodeV]
        have hl : (decodeKVs T fuel us kws).isSome = true := by
          apply ihK us kws hinv hlr
          · intro r hrr
            exact hr r (by simpa [refsB] using hrr)
          · simp only [szB] at hsz
            omega
        rcases hlv : decodeKVs T fuel us kws with _ | pr
        · rw [hlv] at hl
          cases hl
        · rcases pr with ⟨kds, us1⟩
          rfl
    have sL : ∀ us ws, UInv T us →
        (∀ q', alookup q' T = some none → (alookup q' us.persistables).isSome = true) →
        (∀ r ∈ refsBList ws, (alookup r T).isSome = true) →
        szBL ws + (maxItems T + 2) * remaining T us ≤ fuel + 1 →
        (decodeList T (fuel + 1) us ws).isSome = true := by
      intro us ws hinv hlr hr hsz
      cases ws with
      | nil => rfl
      | cons w ws =>
        simp only [decodeList]
        have hv : (decodeV T fuel us w).isSome = true := by
          apply ihV us w hinv hlr
          · intro r hrr
            exact hr r (by simp only [refsBList]; exact List.mem_append_left _ hrr)
          · have := szBL_pos ws
            simp only [szBL] at hsz
            omega
        rcases hvv : decodeV T fuel us w with _ | pr
        · rw [hvv] at hv
          cases hv
        · rcases pr with ⟨d1, us1⟩
          dsimp only
          obtain ⟨hle1, hinv1, _, _, _⟩ := cV us w d1 us1 hinv hvv
          have hrem : remaining T us1 ≤ remaining T us := remaining_le_of_mle hle1.1
          have hmul : (maxItems T + 2) * remaining T us1 ≤
              (maxItems T + 2) * remaining T us :=
            Nat.mul_le_mul_left _ hrem
          have hl : (decodeList T fuel us1 ws).isSome = true := by
            apply ihL us1 ws hinv1 (loopReg_mono hle1.1 hlr)
            · intro r hrr
              exact hr r (by simp only [refsBList]; exact List.mem_append_right _ hrr)
            · have := szB_pos w
              simp only [szBL] at hsz
              omega
          rcases hlv : decodeList T fuel us1 ws with _ | pr2
          · rw [hlv] at hl
            cases hl
          · rcases pr2 with ⟨ds1, us2⟩
            rfl
    have sK : ∀ us kws, UInv T us →
        (∀ q', alookup q' T = some none → (alookup q' us.persistables).isSome = true) →
        (∀ r ∈ refsBKVs kws, (alookup r T).isSome = true) →
        szBKV kws + (maxItems T + 2) * remaining T us ≤ fuel + 1 →
        (decodeKVs T (fuel + 1) us kws).isSome = true := by
      intro us kws hinv hlr hr hsz
      cases kws with
      | nil => rfl
      | cons kw kws =>
        rcases kw with ⟨k, w⟩
        simp only [decodeKVs]
        have hv : (decodeV T fuel us w).isSome = true := by
          apply ihV us w hinv hlr
          · intro r hrr
            exact hr r (by simp only [refsBKVs]; exact List.mem_append_left _ hrr)
          · have := szBKV_pos kws
            simp only [szBKV] at hsz
            omega
        rcases hvv : decodeV T fuel us w with _ | pr
        · rw [hvv] at hv
          cases hv
        · rcases pr with ⟨d1, us1⟩
          dsimp only
          obtain ⟨hle1, hinv1, _, _, _⟩ := cV us w d1 us1 hinv hvv
          have hrem : remaining T us1 ≤ remaining T us := remaining_le_of_mle hle1.1
          have hmul : (maxItems T + 2) * remaining T us1 ≤
              (maxItems T + 2) * remaining T us :=
            Nat.mul_le_mul_left _ hrem
          have hl : (decodeKVs T fuel us1 kws).isSome = true := by
            apply ihK us1 kws hinv1 (loopReg_mono hle1.1 hlr)
            · intro r hrr
              exact hr r (by simp only [refsBKVs]; exact List.mem_append_right _ hrr)
            · have := szB_pos w
              simp only [szBKV] at hsz
              omega
          rcases hlv : decodeKVs T fuel us1 kws with _ | pr2
          · rw [hlv] at hl
            cases hl
          · rcases pr2 with ⟨kds1, us2⟩
            rfl
    have sU : ∀ us p bd, UInv T us →
        (∀ q', alookup q' T = some none → (alookup q' us.persistables).isSome = true) →
        alookup p us.persistables = none → alookup p T = some (some bd) →
        (maxItems T + 2) * remaining T us ≤ fuel + 1 →
        (unbundleP T (fuel + 1) us p bd).isSome = true := by
      intro us p bd hinv hlr hpre hpT hsz
      obtain ⟨hinv1, hle01, hreg1⟩ := UInv_alloc hinv hpre
      simp only [unbundleP]
      set us1 : UState := ⟨dinsert p us.nextInst us.persistables, us.nextInst + 1,
        us.loaded, us.events ++ [UEvent.alloc p us.nextInst, UEvent.loadStart p]⟩
        with hus1
      have hpk : p ∈ T.map Prod.fst := alookup_isSome_iff.mp (by rw [hpT]; rfl)
      have hrem1 : remaining T us = remaining T us1 + 1 :=
        remaining_alloc hTnd hpk hpre rfl
      have hit : szBKV bd.items ≤ maxItems T := maxItems_bound hpT
      have hlr1 : ∀ q', alookup q' T = some none →
          (alookup q' us1.persistables).isSome = true :=
        loopReg_mono hle01.1 hlr
      have hexp : (maxItems T + 2) * remaining T us =
          (maxItems T + 2) * remaining T us1 + (maxItems T + 2) := by
        rw [hrem1]
        ring
      rcases hbl : bd.loopRef with _ | l
      · dsimp only
        have hks : (decodeKVs T fuel us1 bd.items).isSome = true := by
          apply ihK us1 bd.items hinv1 hlr1 (hTr p bd hpT)
          omega
        rcases hk : decodeKVs T fuel us1 bd.items with _ | pr
        · rw [hk] at hks
          cases hks
        · rcases pr with ⟨dfields, us3⟩
          rfl
      · dsimp only
        have hlT : alookup l T = some none := hTl p bd hpT l hbl
        have hgl : (getPers T fuel us1 l).isSome = true := by
          apply ihG us1 l hinv1 hlr1 (Or.inl (hlr1 l hlT))
          omega
        rcases hg : getPers T fuel us1 l with _ | pr
        · rw [hg] at hgl
          cases hgl
        · rcases pr with ⟨i0, us2⟩
          dsimp only
          obtain ⟨hle12, hinv2, _, _, _⟩ := cG us1 l i0 us2 hinv1 hg
          have hrem2 : remaining T us2 ≤ remaining T us1 :=
            remaining_le_of_mle hle12.1
          have hmul : (maxItems T + 2) * remaining T us2 ≤
              (maxItems T + 2) * remaining T us1 :=
            Nat.mul_le_mul_left _ hrem2
          have hks : (decodeKVs T fuel us2 bd.items).isSome = true := by
            apply ihK us2 bd.items hinv2
              (loopReg_mono hle12.1 hlr1) (hTr p bd hpT)
            omega
          rcases hk : decodeKVs T fuel us2 bd.items with _ | pr2
          · rw [hk] at hks
            cases hks
          · rcases pr2 with ⟨dfields, us3⟩
            rfl
    exact ⟨sG, sV, sL, sK, sU⟩

/-- `Bundle(root)` on a well-formed graph succeeds with the standard
fuel and produces a side-table whose identities are unique, whose
completed entries are exactly the purely-encoded graph objects with
all references present, and whose single `None` entry (if any) is the
bootstrapped live loop. -/
theorem mkBundle_spec {G : Graph} {root : PId} (hwf : WF G root = true) :
    ∃ st, mkBundle G root (bundleFuel G) = some st ∧
      (st.map Prod.fst).Nodup ∧
      FinalAt G st root ∧
      (∀ q bd, alookup q st = some (some bd) → FinalAt G st q) ∧
      (∀ q, alookup q st = some none → rootLoopOf G root = some q) ∧
      (∀ l, rootLoopOf G root = some l → alookup l st = some none) := by
  obtain ⟨hroot, hnd, hloop, hobj⟩ := WF_unpack hwf
  rcases hro : alookup root G with _ | obj
  · rw [hro] at hroot
    cases hroot
  · have hrl : rootLoopOf G root = obj.loopRef := by
      simp [rootLoopOf, hro]
    have hobjv : ∀ p obj2, alookup p G = some obj2 →
        valOkKVs G (rootLoopOf G root) obj2.fields = true :=
      fun p obj2 hp => (hobj p obj2 hp).2
    simp only [mkBundle, hro]
    rcases hlro : obj.loopRef with _ | l
    · -- no live loop: the bootstrap table is empty
      have hpre0 : alookup root ([] : SideTable) = none := rfl
      have hin0 : ∀ l', rootLoopOf G root = some l' →
          (alookup l' ([] : SideTable)).isSome = true := by
        intro l' hl'
        rw [hrl, hlro] at hl'
        cases hl'
      have hfuel : (maxFields G + 1) * unstarted G ([] : SideTable) ≤ bundleFuel G := by
        have hcount : unstarted G ([] : SideTable) ≤ G.length := by
          have h1 : (G.map Prod.fst).countP
              (fun q => (alookup q ([] : SideTable)).isNone) ≤
              (G.map Prod.fst).length := List.countP_le_length _
          simpa [unstarted] using h1
        exact Nat.mul_le_mul_left _ (by omega)
      have hsucc : (bundleP G (bundleFuel G) [] root).isSome = true :=
        (encode_success G (rootLoopOf G root) hnd hobjv (bundleFuel G)).2.2.2.2
          [] root (by rw [hro]; rfl) hpre0 hin0 hfuel
      rcases hb : bundleP G (bundleFuel G) [] root with _ | st
      · rw [hb] at hsucc
        cases hsucc
      · obtain ⟨hle, hfinal, hnewk, hnonep, hndk⟩ :=
          (encode_contract G (bundleFuel G)).2.2.2.2 [] root st hpre0 hb
        refine ⟨st, rfl, hndk (by simp), hfinal, ?_, ?_, ?_⟩
        · intro q bd hq
          have hqs : (alookup q st).isSome = true := by
            rw [hq]
            rfl
          rcases hnewk q hqs with hq0 | hf
          · cases hq0
          · exact hf
        · intro q hq
          have := hnonep q hq
          cases this
        · intro l' hl'
          rw [hrl, hlro] at hl'
          cases hl'
    · -- live loop `l`: bootstrapped as a `None` entry
      have hlne : ¬(l = root) := (hloop l (by rw [hrl, hlro])).2
      have hpre0 : alookup root ([(l, (none : Option BData))]) = none := by
        simp [alookup, hlne]
      have hin0 : ∀ l', rootLoopOf G root = some l' →
          (alookup l' ([(l, (none : Option BData))])).isSome = true := by
        intro l' hl'
        rw [hrl, hlro] at hl'
        injection hl' with hl'
        subst hl'
        simp [alookup]
      have hfuel : (maxFields G + 1) *
          unstarted G ([(l, (none : Option BData))]) ≤ bundleFuel G := by
        have hcount : unstarted G ([(l, (none : Option BData))]) ≤ G.length := by
          have h1 : (G.map Prod.fst).countP
              (fun q => (alookup q ([(l, (none : Option BData))])).isNone) ≤
              (G.map Prod.fst).length := List.countP_le_length _
          simpa [unstarted] using h1
        exact Nat.mul_le_mul_left _ (by omega)
      have hsucc : (bundleP G (bundleFuel G) [(l, none)] root).isSome = true :=
        (encode_success G (rootLoopOf G root) hnd hobjv (bundleFuel G)).2.2.2.2
          [(l, none)] root (by rw [hro]; rfl) hpre0 hin0 hfuel
      rcases hb : bundleP G (bundleFuel G) [(l, none)] root with _ | st
      · rw [hb] at hsucc
        cases hsucc
      · obtain ⟨hle, hfinal, hnewk, hnonep, hndk⟩ :=
          (encode_contract G (bundleFuel G)).2.2.2.2 [(l, none)] root st hpre0 hb
        have hlst : alookup l st = some none :=
          hle l none (by simp [alookup])
        refine ⟨st, rfl, hndk (by simp), hfinal, ?_, ?_, ?_⟩
        · intro q bd hq
          have hqs : (alookup q st).isSome = true := by
            rw [hq]
            rfl
          rcases hnewk q hqs with hq0 | hf
          · have hql : q = l := by
              by_contra hqne
              rw [show alookup q [(l, (none : Option BData))] =
                  none by simp [alookup, Ne.symm hqne]] at hq0
              cases hq0
            subst hql
            rw [hlst] at hq
            cases hq
          · exact hf
        · intro q hq
          have hq0 := hnonep q hq
          have hql : l = q := by
            by_cases heq : l = q
            · exact heq
            · rw [show alookup q [(l, (none : Option BData))] =
                  none by simp [alookup, heq]] at hq0
              cases hq0
          rw [hrl, hlro, hql]
        · intro l' hl'
          rw [hrl, hlro] at hl'
          injection hl' with hl'
          subst hl'
          exact hlst

theorem allocBeforeLoad_nil : allocBeforeLoad [] := by
  intro l1 p l2 h
  cases l1 with
  | nil => cases h
  | cons x xs => cases h

/-- The unbundler state bootstrapped without a live loop. -/
theorem UInv_init_empty (T : SideTable) : UInv T ⟨[], 1, [], []⟩ := by
  refine ⟨List.nodup_nil, List.nodup_nil, ?_, List.nodup_nil, ?_,
    allocBeforeLoad_nil, ?_, ?_, ?_⟩
  · intro pi hpi
    cases hpi
  · intro jo hjo
    cases hjo
  · intro p i hm
    cases hm
  · intro p i hm
    cases hm
  · intro j o hj
    cases hj

/-- The unbundler state bootstrapped with the live loop at instance 0. -/
theorem UInv_init_loop (T : SideTable) (l : PId) : UInv T ⟨[(l, 0)], 1, [], []⟩ := by
  refine ⟨?_, ?_, ?_, List.nodup_nil, ?_, allocBeforeLoad_nil, ?_, ?_, ?_⟩
  · simp
  · simp
  · intro pi hpi
    rw [List.mem_singleton.mp hpi]
    simp
  · intro jo hjo
    cases hjo
  · intro p i hm
    cases hm
  · intro p i hm
    cases hm
  · intro j o hj
    cases hj

/-- In a map with pairwise-distinct values, at most one key maps to a
given value. -/
theorem alookup_inj_of_vals_nodup {l : List (Nat × Nat)}
    (hn : (l.map Prod.snd).Nodup) {p q j : Nat}
    (hp : alookup p l = some j) (hq : alookup q l = some j) : p = q := by
  induction l with
  | nil => cases hp
  | cons kv rest ih =>
    rcases kv with ⟨k, v⟩
    simp only [List.map_cons, List.nodup_cons] at hn
    simp only [alookup] at hp hq
    by_cases hkp : k = p
    · rw [if_pos hkp] at hp
      injection hp with hp
      by_cases hkq : k = q
      · rw [← hkp, ← hkq]
      · rw [if_neg hkq] at hq
        have hmem : j ∈ rest.map Prod.snd :=
          List.mem_map.mpr ⟨(q, j), alookup_mem hq, rfl⟩
        rw [hp] at hn
        exact absurd hmem hn.1
    · rw [if_neg hkp] at hp
      by_cases hkq : k = q
      · rw [if_pos hkq] at hq
        injection hq with hq
        have hmem : j ∈ rest.map Prod.snd :=
          List.mem_map.mpr ⟨(p, j), alookup_mem hp, rfl⟩
        rw [hq] at hn
        exact absurd hmem hn.1
      · rw [if_neg hkq] at hq
        exact ih hn.2 hp hq

/-- A successful `Bundle.unbundle` run satisfies the full bookkeeping
invariant, registers the root, and registers nothing except the
pre-seeded live loop and instances that were actually loaded. -/
theorem unbundleRoot_spec {T : SideTable} {root : PId} {fuel i : Nat} {us : UState}
    (hnr : ∀ bd l, alookup root T = some (some bd) → bd.loopRef = some l → ¬(l = root))
    (hrun : unbundleRoot T root fuel = some (i, us)) :
    UInv T us ∧
    alookup root us.persistables = some i ∧
    (∀ q j, alookup q us.persistables = some j →
      (alookup j us.loaded).isSome = true ∨
      (∃ bd, alookup root T = some (some bd) ∧ bd.loopRef = some q ∧ j = 0)) := by
  simp only [unbundleRoot] at hrun
  rcases hT : alookup root T with _ | obd
  · rw [hT] at hrun
    cases hrun
  · rcases obd with _ | bd
    · rw [hT] at hrun
      cases hrun
    · rw [hT] at hrun
      dsimp only at hrun
      rcases hbl : bd.loopRef with _ | l
      · rw [hbl] at hrun
        dsimp only at hrun
        obtain ⟨hle, hinv, hieq, hreg, hnew, hRL⟩ :=
          (decode_contract T fuel).2.2.2.2 ⟨[], 1, [], []⟩ root bd i us
            (UInv_init_empty T) rfl hT hrun
        refine ⟨hinv, hreg, ?_⟩
        intro q j hq
        rcases hRL q j hq with h | h
        · cases h
        · exact Or.inl h
      · rw [hbl] at hrun
        dsimp only at hrun
        have hpre0 : alookup root ([(l, 0)] : List (PId × Nat)) = none := by
          simp [alookup, hnr bd l hT hbl]
        obtain ⟨hle, hinv, hieq, hreg, hnew, hRL⟩ :=
          (decode_contract T fuel).2.2.2.2 ⟨[(l, 0)], 1, [], []⟩ root bd i us
            (UInv_init_loop T l) hpre0 hT hrun
        refine ⟨hinv, hreg, ?_⟩
        intro q j hq
        rcases hRL q j hq with h | h
        · rw [alookup_singleton] at h
          by_cases hlq : l = q
          · rw [if_pos hlq] at h
            injection h with h
            exact Or.inr ⟨bd, rfl, by rw [hbl, hlq], h.symm⟩
          · rw [if_neg hlq] at h
            cases h
        · exact Or.inl h

/-- C2: `Unbundler.do` registers the freshly allocated (still
uninitialised) instance in the shared persistables map before invoking
`load_instance_state`: in the event log of any successful
`Bundle.unbundle` run every `loadStart p` is preceded by an
`alloc p i`, every allocation and every resolution of an identity —
including resolutions performed while that identity's own load is
still running — returns exactly the instance the shared map assigns
to it, and identities and instances are in bijection, so a cyclic
reference resolves to the same instance instead of recursing or
creating a duplicate. -/
theorem c2_register_before_load {T : SideTable} {root : PId} {fuel i : Nat}
    {us : UState}
    (hnr : ∀ bd l, alookup root T = some (some bd) → bd.loopRef = some l →
      ¬(l = root))
    (hrun : unbundleRoot T root fuel = some (i, us)) :
    allocBeforeLoad us.events ∧
    (∀ p j, UEvent.alloc p j ∈ us.events → alookup p us.persistables = some j) ∧
    (∀ p j, UEvent.resolve p j ∈ us.events → alookup p us.persistables = some j) ∧
    (us.persistables.map Prod.fst).Nodup ∧
    (us.persistables.map Prod.snd).Nodup := by
  obtain ⟨hinv, _, _⟩ := unbundleRoot_spec hnr hrun
  obtain ⟨g1, g2, g3, g4, g5, g6, g7, g8, g9⟩ := hinv
  exact ⟨g6, g7, g8, g1, g2⟩

/-- Witness for C2: unbundling a two-object cycle.  The log shows
object 2's load hitting the cyclic reference back to object 1 and
resolving it (to instance 1) while object 1's own load is still
open. -/
theorem c2_witness :
    allocBeforeLoad [UEvent.alloc 1 1, UEvent.loadStart 1, UEvent.alloc 2 2,
      UEvent.loadStart 2, UEvent.resolve 1 1, UEvent.loadEnd 2,
      UEvent.resolve 2 2, UEvent.loadEnd 1] ∧
    (∀ p j, UEvent.alloc p j ∈ [UEvent.alloc 1 1, UEvent.loadStart 1,
        UEvent.alloc 2 2, UEvent.loadStart 2, UEvent.resolve 1 1,
        UEvent.loadEnd 2, UEvent.resolve 2 2, UEvent.loadEnd 1] →
      alookup p ([(1, 1), (2, 2)] : List (PId × Nat)) = some j) ∧
    (∀ p j, UEvent.resolve p j ∈ [UEvent.alloc 1 1, UEvent.loadStart 1,
        UEvent.alloc 2 2, UEvent.loadStart 2, UEvent.resolve 1 1,
        UEvent.loadEnd 2, UEvent.resolve 2 2, UEvent.loadEnd 1] →
      alookup p ([(1, 1), (2, 2)] : List (PId × Nat)) = some j) ∧
    (([(1, 1), (2, 2)] : List (PId × Nat)).map Prod.fst).Nodup ∧
    (([(1, 1), (2, 2)] : List (PId × Nat)).map Prod.snd).Nodup := by
  exact c2_register_before_load
    (by
      intro bd l hbd hbl
      have h2 : some (some (⟨"A", none, [("b", BValue.ref 2)]⟩ : BData)) =
          some (some bd) := hbd
      injection h2 with h2
      injection h2 with h2
      subst h2
      cases hbl)
    (rfl :
      unbundleRoot
        [(1, some (⟨"A", none, [("b", BValue.ref 2)]⟩ : BData)),
         (2, some (⟨"B", none, [("a", BValue.ref 1)]⟩ : BData))] 1 20 =
      some (1,
        ⟨[(1, 1), (2, 2)], 3,
         [(2, ⟨"B", [("a", DValue.inst 1)]⟩), (1, ⟨"A", [("b", DValue.inst 2)]⟩)],
         [UEvent.alloc 1 1, UEvent.loadStart 1, UEvent.alloc 2 2,
          UEvent.loadStart 2, UEvent.resolve 1 1, UEvent.loadEnd 2,
          UEvent.resolve 2 2, UEvent.loadEnd 1]⟩))

/-- C1 counterexample: a one-object graph whose single saved field
holds a function value.  The function is a supported value —
`_check_valid_bundle_value` accepts it — yet `Bundle` construction
fails outright, at the standard sufficient fuel and at any larger
fuel: `_encode` wraps the function in a fresh `Function` persistable,
and the wrapper's `save_instance_state` stores `ARGS` as a tuple,
which the value check rejects with `TypeError("Unsupported sequence
type, use a list")`.  No bundle is ever produced, so `unbundle` has
nothing to restore: the round-trip claimed for every graph of
supported values does not exist for this one. -/
theorem c1_counterexample :
    checkValidValue (RValue.func "demo.fn") = true ∧
    mkBundle [(1, (⟨"A", none, [("f", RValue.func "demo.fn")]⟩ : PObj))] 1
      (bundleFuel [(1, (⟨"A", none,
        [("f", RValue.func "demo.fn")]⟩ : PObj))]) = none ∧
    mkBundle [(1, (⟨"A", none, [("f", RValue.func "demo.fn")]⟩ : PObj))] 1
      1000000 = none :=
  ⟨rfl, rfl, rfl⟩

/-- C1 (amended): round-trip for bundleable graphs.  Function and
bound-method values pass `_check_valid_bundle_value`, but
`Bundle._encode` wraps each such occurrence in a *fresh* `Function`
persistable whose `save_instance_state` stores its arguments as a
tuple — which the value check rejects — so bundling any graph with a
function-valued field aborts with `TypeError` at every fuel (first
conjunct).  For every well-formed graph of the remaining supported
values (second conjunct), bundling and unbundling reconstructs an
isomorphic graph: the root gets an instance, identities and instances
are in bijection (each shared or cyclic persistable is reconstructed
exactly once), the live loop keeps its pre-registered identity
(instance 0, never duplicated), and every other reconstructed
instance was loaded with its original class and exactly the image of
its saved field values under the identity-to-instance map — so every
saved value is restored and the reference topology is identical. -/
theorem c1_round_trip :
    (∀ (G : Graph) fuel st name, encodeV G fuel st (RValue.func name) = none) ∧
    (∀ (G : Graph) (root : PId), WF G root = true →
    ∃ st i us, mkBundle G root (bundleFuel G) = some st ∧
      unbundleRoot st root (unbundleFuel st) = some (i, us) ∧
      alookup root us.persistables = some i ∧
      (us.persistables.map Prod.fst).Nodup ∧
      (us.persistables.map Prod.snd).Nodup ∧
      (us.loaded.map Prod.fst).Nodup ∧
      (∀ l, rootLoopOf G root = some l → alookup l us.persistables = some 0) ∧
      (∀ q j, alookup q us.persistables = some j →
        (rootLoopOf G root = some q ∧ j = 0) ∨
        ∃ obj dfields, alookup q G = some obj ∧
          alookup j us.loaded = some ⟨obj.cls, dfields⟩ ∧
          mapDVKVs us.persistables obj.fields = some dfields)) := by
  constructor
  · exact fun G fuel st name => encodeV_func_none G fuel st name
  intro G root hwf
  obtain ⟨st, hmk, hstnd, hfinroot, hsomeF, hnoneRL, hRLnone⟩ := mkBundle_spec hwf
  obtain ⟨hroot, hnd, hloop, hobj⟩ := WF_unpack hwf
  have hTl : ∀ q bd, alookup q st = some (some bd) → ∀ l, bd.loopRef = some l →
      alookup l st = some none := by
    intro q bd hq l hbl
    obtain ⟨obj, items, hGq, henc, hlook, hrefs⟩ := hsomeF q bd hq
    rw [hq] at hlook
    injection hlook with hlook
    injection hlook with hlook
    subst hlook
    rcases (hobj q obj hGq).1 with hcase | hcase
    · have hbl2 : obj.loopRef = some l := hbl
      rw [hcase] at hbl2
      cases hbl2
    · have hbl2 : obj.loopRef = some l := hbl
      rw [hcase] at hbl2
      exact hRLnone l hbl2
  have hTr : ∀ q bd, alookup q st = some (some bd) →
      ∀ r ∈ refsBKVs bd.items, (alookup r st).isSome = true := by
    intro q bd hq
    obtain ⟨obj, items, hGq, henc, hlook, hrefs⟩ := hsomeF q bd hq
    rw [hq] at hlook
    injection hlook with hlook
    injection hlook with hlook
    subst hlook
    exact hrefs
  obtain ⟨objr, itemsr, hGroot, hencr, hlookr, hrefr⟩ := hfinroot
  have hrlr : rootLoopOf G root = objr.loopRef := by
    simp [rootLoopOf, hGroot]
  have hsU := (decode_success st hTl hTr hstnd (unbundleFuel st)).2.2.2.2
  have hcU := (decode_contract st (unbundleFuel st)).2.2.2.2
  have hremB : ∀ us0 : UState,
      (maxItems st + 2) * remaining st us0 ≤ unbundleFuel st := by
    intro us0
    have hcount : remaining st us0 ≤ st.length := by
      have h1 : (st.map Prod.fst).countP
          (fun q => (alookup q us0.persistables).isNone) ≤
          (st.map Prod.fst).length := List.countP_le_length _
      simpa [remaining] using h1
    exact Nat.mul_le_mul_left _ (by omega)
  have hfinish : ∀ (us0 : UState), UInv st us0 →
      alookup root us0.persistables = none →
      (∀ q j, alookup q us0.persistables = some j →
        rootLoopOf G root = some q ∧ j = 0) →
      ∀ i us, unbundleP st (unbundleFuel st) us0 root
          ⟨objr.cls, objr.loopRef, itemsr⟩ = some (i, us) →
      alookup root us.persistables = some i ∧
      (us.persistables.map Prod.fst).Nodup ∧
      (us.persistables.map Prod.snd).Nodup ∧
      (us.loaded.map Prod.fst).Nodup ∧
      (∀ q j, alookup q us.persistables = some j →
        (rootLoopOf G root = some q ∧ j = 0) ∨
        ∃ obj dfields, alookup q G = some obj ∧
          alookup j us.loaded = some ⟨obj.cls, dfields⟩ ∧
          mapDVKVs us.persistables obj.fields = some dfields) := by
    intro us0 hinv0 hpre0 hloop0 i us hrp
    obtain ⟨hle, hinv, hieq, hreg, hnew, hRL⟩ :=
      hcU us0 root ⟨objr.cls, objr.loopRef, itemsr⟩ i us hinv0 hpre0 hlookr hrp
    obtain ⟨g1, g2, g3, g4, g5, g6, g7, g8, g9⟩ := hinv
    refine ⟨hreg, g1, g2, g4, ?_⟩
    intro q j hq
    rcases hRL q j hq with hl0 | hload
    · exact Or.inl (hloop0 q j hl0)
    · rcases halo : alookup j us.loaded with _ | o
      · rw [halo] at hload
        cases hload
      · obtain ⟨p, bd, dfields, hp, hpst, ho, hdec⟩ := g9 j o halo
        have hpq : p = q := alookup_inj_of_vals_nodup g2 hp hq
        subst hpq
        obtain ⟨obj, items, hGq, henc, hlook2, _⟩ := hsomeF p bd hpst
        rw [hpst] at hlook2
        injection hlook2 with hlook2
        injection hlook2 with hlook2
        subst hlook2
        have hcomp : decBKV us.persistables items =
            mapDVKVs us.persistables obj.fields :=
          (enc_dec_compose (szKV obj.fields)).2.2 obj.fields (le_refl _) items
            us.persistables henc
        rw [show (⟨obj.cls, obj.loopRef, items⟩ : BData).items = items from rfl,
          hcomp] at hdec
        refine Or.inr ⟨obj, dfields, hGq, ?_, hdec⟩
        rw [ho]
  rcases hlro : objr.loopRef with _ | l0
  · rw [hlro] at hlookr
    have hsucc : (unbundleP st (unbundleFuel st) ⟨[], 1, [], []⟩ root
        ⟨objr.cls, none, itemsr⟩).isSome = true := by
      apply hsU ⟨[], 1, [], []⟩ root ⟨objr.cls, none, itemsr⟩
        (UInv_init_empty st) ?_ rfl hlookr (hremB ⟨[], 1, [], []⟩)
      intro q' hq'
      have := hnoneRL q' hq'
      rw [hrlr, hlro] at this
      cases this
    rcases hrp : unbundleP st (unbundleFuel st) ⟨[], 1, [], []⟩ root
        ⟨objr.cls, none, itemsr⟩ with _ | pr
    · rw [hrp] at hsucc
      cases hsucc
    · rcases pr with ⟨i, us⟩
      have hrun : unbundleRoot st root (unbundleFuel st) = some (i, us) := by
        simp only [unbundleRoot, hlookr]
        exact hrp
      obtain ⟨hregc, hk1, hk2, hk3, hper⟩ := hfinish ⟨[], 1, [], []⟩
        (UInv_init_empty st) rfl
        (by
          intro q j hqj
          cases hqj) i us (by rw [hlro]; exact hrp)
      refine ⟨st, i, us, hmk, hrun, hregc, hk1, hk2, hk3, ?_, hper⟩
      intro l hl
      rw [hrlr, hlro] at hl
      cases hl
  · rw [hlro] at hlookr
    have hl0ne : ¬(l0 = root) := (hloop l0 (by rw [hrlr, hlro])).2
    have hpre0 : alookup root ([(l0, 0)] : List (PId × Nat)) = none := by
      simp [alookup, hl0ne]
    have hsucc : (unbundleP st (unbundleFuel st) ⟨[(l0, 0)], 1, [], []⟩ root
        ⟨objr.cls, some l0, itemsr⟩).isSome = true := by
      apply hsU ⟨[(l0, 0)], 1, [], []⟩ root ⟨objr.cls, some l0, itemsr⟩
        (UInv_init_loop st l0) ?_ hpre0 hlookr (hremB ⟨[(l0, 0)], 1, [], []⟩)
      intro q' hq'
      have hq2 := hnoneRL q' hq'
      rw [hrlr, hlro] at hq2
      injection hq2 with hq2
      subst hq2
      simp [alookup]
    rcases hrp : unbundleP st (unbundleFuel st) ⟨[(l0, 0)], 1, [], []⟩ root
        ⟨objr.cls, some l0, itemsr⟩ with _ | pr
    · rw [hrp] at hsucc
      cases hsucc
    · rcases pr with ⟨i, us⟩
      have hrun : unbundleRoot st root (unbundleFuel st) = some (i, us) := by
        simp only [unbundleRoot, hlookr]
        exact hrp
      obtain ⟨hregc, hk1, hk2, hk3, hper⟩ := hfinish ⟨[(l0, 0)], 1, [], []⟩
        (UInv_init_loop st l0) hpre0
        (by
          intro q j hqj
          rw [alookup_singleton] at hqj
          by_cases hlq : l0 = q
          · rw [if_pos hlq] at hqj
            injection hqj with hqj
            exact ⟨by rw [hrlr, hlro, hlq], hqj.symm⟩
          · rw [if_neg hlq] at hqj
            cases hqj) i us (by rw [hlro]; exact hrp)
      have hle0 := hcU ⟨[(l0, 0)], 1, [], []⟩ root ⟨objr.cls, some l0, itemsr⟩
        i us (UInv_init_loop st l0) hpre0 hlookr hrp
      refine ⟨st, i, us, hmk, hrun, hregc, hk1, hk2, hk3, ?_, hper⟩
      intro l hl
      rw [hrlr, hlro] at hl
      injection hl with hl
      subst hl
      exact hle0.1.1 l0 0 (by simp [alookup])

/-- Witness for C1: the function-abort conjunct at a concrete call,
and the round-trip conjunct at a two-object cycle living in loop
`9`. -/
theorem c1_witness :
    encodeV [] 6 [] (RValue.func "demo.fn") = none ∧
    WF [(1, (⟨"A", some 9, [("b", RValue.pers 2)]⟩ : PObj)),
        (2, (⟨"B", some 9,
          [("a", RValue.pers 1), ("lp", RValue.pers 9)]⟩ : PObj))] 1 = true ∧
    (∃ st i us,
      mkBundle [(1, (⟨"A", some 9, [("b", RValue.pers 2)]⟩ : PObj)),
          (2, (⟨"B", some 9,
            [("a", RValue.pers 1), ("lp", RValue.pers 9)]⟩ : PObj))] 1
        (bundleFuel [(1, (⟨"A", some 9, [("b", RValue.pers 2)]⟩ : PObj)),
          (2, (⟨"B", some 9,
            [("a", RValue.pers 1), ("lp", RValue.pers 9)]⟩ : PObj))]) = some st ∧
      unbundleRoot st 1 (unbundleFuel st) = some (i, us) ∧
      alookup 1 us.persistables = some i ∧
      (us.persistables.map Prod.fst).Nodup ∧
      (us.persistables.map Prod.snd).Nodup ∧
      (us.loaded.map Prod.fst).Nodup ∧
      (∀ l, rootLoopOf [(1, (⟨"A", some 9, [("b", RValue.pers 2)]⟩ : PObj)),
          (2, (⟨"B", some 9,
            [("a", RValue.pers 1), ("lp", RValue.pers 9)]⟩ : PObj))] 1 = some l →
        alookup l us.persistables = some 0) ∧
      (∀ q j, alookup q us.persistables = some j →
        (rootLoopOf [(1, (⟨"A", some 9, [("b", RValue.pers 2)]⟩ : PObj)),
            (2, (⟨"B", some 9,
              [("a", RValue.pers 1), ("lp", RValue.pers 9)]⟩ : PObj))] 1 =
          some q ∧ j = 0) ∨
        ∃ obj dfields,
          alookup q [(1, (⟨"A", some 9, [("b", RValue.pers 2)]⟩ : PObj)),
            (2, (⟨"B", some 9,
              [("a", RValue.pers 1), ("lp", RValue.pers 9)]⟩ : PObj))] =
            some obj ∧
          alookup j us.loaded = some ⟨obj.cls, dfields⟩ ∧
          mapDVKVs us.persistables obj.fields = some dfields)) :=
  ⟨c1_round_trip.1 [] 6 [] "demo.fn", rfl, c1_round_trip.2 _ 1 rfl⟩

/-- C8: within one bundling pass the side-table lookup by identity is
authoritative: `Bundle._ensure_bundle` on an identity already present
in the side-table returns only a `_Reference` and leaves the table
untouched, so encoding the same persistable a second time never
creates a second sub-bundle; the completed side-table of a whole pass
holds at most one entry per identity. -/
theorem c8_bundling_idempotent :
    (∀ (G : Graph) fuel st q v, alookup q st = some v →
      ensureB G (fuel + 1) st q = some st) ∧
    (∀ (G : Graph) fuel st q v, alookup q st = some v →
      encodeV G (fuel + 2) st (.pers q) = some (.ref q, st)) ∧
    (∀ (G : Graph) root st, WF G root = true →
      mkBundle G root (bundleFuel G) = some st →
      (st.map Prod.fst).Nodup) := by
  have hens : ∀ (G : Graph) fuel st q v, alookup q st = some v →
      ensureB G (fuel + 1) st q = some st := by
    intro G fuel st q v hq
    simp only [ensureB, hq]
  refine ⟨hens, ?_, ?_⟩
  · intro G fuel st q v hq
    simp only [encodeV, hens G fuel st q v hq]
  · intro G root st hwf hmk
    obtain ⟨st2, hmk2, hnd2, _⟩ := mkBundle_spec hwf
    rw [hmk] at hmk2
    injection hmk2 with hmk2
    subst hmk2
    exact hnd2

/-- Witness for C8: re-ensuring identity `3` whose sub-bundle exists
returns the table unchanged, and so does re-encoding `.pers 3`; the
table produced by a whole pass has unique identities. -/
theorem c8_witness :
    ensureB [] 5 [(3, some (⟨"A", none, []⟩ : BData))] 3 =
      some [(3, some (⟨"A", none, []⟩ : BData))] ∧
    encodeV [] 5 [(3, some (⟨"A", none, []⟩ : BData))] (RValue.pers 3) =
      some (.ref 3, [(3, some (⟨"A", none, []⟩ : BData))]) ∧
    (([(1, some (⟨"A", none, []⟩ : BData))].map Prod.fst).Nodup) :=
  ⟨c8_bundling_idempotent.1 [] 4 [(3, some ⟨"A", none, []⟩)] 3 _ rfl,
   c8_bundling_idempotent.2.1 [] 3 [(3, some ⟨"A", none, []⟩)] 3 _ rfl,
   c8_bundling_idempotent.2.2 [(1, ⟨"A", none, []⟩)] 1
     [(1, some ⟨"A", none, []⟩)] rfl rfl⟩

/-- C3 counterexample: a side-table whose only entry stores a
reference to identity `7`, which is absent from the table.
`Unbundler.get_persistable` does not consult any live-loop object
registry: `Bundle._get_bundle` raises `ValueError` as soon as the
identity is missing from `self._bundles`, so decoding the reference —
and with it the whole unbundling run — fails, even though unbundling
is performed on a live loop.  The third conjunct shows the failure
with other objects registered in the shared map. -/
theorem c3_counterexample :
    alookup 7 [(5, some (⟨"A", none, [("x", BValue.ref 7)]⟩ : BData))] = none ∧
    unbundleRoot [(5, some (⟨"A", none, [("x", BValue.ref 7)]⟩ : BData))] 5 10 =
      none ∧
    getPers [(5, some (⟨"A", none, [("x", BValue.ref 7)]⟩ : BData))] 10
      ⟨[(5, 1)], 2, [], []⟩ 7 = none :=
  ⟨rfl, rfl, rfl⟩

/-- C3 amended: `Unbundler.get_persistable` consults exactly two
places — the shared identity-to-instance map and the bundle's
side-table.  A reference absent from both is a fatal decode error
(`Bundle._get_bundle` raises `ValueError`; there is no fallback to a
live loop object registry), and an object still resident in the
running loop is reused only through its prior registration in the
shared map (the live loop itself is pre-registered as instance 0),
where the lookup returns the registered instance directly. -/
theorem c3_get_persistable_amended (T : SideTable) (fuel : Nat) (us : UState)
    (q : PId) :
    (alookup q us.persistables = none → alookup q T = none →
      getPers T fuel us q = none) ∧
    (∀ i, alookup q us.persistables = some i → 1 ≤ fuel →
      getPers T fuel us q =
        some (i, { us with events := us.events ++ [UEvent.resolve q i] })) := by
  cases fuel with
  | zero =>
    refine ⟨fun _ _ => rfl, ?_⟩
    intro i _ h1
    omega
  | succ fuel =>
    constructor
    · intro h1 h2
      simp only [getPers, h1, h2]
    · intro i hq _
      simp only [getPers, hq]

/-- Witness for the amended C3: the dangling reference `7` fails, and
the pre-registered identity `9` (the live loop at instance 0) resolves
to its registered instance with only a `resolve` event. -/
theorem c3_witness :
    getPers [(5, some (⟨"A", none, [("x", BValue.ref 7)]⟩ : BData))] 10
      ⟨[], 1, [], []⟩ 7 = none ∧
    getPers [(5, some (⟨"A", none, [("x", BValue.ref 7)]⟩ : BData))] 10
      ⟨[(9, 0)], 1, [], []⟩ 9 =
      some (0, ⟨[(9, 0)], 1, [], [UEvent.resolve 9 0]⟩) :=
  ⟨(c3_get_persistable_amended _ 10 _ 7).1 rfl rfl,
   (c3_get_persistable_amended _ 10 _ 9).2 0 rfl (by omega)⟩

/-- Witness for C7 at a concrete cancelled handle sitting in the ready
queue next to a live one. -/
theorem c7_witness :
    (LoopState.allCancelled ⟨[⟨5, 0, true, 0, none⟩, ⟨6, 1, false, 0, none⟩], []⟩ 5) ∧
    5 ∉ (ticksBase (fun _ => []) 0 3
      ⟨[⟨5, 0, true, 0, none⟩, ⟨6, 1, false, 0, none⟩], []⟩).2 := by
  have hac : LoopState.allCancelled
      ⟨[⟨5, 0, true, 0, none⟩, ⟨6, 1, false, 0, none⟩], []⟩ 5 := by
    constructor
    · intro h hh hi
      rcases List.mem_cons.mp hh with hh | hh
      · rw [hh]
      · rcases List.mem_cons.mp hh with hh | hh
        · rw [hh] at hi
          cases hi
        · cases hh
    · intro h hh
      cases hh
  exact ⟨hac, (c7_cancelled_handle_never_runs (fun _ => []) 0 _ 5 hac).1 3⟩

end Apricot









